import Mathlib

/-!
# Verification of the Comb allocator family (HiveEngine)

Shallow embedding of the CPU allocators (Linear, Stack, Pool, Slab, Buddy)
and of the Vulkan GPU sub-allocator of the Comb module, together with proofs
of the specification claims about them.

Pointers are modelled as natural-number addresses; machine `size_t`
arithmetic only ever subtracts quantities that the allocator invariants keep
ordered, so `Nat` truncated subtraction agrees with the source everywhere it
is used.  Fallible operations (those that can fire a `hive::Assert`) return
`Except String _`: an `.error` models a programming-error assertion firing.
-/

namespace Comb

/-! ## Bit utilities (comb/utils.h)

The file `utils.h` is not part of the provided sources; only its callers
are.  The definitions below are therefore modelled from the spec. -/

/-- Modelled from the spec: the assertion plumbing (`hive::Assert`) is
out of scope of the sources; per §7 a failed assertion is a programming
error that debug-terminates.  We model it as an `Except` error. -/
def hiveAssert (cond : Bool) (msg : String) : Except String Unit :=
  if cond then .ok () else .error msg

theorem hiveAssert_true {cond : Bool} {msg : String} (h : cond = true) :
    hiveAssert cond msg = .ok () := by simp [hiveAssert, h]

theorem hiveAssert_false {cond : Bool} {msg : String} (h : cond = false) :
    hiveAssert cond msg = .error msg := by simp [hiveAssert, h]

@[simp] theorem ok_bind {α β : Type} (a : α) (f : α → Except String β) :
    (Except.ok a >>= f) = f a := rfl

@[simp] theorem error_bind {α β : Type} (e : String) (f : α → Except String β) :
    ((Except.error e : Except String α) >>= f) = Except.error e := rfl

@[simp] theorem pure_eq_ok {α : Type} (a : α) :
    (pure a : Except String α) = Except.ok a := rfl

/-- Modelled from the spec: bit utility `next-power-of-two` from the missing
`utils.h` (§2 "next-power-of-two"); smallest power of two that is ≥ the
argument.  Fuel-based loop that doubles an accumulator starting from 1. -/
def npotAux (x : Nat) : Nat → Nat → Nat
  | 0, p => p
  | fuel + 1, p => if x ≤ p then p else npotAux x fuel (2 * p)

/-- Modelled from the spec: `NextPowerOfTwo(x)` = smallest power of two ≥ x
(and 1 for x ≤ 1). -/
def NextPowerOfTwo (x : Nat) : Nat := npotAux x x 1

/-- Modelled from the spec: bit utility `align-up` from the missing
`utils.h` (§4.1: `aligned = align_up(current, align)`); smallest multiple
of `align` that is ≥ `addr` (for `align ≥ 1`). -/
def AlignUp (addr align : Nat) : Nat := ((addr + align - 1) / align) * align

/-- Fuel-based helper for `IsPowerOfTwo`. -/
def isPow2Aux : Nat → Nat → Bool
  | 0, _ => false
  | fuel + 1, n =>
    if n = 0 then false
    else if n = 1 then true
    else if n % 2 = 1 then false
    else isPow2Aux fuel (n / 2)

/-- Modelled from the spec: bit utility `is-power-of-two` from the missing
`utils.h` (§2). -/
def IsPowerOfTwo (n : Nat) : Bool := isPow2Aux n n

theorem npotAux_pow (x : Nat) :
    ∀ fuel p, (∃ k, p = 2 ^ k) → ∃ k, npotAux x fuel p = 2 ^ k := by
  intro fuel
  induction fuel with
  | zero => intro p hp; exact hp
  | succ n ih =>
    intro p hp
    unfold npotAux
    split
    · exact hp
    · obtain ⟨k, hk⟩ := hp
      exact ih (2 * p) ⟨k + 1, by rw [hk]; ring⟩

theorem npotAux_ge (x : Nat) :
    ∀ fuel p, 1 ≤ p → x ≤ fuel + p → x ≤ npotAux x fuel p := by
  intro fuel
  induction fuel with
  | zero => intro p _ h; simpa [npotAux] using h
  | succ n ih =>
    intro p hp h
    unfold npotAux
    split
    · assumption
    · exact ih (2 * p) (by omega) (by omega)

theorem npotAux_min (x : Nat) :
    ∀ fuel p m, p ≤ m → x ≤ m → (∃ k, p = 2 ^ k) → (∃ j, m = 2 ^ j) →
      npotAux x fuel p ≤ m := by
  intro fuel
  induction fuel with
  | zero => intro p m hpm _ _ _; simpa [npotAux] using hpm
  | succ n ih =>
    intro p m hpm hxm hp hm
    obtain ⟨k, hk⟩ := hp
    obtain ⟨j, hj⟩ := hm
    unfold npotAux
    split
    · exact hpm
    · rename_i hxp
      have hlt : p < m := by omega
      have hkj : k < j := by
        by_contra hc
        push_neg at hc
        have := Nat.pow_le_pow_right (show 1 ≤ 2 by norm_num) hc
        omega
      have h2p : 2 * p ≤ m := by
        have hstep : 2 ^ (k + 1) ≤ 2 ^ j :=
          Nat.pow_le_pow_right (by norm_num) (by omega)
        calc 2 * p = 2 ^ (k + 1) := by rw [hk]; ring
          _ ≤ 2 ^ j := hstep
          _ = m := hj.symm
      exact ih (2 * p) m h2p hxm ⟨k + 1, by rw [hk]; ring⟩ ⟨j, hj⟩

theorem NextPowerOfTwo_pow (x : Nat) : ∃ k, NextPowerOfTwo x = 2 ^ k :=
  npotAux_pow x x 1 ⟨0, rfl⟩

theorem le_NextPowerOfTwo (x : Nat) : x ≤ NextPowerOfTwo x :=
  npotAux_ge x x 1 (by omega) (by omega)

theorem NextPowerOfTwo_le {x m : Nat} (hx : x ≤ m) (hm : ∃ j, m = 2 ^ j) :
    NextPowerOfTwo x ≤ m := by
  obtain ⟨j, hj⟩ := hm
  have h1m : 1 ≤ m := by
    rw [hj]; exact Nat.one_le_two_pow
  exact npotAux_min x x 1 m h1m hx ⟨0, rfl⟩ ⟨j, hj⟩

theorem NextPowerOfTwo_pow_self {k : Nat} : NextPowerOfTwo (2 ^ k) = 2 ^ k :=
  Nat.le_antisymm (NextPowerOfTwo_le le_rfl ⟨k, rfl⟩) (le_NextPowerOfTwo _)

theorem le_AlignUp (addr align : Nat) (h : 1 ≤ align) : addr ≤ AlignUp addr align := by
  unfold AlignUp
  have hd := Nat.div_add_mod (addr + align - 1) align
  have hm : (addr + align - 1) % align < align := Nat.mod_lt _ (by omega)
  rw [Nat.mul_comm] at hd
  omega

theorem AlignUp_lt (addr align : Nat) (h : 1 ≤ align) :
    AlignUp addr align < addr + align := by
  unfold AlignUp
  have hd := Nat.div_add_mod (addr + align - 1) align
  rw [Nat.mul_comm] at hd
  omega

theorem AlignUp_dvd (addr align : Nat) : align ∣ AlignUp addr align :=
  Dvd.intro_left _ rfl

theorem AlignUp_one (addr : Nat) : AlignUp addr 1 = addr := by
  simp [AlignUp]

theorem isPow2Aux_iff :
    ∀ fuel n, n ≤ fuel → (isPow2Aux fuel n = true ↔ ∃ k, n = 2 ^ k) := by
  intro fuel
  induction fuel with
  | zero =>
    intro n hn
    interval_cases n
    simp only [isPow2Aux]
    constructor
    · intro h; cases h
    · rintro ⟨k, hk⟩
      have := Nat.pos_pow_of_pos k (show 0 < 2 by norm_num)
      omega
  | succ fuel ih =>
    intro n hn
    unfold isPow2Aux
    split
    · subst n
      constructor
      · intro h; cases h
      · rintro ⟨k, hk⟩
        have := Nat.pos_pow_of_pos k (show 0 < 2 by norm_num)
        omega
    · split
      · rename_i h0 h1
        subst n
        exact ⟨fun _ => ⟨0, rfl⟩, fun _ => rfl⟩
      · split
        · rename_i h0 h1 hodd
          constructor
          · intro h; cases h
          · rintro ⟨k, hk⟩
            match k with
            | 0 => omega
            | k + 1 =>
              have : n % 2 = 0 := by
                subst hk
                simp [Nat.pow_succ, Nat.mul_mod]
              omega
        · rename_i h0 h1 heven
          have hrec := ih (n / 2) (by omega)
          rw [hrec]
          constructor
          · rintro ⟨k, hk⟩
            refine ⟨k + 1, ?_⟩
            have : n % 2 = 0 := by omega
            have hself := Nat.div_add_mod n 2
            rw [Nat.pow_succ]
            omega
          · rintro ⟨k, hk⟩
            match k with
            | 0 => exact absurd hk (by omega)
            | k + 1 =>
              refine ⟨k, ?_⟩
              rw [hk, Nat.pow_succ]
              omega

theorem IsPowerOfTwo_iff (n : Nat) : IsPowerOfTwo n = true ↔ ∃ k, n = 2 ^ k :=
  isPow2Aux_iff n n le_rfl

/-! ## LinearAllocator (comb/linear_allocator.{h,cpp})

State: base address of the arena, the bump cursor (an address), and the
capacity in bytes.  `Allocate`, `Deallocate`, `Reset`, `GetMarker`,
`ResetToMarker`, `GetUsedMemory`, `GetTotalMemory` follow
`src/Comb/src/comb/linear_allocator.cpp`. -/

structure LinearAllocator where
  base : Nat
  current : Nat
  capacity : Nat
  deriving Repr, DecidableEq

namespace LinearAllocator

/-- Well-formedness maintained by the constructor and all operations:
the cursor stays inside `[base, base + capacity]`. -/
def WF (st : LinearAllocator) : Prop :=
  st.base ≤ st.current ∧ st.current ≤ st.base + st.capacity

instance (st : LinearAllocator) : Decidable (WF st) := by
  unfold WF; infer_instance

/-- `LinearAllocator::Allocate` (linear_allocator.cpp:58-79). -/
def Allocate (st : LinearAllocator) (size alignment : Nat) :
    Except String (Option Nat × LinearAllocator) := do
  hiveAssert (IsPowerOfTwo alignment) "Alignment must be a power of 2"
  hiveAssert (decide (size > 0)) "Cannot allocate 0 bytes"
  let current_addr := st.current
  let aligned_addr := AlignUp current_addr alignment
  let padding := aligned_addr - current_addr
  let required := padding + size
  let used := current_addr - st.base
  let remaining := st.capacity - used
  if required > remaining then
    return (none, st)
  else
    return (some aligned_addr, { st with current := aligned_addr + size })

/-- `LinearAllocator::Deallocate` (linear_allocator.cpp:81-84): no-op. -/
def Deallocate (st : LinearAllocator) (_ptr : Option Nat) : LinearAllocator := st

/-- `LinearAllocator::Reset` (linear_allocator.cpp:86-89). -/
def Reset (st : LinearAllocator) : LinearAllocator := { st with current := st.base }

/-- `LinearAllocator::GetMarker` (linear_allocator.cpp:91-94). -/
def GetMarker (st : LinearAllocator) : Nat := st.current

/-- `LinearAllocator::ResetToMarker` (linear_allocator.cpp:96-106). -/
def ResetToMarker (st : LinearAllocator) (marker : Nat) :
    Except String LinearAllocator := do
  hiveAssert (decide (st.base ≤ marker ∧ marker ≤ st.base + st.capacity))
    "Marker is outside allocator memory range"
  return { st with current := marker }

/-- `LinearAllocator::GetUsedMemory` (linear_allocator.cpp:108-111). -/
def GetUsedMemory (st : LinearAllocator) : Nat := st.current - st.base

/-- `LinearAllocator::GetTotalMemory` (linear_allocator.cpp:113-116). -/
def GetTotalMemory (st : LinearAllocator) : Nat := st.capacity

end LinearAllocator

/-! ## StackAllocator (comb/stack_allocator.h)

State: base address of the page block, capacity, and the current offset
(the marker type is an offset, `size_t`). -/

structure StackAllocator where
  memory_block : Nat
  capacity : Nat
  current : Nat
  deriving Repr, DecidableEq

namespace StackAllocator

/-- Well-formedness maintained by all operations: `current ≤ capacity`. -/
def WF (st : StackAllocator) : Prop := st.current ≤ st.capacity

instance (st : StackAllocator) : Decidable (WF st) := by
  unfold WF; infer_instance

/-- `StackAllocator::Allocate` (stack_allocator.h:166-193). -/
def Allocate (st : StackAllocator) (size alignment : Nat) :
    Except String (Option Nat × StackAllocator) := do
  hiveAssert (decide (size > 0)) "Cannot allocate 0 bytes"
  hiveAssert (IsPowerOfTwo alignment) "Alignment must be power of 2"
  let current_addr := st.memory_block + st.current
  let aligned_addr := AlignUp current_addr alignment
  let aligned_current := aligned_addr - st.memory_block
  let padding := aligned_current - st.current
  let required := padding + size
  let remaining := st.capacity - st.current
  if required > remaining then
    return (none, st)
  else
    return (some aligned_addr, { st with current := aligned_current + size })

/-- `StackAllocator::Deallocate` (stack_allocator.h:204-209): no-op. -/
def Deallocate (st : StackAllocator) (_ptr : Option Nat) : StackAllocator := st

/-- `StackAllocator::GetMarker` (stack_allocator.h:217-220). -/
def GetMarker (st : StackAllocator) : Nat := st.current

/-- `StackAllocator::FreeToMarker` (stack_allocator.h:232-238). -/
def FreeToMarker (st : StackAllocator) (marker : Nat) :
    Except String StackAllocator := do
  hiveAssert (decide (marker ≤ st.current)) "Invalid marker (beyond current position)"
  hiveAssert (decide (marker ≤ st.capacity)) "Invalid marker (beyond capacity)"
  return { st with current := marker }

/-- `StackAllocator::Reset` (stack_allocator.h:244-247). -/
def Reset (st : StackAllocator) : StackAllocator := { st with current := 0 }

/-- `StackAllocator::GetUsedMemory` (stack_allocator.h:253-256). -/
def GetUsedMemory (st : StackAllocator) : Nat := st.current

/-- `StackAllocator::GetTotalMemory` (stack_allocator.h:262-265). -/
def GetTotalMemory (st : StackAllocator) : Nat := st.capacity

end StackAllocator

theorem one_le_of_isPowerOfTwo {align : Nat} (hal : IsPowerOfTwo align = true) :
    1 ≤ align := by
  obtain ⟨k, hk⟩ := (IsPowerOfTwo_iff align).mp hal
  subst hk
  exact Nat.one_le_two_pow

/-- Closed-form description of `LinearAllocator::Allocate` under the
allocator invariant: fail (without mutation) iff the aligned request
overruns `base + capacity`. -/
theorem LinearAllocator.linear_allocate_spec (st : LinearAllocator) (size align : Nat)
    (hwf : st.WF) (hal : IsPowerOfTwo align = true) (hsz : 0 < size) :
    st.Allocate size align =
      if st.base + st.capacity < AlignUp st.current align + size then
        .ok (none, st)
      else
        .ok (some (AlignUp st.current align),
             { st with current := AlignUp st.current align + size }) := by
  obtain ⟨h1, h2⟩ := hwf
  have hle := le_AlignUp st.current align (one_le_of_isPowerOfTwo hal)
  have hiff : (st.capacity - (st.current - st.base) <
      AlignUp st.current align - st.current + size) ↔
      (st.base + st.capacity < AlignUp st.current align + size) := by omega
  simp only [Allocate, hiveAssert, hal, if_true, decide_eq_true_eq]
  simp only [gt_iff_lt, hiff]
  simp [hsz]

/-- Closed-form description of `StackAllocator::Allocate` under the
allocator invariant. -/
theorem StackAllocator.stack_allocate_spec (st : StackAllocator) (size align : Nat)
    (hwf : st.WF) (hal : IsPowerOfTwo align = true) (hsz : 0 < size) :
    st.Allocate size align =
      if st.memory_block + st.capacity <
          AlignUp (st.memory_block + st.current) align + size then
        .ok (none, st)
      else
        .ok (some (AlignUp (st.memory_block + st.current) align),
             { st with current :=
                AlignUp (st.memory_block + st.current) align - st.memory_block + size }) := by
  have hwf' : st.current ≤ st.capacity := hwf
  have hle := le_AlignUp (st.memory_block + st.current) align
    (one_le_of_isPowerOfTwo hal)
  have hiff : (st.capacity - st.current <
      AlignUp (st.memory_block + st.current) align - st.memory_block - st.current + size) ↔
      (st.memory_block + st.capacity <
        AlignUp (st.memory_block + st.current) align + size) := by omega
  simp only [Allocate, hiveAssert, hal, if_true, decide_eq_true_eq]
  simp only [gt_iff_lt, hiff]
  simp [hsz]

/-- C3: Linear and Stack `Allocate(size, align)` compute
`aligned = align_up(current, align)`; when `aligned + size > base + capacity`
they return null leaving the state unchanged, otherwise they set the cursor
to `aligned + size` and return `aligned`; on an empty allocator a single
allocation of exactly `capacity` bytes (alignment 1) succeeds, and one of
`capacity + 1` bytes returns null with `used == 0`. -/
theorem C3_linear_stack_allocate_contract :
    (∀ (st : LinearAllocator) (size align : Nat),
      st.WF → IsPowerOfTwo align = true → 0 < size →
      (AlignUp st.current align + size > st.base + st.capacity →
        st.Allocate size align = .ok (none, st)) ∧
      (AlignUp st.current align + size ≤ st.base + st.capacity →
        st.Allocate size align =
          .ok (some (AlignUp st.current align),
               { st with current := AlignUp st.current align + size }))) ∧
    (∀ (st : StackAllocator) (size align : Nat),
      st.WF → IsPowerOfTwo align = true → 0 < size →
      (AlignUp (st.memory_block + st.current) align + size >
          st.memory_block + st.capacity →
        st.Allocate size align = .ok (none, st)) ∧
      (AlignUp (st.memory_block + st.current) align + size ≤
          st.memory_block + st.capacity →
        st.Allocate size align =
          .ok (some (AlignUp (st.memory_block + st.current) align),
               { st with current :=
                  AlignUp (st.memory_block + st.current) align
                    - st.memory_block + size }))) ∧
    (∀ base cap : Nat, 0 < cap →
      (LinearAllocator.mk base base cap).Allocate cap 1 =
        .ok (some base, LinearAllocator.mk base (base + cap) cap) ∧
      (LinearAllocator.mk base base cap).Allocate (cap + 1) 1 =
        .ok (none, LinearAllocator.mk base base cap) ∧
      (LinearAllocator.mk base base cap).GetUsedMemory = 0) ∧
    (∀ blk cap : Nat, 0 < cap →
      (StackAllocator.mk blk cap 0).Allocate cap 1 =
        .ok (some blk, StackAllocator.mk blk cap cap) ∧
      (StackAllocator.mk blk cap 0).Allocate (cap + 1) 1 =
        .ok (none, StackAllocator.mk blk cap 0) ∧
      (StackAllocator.mk blk cap 0).GetUsedMemory = 0) := by
  have hpow1 : IsPowerOfTwo 1 = true := (IsPowerOfTwo_iff 1).mpr ⟨0, rfl⟩
  refine ⟨?_, ?_, ?_, ?_⟩
  · intro st size align hwf hal hsz
    rw [LinearAllocator.linear_allocate_spec st size align hwf hal hsz]
    constructor
    · intro h; rw [if_pos (by omega)]
    · intro h; rw [if_neg (by omega)]
  · intro st size align hwf hal hsz
    rw [StackAllocator.stack_allocate_spec st size align hwf hal hsz]
    constructor
    · intro h; rw [if_pos (by omega)]
    · intro h; rw [if_neg (by omega)]
  · intro base cap hcap
    have hwf : (LinearAllocator.mk base base cap).WF :=
      ⟨Nat.le_refl _, Nat.le_add_right _ _⟩
    refine ⟨?_, ?_, ?_⟩
    · rw [LinearAllocator.linear_allocate_spec _ cap 1 hwf hpow1 hcap]
      split
      · rename_i h; exfalso; simp [AlignUp_one] at h
      · simp [AlignUp_one]
    · rw [LinearAllocator.linear_allocate_spec _ (cap + 1) 1 hwf hpow1 (by omega)]
      split
      · rfl
      · rename_i h; exfalso; simp [AlignUp_one] at h
    · simp [LinearAllocator.GetUsedMemory]
  · intro blk cap hcap
    have hwf : (StackAllocator.mk blk cap 0).WF := Nat.zero_le _
    refine ⟨?_, ?_, ?_⟩
    · rw [StackAllocator.stack_allocate_spec _ cap 1 hwf hpow1 hcap]
      split
      · rename_i h; exfalso; simp [AlignUp_one] at h
      · simp [AlignUp_one]
    · rw [StackAllocator.stack_allocate_spec _ (cap + 1) 1 hwf hpow1 (by omega)]
      split
      · rfl
      · rename_i h; exfalso; simp [AlignUp_one] at h
    · simp [StackAllocator.GetUsedMemory]

/-- Witness for C3 at a concrete state: base 100, capacity 16, cursor 104,
alignment 8 (aligned address 104): allocating 8 bytes succeeds in place. -/
theorem C3_witness :
    (LinearAllocator.mk 100 104 16).Allocate 8 8 =
      .ok (some 104, LinearAllocator.mk 100 112 16) ∧
    (StackAllocator.mk 100 16 4).Allocate 8 8 =
      .ok (some 104, StackAllocator.mk 100 16 12) ∧
    (LinearAllocator.mk 0 0 1024).Allocate 1024 1 =
      .ok (some 0, LinearAllocator.mk 0 1024 1024) := by
  obtain ⟨hlin, hstk, hbound, _⟩ := C3_linear_stack_allocate_contract
  have h8 : IsPowerOfTwo 8 = true := by decide
  refine ⟨?_, ?_, ?_⟩
  · have := (hlin (LinearAllocator.mk 100 104 16) 8 8 ⟨by decide, by decide⟩
      h8 (by decide)).2
    simpa [AlignUp] using this (by decide)
  · have := (hstk (StackAllocator.mk 100 16 4) 8 8 (by decide)
      h8 (by decide)).2
    simpa [AlignUp] using this (by decide)
  · exact (hbound 0 1024 (by decide)).1

/-- C6 counterexample: on the Linear allocator a zero-size request with
power-of-two alignment 8 is *not* accepted: it fires the
`"Cannot allocate 0 bytes"` assertion (a programming error). -/
theorem C6_counterexample :
    (LinearAllocator.mk 0 0 1024).Allocate 0 8 =
      .error "Cannot allocate 0 bytes" := by
  have h8 : IsPowerOfTwo 8 = true := by decide
  simp [LinearAllocator.Allocate, hiveAssert, h8]

/-- C6 (amended): for the Linear allocator a zero-size request (with any
power-of-two alignment) is a programming error: the `size > 0` assertion
fires and the state is not mutated.  Allocation (of any size) never makes
`used` exceed `capacity`: well-formedness is preserved by every
`Allocate` call. -/
theorem C6_zero_size_rejected_capacity_safe :
    (∀ (st : LinearAllocator) (align : Nat), IsPowerOfTwo align = true →
      st.Allocate 0 align = .error "Cannot allocate 0 bytes") ∧
    (∀ (st : LinearAllocator) (size align : Nat)
        (out : Option Nat × LinearAllocator),
      st.WF → st.Allocate size align = .ok out →
      out.2.WF ∧ out.2.GetUsedMemory ≤ out.2.capacity) := by
  constructor
  · intro st align hal
    simp [LinearAllocator.Allocate, hiveAssert, hal]
  · intro st size align out hwf hok
    rcases hpow : IsPowerOfTwo align with _ | _
    · rw [LinearAllocator.Allocate, hiveAssert, hpow] at hok
      simp at hok
    · rcases hsz : decide (0 < size) with _ | _
      · rw [LinearAllocator.Allocate, hiveAssert, hpow] at hok
        simp only [if_true] at hok
        rw [hiveAssert, hsz] at hok
        simp at hok
      · have hszn : 0 < size := of_decide_eq_true hsz
        rw [LinearAllocator.linear_allocate_spec st size align hwf hpow hszn] at hok
        obtain ⟨h1, h2⟩ := hwf
        have hle := le_AlignUp st.current align (one_le_of_isPowerOfTwo hpow)
        split at hok
        · cases hok
          refine ⟨⟨h1, h2⟩, ?_⟩
          simp [LinearAllocator.GetUsedMemory]; omega
        · rename_i hfit
          cases hok
          refine ⟨⟨by simp; omega, by simp; omega⟩, ?_⟩
          simp [LinearAllocator.GetUsedMemory]
          omega

/-- Witness for C6 (amended) at concrete inputs. -/
theorem C6_witness :
    (LinearAllocator.mk 5 5 64).Allocate 0 16 = .error "Cannot allocate 0 bytes" ∧
    ((LinearAllocator.mk 5 5 64).WF ∧
      LinearAllocator.WF (LinearAllocator.mk 5 21 64)) := by
  refine ⟨?_, by constructor <;> (constructor <;> decide)⟩
  exact C6_zero_size_rejected_capacity_safe.1 (LinearAllocator.mk 5 5 64) 16 (by decide)

/-- C9: `reset_to_marker(get_marker())` is a no-op for both the Linear
allocator (`ResetToMarker`) and the Stack allocator (`FreeToMarker`):
in every well-formed state no assertion fires and the state (cursor,
used, capacity) is returned unchanged. -/
theorem C9_reset_to_marker_noop :
    (∀ st : LinearAllocator, st.WF →
      st.ResetToMarker st.GetMarker = .ok st) ∧
    (∀ st : StackAllocator, st.WF →
      st.FreeToMarker st.GetMarker = .ok st) := by
  constructor
  · intro st hwf
    obtain ⟨h1, h2⟩ := hwf
    simp [LinearAllocator.ResetToMarker, LinearAllocator.GetMarker, hiveAssert,
      h1, h2]
  · intro st hwf
    have h : st.current ≤ st.capacity := hwf
    simp [StackAllocator.FreeToMarker, StackAllocator.GetMarker, hiveAssert, h]

/-- Witness for C9 at concrete well-formed states. -/
theorem C9_witness :
    (LinearAllocator.mk 40 52 100).ResetToMarker
        (LinearAllocator.mk 40 52 100).GetMarker =
      .ok (LinearAllocator.mk 40 52 100) ∧
    (StackAllocator.mk 40 100 52).FreeToMarker
        (StackAllocator.mk 40 100 52).GetMarker =
      .ok (StackAllocator.mk 40 100 52) :=
  ⟨C9_reset_to_marker_noop.1 _ (by constructor <;> decide),
   C9_reset_to_marker_noop.2 _ (by decide)⟩

/-! ## PoolAllocator (comb/pool_allocator.h)

`PoolAllocator<T>` is parameterised by the C++ type `T` only through
`sizeof(T)` and `alignof(T)`, which we carry in the state.  The singly
linked free list threading through the free slots is modelled as the list
of slot addresses in chain order (head = `free_list_head_`). -/

structure PoolAllocator where
  sizeofT : Nat
  alignofT : Nat
  capacity : Nat
  used_count : Nat
  free_list : List Nat
  deriving Repr, DecidableEq

namespace PoolAllocator

/-- `PoolAllocator::Allocate` (pool_allocator.h:172-189): pop the
free-list head. -/
def Allocate (st : PoolAllocator) (size alignment : Nat) :
    Except String (Option Nat × PoolAllocator) := do
  hiveAssert (decide (size ≤ st.sizeofT))
    "PoolAllocator can only allocate sizeof(T) bytes"
  hiveAssert (decide (alignment ≤ st.alignofT))
    "PoolAllocator alignment limited to alignof(T)"
  match st.free_list with
  | [] => return (none, st)
  | p :: rest =>
      return (some p,
        { st with free_list := rest, used_count := st.used_count + 1 })

/-- `PoolAllocator::Deallocate` (pool_allocator.h:200-211): null is a
no-op; otherwise push onto the free-list head. -/
def Deallocate (st : PoolAllocator) (ptr : Option Nat) :
    Except String PoolAllocator := do
  match ptr with
  | none => return st
  | some p => do
      hiveAssert (decide (st.used_count > 0))
        "Deallocate called more times than Allocate"
      return { st with free_list := p :: st.free_list,
                       used_count := st.used_count - 1 }

/-- `PoolAllocator::GetUsedMemory` (pool_allocator.h:243-246). -/
def GetUsedMemory (st : PoolAllocator) : Nat := st.used_count * st.sizeofT

/-- `PoolAllocator::GetUsedCount` (pool_allocator.h:279-282). -/
def GetUsedCount (st : PoolAllocator) : Nat := st.used_count

end PoolAllocator

/-- C7: for the Pool allocator, deallocating a live slot `p` and then
immediately allocating returns exactly `p` (the free-list push/pop is
LIFO), and every successful `Allocate` immediately followed by
`Deallocate` of its result leaves `used_count` (hence `GetUsedMemory`)
unchanged. -/
theorem C7_pool_lifo_recycle :
    (∀ (st : PoolAllocator) (p size alignment : Nat),
      0 < st.used_count → size ≤ st.sizeofT → alignment ≤ st.alignofT →
      ∃ st' : PoolAllocator,
        st.Deallocate (some p) = .ok st' ∧
        st'.Allocate size alignment =
          .ok (some p, { st' with free_list := st.free_list,
                                  used_count := st.used_count })) ∧
    (∀ (st st' st'' : PoolAllocator) (q size alignment : Nat),
      st.Allocate size alignment = .ok (some q, st') →
      st'.Deallocate (some q) = .ok st'' →
      st''.GetUsedCount = st.GetUsedCount ∧
      st''.GetUsedMemory = st.GetUsedMemory) := by
  constructor
  · intro st p size alignment hused hsz hal
    refine ⟨⟨st.sizeofT, st.alignofT, st.capacity,
      st.used_count - 1, p :: st.free_list⟩, ?_, ?_⟩
    · simp [PoolAllocator.Deallocate, hiveAssert_true (decide_eq_true hused)]
    · simp only [PoolAllocator.Allocate, hiveAssert_true (decide_eq_true hsz),
        hiveAssert_true (decide_eq_true hal), ok_bind]
      have : st.used_count - 1 + 1 = st.used_count := by omega
      simp [this]
  · intro st st' st'' q size alignment halloc hdealloc
    rcases h1 : decide (size ≤ st.sizeofT) with _ | _ <;>
      rcases h2 : decide (alignment ≤ st.alignofT) with _ | _ <;>
      simp only [PoolAllocator.Allocate, hiveAssert, h1, h2, Bool.false_eq_true,
        if_false, if_true, error_bind, ok_bind] at halloc
    · cases halloc
    · cases halloc
    · cases halloc
    · match hfl : st.free_list with
      | [] => rw [hfl] at halloc; simp at halloc
      | p :: rest =>
        rw [hfl] at halloc
        simp at halloc
        obtain ⟨hq, hst'⟩ := halloc
        subst hst'
        simp only [PoolAllocator.Deallocate,
          hiveAssert_true (show decide (st.used_count + 1 > 0) = true by
            simp), ok_bind] at hdealloc
        simp at hdealloc
        subst hdealloc
        simp [PoolAllocator.GetUsedCount, PoolAllocator.GetUsedMemory]

/-- Witness for C7: a concrete pool (sizeof 16, alignof 8, capacity 3) with
one live slot and free list `[200, 300]`: deallocate slot 100, then
allocate — and the pair returns exactly slot 100 with counts restored. -/
theorem C7_witness :
    ∃ st' : PoolAllocator,
      (PoolAllocator.mk 16 8 3 1 [200, 300]).Deallocate (some 100) = .ok st' ∧
      st'.Allocate 16 8 =
        .ok (some 100, { st' with free_list := [200, 300], used_count := 1 }) := by
  obtain ⟨st', h1, h2⟩ :=
    C7_pool_lifo_recycle.1 (PoolAllocator.mk 16 8 3 1 [200, 300]) 100 16 8
      (by decide) (by decide) (by decide)
  exact ⟨st', h1, h2⟩

theorem list_set_self {α : Type} (l : List α) (n : Nat) (h : n < l.length) :
    l.set n l[n] = l := by
  apply List.ext_getElem
  · simp
  · intro i h1 h2
    rw [List.getElem_set]
    split
    · rename_i he; subst he; rfl
    · rfl

/-! ## SlabAllocator (comb/slab_allocator.h)

One `Slab` per size class; the slab's singly linked free list is again the
list of slot addresses in chain order.  The compile-time parameters
`ObjectsPerSlab` and the rounded `sizes_` array become run-time data:
`objectsPerSlab` and each slab's `slot_size` (`Slab::Initialize` sets
`slot_size = sizes_[i]`). -/

structure Slab where
  base : Nat
  free_list : List Nat
  used_count : Nat
  slot_size : Nat
  deriving Repr, DecidableEq

structure SlabAllocator where
  objectsPerSlab : Nat
  slabs : List Slab
  deriving Repr, DecidableEq

namespace Slab

/-- `Slab::Allocate` (slab_allocator.h:142-153): pop the free-list head. -/
def AllocateOne (s : Slab) : Option Nat × Slab :=
  match s.free_list with
  | [] => (none, s)
  | p :: rest =>
      (some p, { s with free_list := rest, used_count := s.used_count + 1 })

/-- `Slab::Deallocate` (slab_allocator.h:155-165) for a non-null pointer. -/
def DeallocateOne (s : Slab) (p : Nat) : Except String Slab := do
  hiveAssert (decide (s.used_count > 0)) "Deallocate called more than Allocate"
  return { s with free_list := p :: s.free_list, used_count := s.used_count - 1 }

/-- `Slab::Contains` (slab_allocator.h:167-177) for a non-null pointer of an
initialized slab (`memory_block != nullptr`). -/
def Contains (objectsPerSlab : Nat) (s : Slab) (p : Nat) : Bool :=
  decide (s.base ≤ p) && decide (p < s.base + objectsPerSlab * s.slot_size)

end Slab

/-- `SlabAllocator::FindSlabIndex` (slab_allocator.h:198-208): first index
whose size class fits, else the number of slabs. -/
def FindSlabIndex (size : Nat) : List Nat → Nat
  | [] => 0
  | c :: rest => if size ≤ c then 0 else FindSlabIndex size rest + 1

namespace SlabAllocator

/-- The rounded size-class array `sizes_` (slab_allocator.h:89):
by construction `slabs_[i].slot_size = sizes_[i]`. -/
def sizes (st : SlabAllocator) : List Nat := st.slabs.map Slab.slot_size

/-- `SlabAllocator::Allocate` (slab_allocator.h:284-298). -/
def Allocate (st : SlabAllocator) (size alignment : Nat) :
    Except String (Option Nat × SlabAllocator) := do
  hiveAssert (decide (alignment ≤ 16))
    "SlabAllocator alignment limited to max_align_t"
  let slab_index := FindSlabIndex size st.sizes
  if slab_index ≥ st.slabs.length then
    return (none, st)
  else
    let s := st.slabs.getD slab_index ⟨0, [], 0, 0⟩
    let res := s.AllocateOne
    return (res.1, { st with slabs := st.slabs.set slab_index res.2 })

/-- The pointer-ownership scan of `SlabAllocator::Deallocate`
(slab_allocator.h:313-324): route to the first slab containing `p`;
a foreign pointer is a fatal programming error (slab_allocator.h:324). -/
def deallocScan (objectsPerSlab : Nat) (p : Nat) :
    List Slab → Except String (List Slab)
  | [] => .error "Pointer not allocated from this SlabAllocator"
  | s :: rest =>
    if Slab.Contains objectsPerSlab s p then do
      let s' ← s.DeallocateOne p
      return (s' :: rest)
    else do
      let rest' ← deallocScan objectsPerSlab p rest
      return (s :: rest')

/-- `SlabAllocator::Deallocate` (slab_allocator.h:308-325): null is a
no-op (early return before the ownership scan). -/
def Deallocate (st : SlabAllocator) (ptr : Option Nat) :
    Except String SlabAllocator :=
  match ptr with
  | none => return st
  | some p => do
      let slabs' ← deallocScan st.objectsPerSlab p st.slabs
      return { st with slabs := slabs' }

end SlabAllocator

theorem FindSlabIndex_le (size : Nat) :
    ∀ sizes : List Nat, FindSlabIndex size sizes ≤ sizes.length := by
  intro sizes
  induction sizes with
  | nil => simp [FindSlabIndex]
  | cons c rest ih =>
    simp only [FindSlabIndex]
    split
    · simp
    · simp; omega

theorem FindSlabIndex_fits (size : Nat) :
    ∀ sizes : List Nat, FindSlabIndex size sizes < sizes.length →
      size ≤ sizes.getD (FindSlabIndex size sizes) 0 := by
  intro sizes
  induction sizes with
  | nil => simp [FindSlabIndex]
  | cons c rest ih =>
    simp only [FindSlabIndex]
    split
    · intro _; simpa
    · intro h
      simp only [List.length_cons, Nat.add_lt_add_iff_right] at h
      simpa using ih h

theorem FindSlabIndex_first (size : Nat) :
    ∀ sizes : List Nat, ∀ j < FindSlabIndex size sizes,
      sizes.getD j 0 < size := by
  intro sizes
  induction sizes with
  | nil => simp [FindSlabIndex]
  | cons c rest ih =>
    intro j hj
    simp only [FindSlabIndex] at hj
    split at hj
    · omega
    · rename_i hc
      match j with
      | 0 => simpa using by omega
      | j + 1 =>
        simp only [List.getD_cons_succ]
        exact ih j (by omega)

theorem FindSlabIndex_eq_length_iff (size : Nat) :
    ∀ sizes : List Nat,
      FindSlabIndex size sizes = sizes.length ↔ ∀ c ∈ sizes, c < size := by
  intro sizes
  induction sizes with
  | nil => simp [FindSlabIndex]
  | cons c rest ih =>
    simp only [FindSlabIndex, List.length_cons, List.mem_cons]
    split
    · rename_i hc
      constructor
      · intro h; omega
      · intro h
        have := h c (Or.inl rfl)
        omega
    · rename_i hc
      rw [Nat.add_right_cancel_iff, ih]
      constructor
      · intro h x hx
        rcases hx with rfl | hx
        · omega
        · exact h x hx
      · intro h x hx
        exact h x (Or.inr hx)

/-- C4: a Slab request of size `s` is served by the smallest slab whose
rounded size class is ≥ `s` (`FindSlabIndex` returns the first — and, the
classes being sorted, smallest — fitting class, or the slab count when no
class fits); when no class fits, or the unique selected slab's free list is
empty, `Allocate` returns null with untouched state and no fallback to a
larger slab; with classes {32,64,128,256,512}, a 60-byte request is served
from the 64-byte slab (index 1) and a 200-byte request from the 256-byte
slab (index 3). -/
theorem C4_slab_routing :
    (∀ (size : Nat) (sizes : List Nat),
      FindSlabIndex size sizes ≤ sizes.length ∧
      (FindSlabIndex size sizes < sizes.length →
        size ≤ sizes.getD (FindSlabIndex size sizes) 0) ∧
      (∀ j < FindSlabIndex size sizes, sizes.getD j 0 < size) ∧
      (FindSlabIndex size sizes = sizes.length ↔ ∀ c ∈ sizes, c < size)) ∧
    (∀ (st : SlabAllocator) (size alignment : Nat), alignment ≤ 16 →
      FindSlabIndex size st.sizes = st.slabs.length →
      st.Allocate size alignment = .ok (none, st)) ∧
    (∀ (st : SlabAllocator) (size alignment : Nat), alignment ≤ 16 →
      ∀ hidx : FindSlabIndex size st.sizes < st.slabs.length,
      (st.slabs[FindSlabIndex size st.sizes]).free_list = [] →
      st.Allocate size alignment = .ok (none, st)) ∧
    ([32, 64, 128, 256, 512].map NextPowerOfTwo = [32, 64, 128, 256, 512] ∧
     FindSlabIndex 60 [32, 64, 128, 256, 512] = 1 ∧
     FindSlabIndex 200 [32, 64, 128, 256, 512] = 3) := by
  refine ⟨?_, ?_, ?_, by decide⟩
  · intro size sizes
    exact ⟨FindSlabIndex_le size sizes, FindSlabIndex_fits size sizes,
      FindSlabIndex_first size sizes, FindSlabIndex_eq_length_iff size sizes⟩
  · intro st size alignment hal hnone
    simp only [SlabAllocator.Allocate, hiveAssert_true (decide_eq_true hal),
      ok_bind]
    rw [if_pos (by omega)]
    rfl
  · intro st size alignment hal hidx hempty
    simp only [SlabAllocator.Allocate, hiveAssert_true (decide_eq_true hal),
      ok_bind]
    rw [if_neg (by omega)]
    have hgd : st.slabs.getD (FindSlabIndex size st.sizes) ⟨0, [], 0, 0⟩ =
        st.slabs[FindSlabIndex size st.sizes] :=
      List.getD_eq_getElem st.slabs _ hidx
    rw [hgd]
    have hao : (st.slabs[FindSlabIndex size st.sizes]).AllocateOne =
        (none, st.slabs[FindSlabIndex size st.sizes]) := by
      unfold Slab.AllocateOne
      rw [hempty]
    rw [hao]
    rw [list_set_self st.slabs _ hidx]
    rfl

/-- Witness for C4: concrete Slab allocator with classes
{32,64,128,256,512} where the 64-byte slab is exhausted but larger slabs
are not: a 60-byte request still fails (no fallback), and on a fresh
allocator a 60-byte request is served from the 64-byte slab and a 200-byte
request from the 256-byte slab. -/
theorem C4_witness :
    (SlabAllocator.mk 1000
      [Slab.mk 1000 [1000, 1032] 0 32, Slab.mk 2000 [] 1000 64,
       Slab.mk 3000 [3000] 0 128, Slab.mk 4000 [4000, 4256] 0 256,
       Slab.mk 5000 [5000] 0 512]).Allocate 60 8 =
      .ok (none, SlabAllocator.mk 1000
        [Slab.mk 1000 [1000, 1032] 0 32, Slab.mk 2000 [] 1000 64,
         Slab.mk 3000 [3000] 0 128, Slab.mk 4000 [4000, 4256] 0 256,
         Slab.mk 5000 [5000] 0 512]) ∧
    (SlabAllocator.mk 1000
      [Slab.mk 1000 [1000, 1032] 0 32, Slab.mk 2000 [2000, 2064] 0 64,
       Slab.mk 3000 [3000] 0 128, Slab.mk 4000 [4000, 4256] 0 256,
       Slab.mk 5000 [5000] 0 512]).Allocate 60 8 =
      .ok (some 2000, SlabAllocator.mk 1000
        [Slab.mk 1000 [1000, 1032] 0 32, Slab.mk 2000 [2064] 1 64,
         Slab.mk 3000 [3000] 0 128, Slab.mk 4000 [4000, 4256] 0 256,
         Slab.mk 5000 [5000] 0 512]) ∧
    (SlabAllocator.mk 1000
      [Slab.mk 1000 [1000, 1032] 0 32, Slab.mk 2000 [2000, 2064] 0 64,
       Slab.mk 3000 [3000] 0 128, Slab.mk 4000 [4000, 4256] 0 256,
       Slab.mk 5000 [5000] 0 512]).Allocate 200 8 =
      .ok (some 4000, SlabAllocator.mk 1000
        [Slab.mk 1000 [1000, 1032] 0 32, Slab.mk 2000 [2000, 2064] 0 64,
         Slab.mk 3000 [3000] 0 128, Slab.mk 4000 [4256] 1 256,
         Slab.mk 5000 [5000] 0 512]) := by
  refine ⟨?_, by rfl, by rfl⟩
  exact C4_slab_routing.2.2.1 _ 60 8 (by decide) (by decide) (by rfl)

/-! ## GPU sub-allocator, Vulkan backend (comb/gpu_allocator.cpp)

`VkDeviceMemory` handles become `Nat` (0 = `VK_NULL_HANDLE`),
`VkDeviceSize` becomes `Nat`.  The `VK_WHOLE_SIZE` "no fit" sentinel
returned by `MemoryBlock::Allocate` becomes `none`.

`MemoryBlock::Deallocate` calls `std::sort` on the free-region vector,
comparing by `offset` (`FreeRegion::operator<`).  We implement the sort as
insertion sort; on the states reachable by the allocator the offsets are
pairwise distinct, so every comparison sort produces the same (unique)
sorted permutation. -/

structure FreeRegion where
  offset : Nat
  size : Nat
  deriving Repr, DecidableEq

structure MemoryBlock where
  memory : Nat
  size : Nat
  used : Nat
  mappedPtr : Option Nat
  memoryTypeIndex : Nat
  freeRegions : List FreeRegion
  deriving Repr, DecidableEq

namespace MemoryBlock

/-- `MemoryBlock` constructor (gpu_allocator.cpp:78-82): one free region
covering the whole block. -/
def create (blockSize typeIndex : Nat) : MemoryBlock :=
  ⟨0, blockSize, 0, none, typeIndex, [FreeRegion.mk 0 blockSize]⟩

/-- `MemoryBlock::FindFreeRegion` (gpu_allocator.cpp:84-97): index of the
first region that fits `allocSize` plus alignment padding. -/
def findFreeRegionIdx (allocSize alignment : Nat) : List FreeRegion → Option Nat
  | [] => none
  | r :: rest =>
    let alignedOffset := AlignUp r.offset alignment
    let padding := alignedOffset - r.offset
    if allocSize + padding ≤ r.size then some 0
    else (findFreeRegionIdx allocSize alignment rest).map (· + 1)

/-- `MemoryBlock::Allocate` (gpu_allocator.cpp:99-119): shrink the chosen
region in place (dropping it if it becomes empty), account the padding
into `used`, and return the aligned offset (`none` = `VK_WHOLE_SIZE`). -/
def Allocate (b : MemoryBlock) (allocSize alignment : Nat) :
    Option Nat × MemoryBlock :=
  match findFreeRegionIdx allocSize alignment b.freeRegions with
  | none => (none, b)
  | some i =>
    let r := b.freeRegions.getD i ⟨0, 0⟩
    let alignedOffset := AlignUp r.offset alignment
    let padding := alignedOffset - r.offset
    let r' : FreeRegion := ⟨alignedOffset + allocSize, r.size - (allocSize + padding)⟩
    let regions := b.freeRegions.set i r'
    let regions' := if r'.size = 0 then regions.filter (fun x => x.size ≠ 0) else regions
    (some alignedOffset,
      { b with freeRegions := regions', used := b.used + allocSize + padding })

/-- Sorted insertion of one region by offset. -/
def insertRegion (r : FreeRegion) : List FreeRegion → List FreeRegion
  | [] => [r]
  | x :: xs => if r.offset < x.offset then r :: x :: xs else x :: insertRegion r xs

/-- The `std::sort(freeRegions.begin(), freeRegions.end())` of
`MemoryBlock::Deallocate` (gpu_allocator.cpp:124), implemented as insertion
sort (identical output for the pairwise-distinct offsets that occur). -/
def sortRegions : List FreeRegion → List FreeRegion
  | [] => []
  | r :: rest => insertRegion r (sortRegions rest)

/-- The single merge pass of `MemoryBlock::CoalesceFreeRegions`
(gpu_allocator.cpp:136-154): `current` accumulates; a region starting
exactly at `current`'s end is absorbed, otherwise `current` is emitted. -/
def coalesceLoop (current : FreeRegion) : List FreeRegion → List FreeRegion
  | [] => [current]
  | next :: rest =>
    if current.offset + current.size = next.offset then
      coalesceLoop ⟨current.offset, current.size + next.size⟩ rest
    else
      current :: coalesceLoop next rest

/-- `MemoryBlock::CoalesceFreeRegions` (gpu_allocator.cpp:131-157). -/
def CoalesceFreeRegions (b : MemoryBlock) : MemoryBlock :=
  match b.freeRegions with
  | [] => b
  | r :: rest => { b with freeRegions := coalesceLoop r rest }

/-- `MemoryBlock::Deallocate` (gpu_allocator.cpp:121-129): push the region,
sort by offset, coalesce, and release `allocSize` from `used`. -/
def Deallocate (b : MemoryBlock) (offset allocSize : Nat) : MemoryBlock :=
  let regions := sortRegions (b.freeRegions ++ [FreeRegion.mk offset allocSize])
  let b'' := CoalesceFreeRegions { b with freeRegions := regions }
  { b'' with used := b''.used - allocSize }

end MemoryBlock

def sumSizes (rs : List FreeRegion) : Nat := (rs.map FreeRegion.size).sum

def sumPairSizes (ps : List (Nat × Nat)) : Nat := (ps.map Prod.snd).sum

/-- Disjointness of two half-open intervals given as (offset, size). -/
def Disj (a b : Nat × Nat) : Prop := a.1 + a.2 ≤ b.1 ∨ b.1 + b.2 ≤ a.1

theorem Disj.symm' {a b : Nat × Nat} (h : Disj a b) : Disj b a := h.elim .inr .inl

/-- One GPU memory block together with the ghost list of its live
sub-allocations (the (offset, size) pairs recorded in outstanding
handles), used to state which `Deallocate` calls are legal. -/
structure GpuBlockState where
  block : MemoryBlock
  live : List (Nat × Nat)

/-- A block-level operation: a sub-allocation request, or the deallocation
of the `idx`-th outstanding handle. -/
inductive BlockOp where
  | alloc (size alignment : Nat)
  | free (idx : Nat)

/-- One step of the block state machine.  Requests with `size = 0` (which
`GPUAllocator::Allocate` rejects by assertion) or `alignment = 0` (which
Vulkan never reports) and frees of non-outstanding handles leave the state
unchanged. -/
def blockStep (s : GpuBlockState) : BlockOp → GpuBlockState
  | .alloc size alignment =>
    if 0 < size ∧ 0 < alignment then
      match s.block.Allocate size alignment with
      | (none, b') => { s with block := b' }
      | (some off, b') => ⟨b', (off, size) :: s.live⟩
    else s
  | .free i =>
    match s.live[i]? with
    | none => s
    | some p => ⟨s.block.Deallocate p.1 p.2, s.live.eraseIdx i⟩

/-- Run a sequence of block operations. -/
def runBlock (s : GpuBlockState) : List BlockOp → GpuBlockState
  | [] => s
  | op :: ops => runBlock (blockStep s op) ops

/-- Strict separation of the free-region list: regions are strictly
ordered by offset and pairwise non-adjacent. -/
def RegionsSep (rs : List FreeRegion) : Prop :=
  List.Pairwise (fun a b => a.offset + a.size < b.offset) rs

/-- Invariant of a GPU memory block under legal operation sequences. -/
structure GInv (s : GpuBlockState) : Prop where
  sep : RegionsSep s.block.freeRegions
  pos : ∀ r ∈ s.block.freeRegions, 0 < r.size
  inbound : ∀ r ∈ s.block.freeRegions, r.offset + r.size ≤ s.block.size
  livePos : ∀ p ∈ s.live, 0 < p.2
  liveIn : ∀ p ∈ s.live, p.1 + p.2 ≤ s.block.size
  liveSep : List.Pairwise Disj s.live
  crossSep : ∀ r ∈ s.block.freeRegions, ∀ p ∈ s.live, Disj (r.offset, r.size) p
  total : sumSizes s.block.freeRegions + s.block.used = s.block.size
  liveLe : sumPairSizes s.live ≤ s.block.used

theorem MemoryBlock.findFreeRegionIdx_spec (allocSize alignment : Nat) :
    ∀ (rs : List FreeRegion) (i : Nat),
      MemoryBlock.findFreeRegionIdx allocSize alignment rs = some i →
      ∃ h : i < rs.length,
        allocSize + (AlignUp (rs[i]).offset alignment - (rs[i]).offset) ≤
          (rs[i]).size := by
  intro rs
  induction rs with
  | nil => intro i h; simp [MemoryBlock.findFreeRegionIdx] at h
  | cons r rest ih =>
    intro i h
    simp only [MemoryBlock.findFreeRegionIdx] at h
    split at h
    · rename_i hfit
      cases h
      exact ⟨by simp, by simpa using hfit⟩
    · rename_i hfit
      rcases hrec : MemoryBlock.findFreeRegionIdx allocSize alignment rest with _ | j
      · rw [hrec] at h; simp at h
      · rw [hrec] at h
        simp at h
        obtain ⟨hj, hle⟩ := ih j hrec
        subst h
        exact ⟨by simpa using Nat.succ_lt_succ hj, by simpa using hle⟩

theorem sumSizes_set (l : List FreeRegion) (i : Nat) (x : FreeRegion)
    (h : i < l.length) :
    sumSizes (l.set i x) + (l[i]).size = sumSizes l + x.size := by
  induction l generalizing i with
  | nil => simp at h
  | cons a rest ih =>
    match i with
    | 0 => simp [sumSizes]; omega
    | i + 1 =>
      simp only [List.set_cons_succ, List.getElem_cons_succ]
      have := ih i (by simpa using h)
      simp only [sumSizes, List.map_cons, List.sum_cons] at this ⊢
      omega

theorem sumSizes_filter_nonzero (l : List FreeRegion) :
    sumSizes (l.filter (fun x => x.size ≠ 0)) = sumSizes l := by
  induction l with
  | nil => rfl
  | cons a rest ih =>
    by_cases ha : a.size = 0
    · simp [sumSizes, List.filter_cons, ha] at ih ⊢
      omega
    · simp [sumSizes, List.filter_cons, ha] at ih ⊢
      omega

theorem sumSizes_append (l1 l2 : List FreeRegion) :
    sumSizes (l1 ++ l2) = sumSizes l1 + sumSizes l2 := by
  simp [sumSizes]

theorem insertRegion_perm (r : FreeRegion) (l : List FreeRegion) :
    (MemoryBlock.insertRegion r l).Perm (r :: l) := by
  induction l with
  | nil => simp [MemoryBlock.insertRegion]
  | cons x xs ih =>
    simp only [MemoryBlock.insertRegion]
    split
    · exact List.Perm.refl _
    · exact (List.Perm.cons x ih).trans (List.Perm.swap r x xs)

theorem sortRegions_perm (l : List FreeRegion) :
    (MemoryBlock.sortRegions l).Perm l := by
  induction l with
  | nil => simp [MemoryBlock.sortRegions]
  | cons r rest ih =>
    simp only [MemoryBlock.sortRegions]
    exact (insertRegion_perm r _).trans (List.Perm.cons r ih)

theorem insertRegion_sorted (r : FreeRegion) (l : List FreeRegion)
    (h : List.Pairwise (fun a b => a.offset ≤ b.offset) l) :
    List.Pairwise (fun a b => a.offset ≤ b.offset)
      (MemoryBlock.insertRegion r l) := by
  induction l with
  | nil => simp [MemoryBlock.insertRegion]
  | cons x xs ih =>
    rcases h with _ | ⟨hx, hxs⟩
    simp only [MemoryBlock.insertRegion]
    split
    · rename_i hlt
      refine List.Pairwise.cons ?_ (List.Pairwise.cons hx hxs)
      intro y hy
      rcases hy with _ | hy
      · omega
      · have := hx y (by assumption)
        omega
    · rename_i hge
      refine List.Pairwise.cons ?_ (ih hxs)
      intro y hy
      have hmem := ((insertRegion_perm r xs).mem_iff).mp hy
      rcases List.mem_cons.mp hmem with rfl | hmem'
      · omega
      · exact hx y hmem'

theorem sortRegions_sorted (l : List FreeRegion) :
    List.Pairwise (fun a b => a.offset ≤ b.offset)
      (MemoryBlock.sortRegions l) := by
  induction l with
  | nil => simp [MemoryBlock.sortRegions]
  | cons r rest ih => exact insertRegion_sorted r _ ih

/-- Sorted + pairwise interval-disjoint + positive sizes gives the
adjacency form: each region ends no later than the next one starts. -/
theorem sorted_disj_pairwise_adj (l : List FreeRegion)
    (hsorted : List.Pairwise (fun a b => a.offset ≤ b.offset) l)
    (hdisj : List.Pairwise (fun a b => Disj (a.offset, a.size) (b.offset, b.size)) l)
    (hpos : ∀ r ∈ l, 0 < r.size) :
    List.Pairwise (fun a b => a.offset + a.size ≤ b.offset) l := by
  rw [List.pairwise_iff_getElem] at hsorted hdisj ⊢
  intro i j hi hj hij
  have h1 := hsorted i j hi hj hij
  have h2 := hdisj i j hi hj hij
  have h3 := hpos l[j] (l.getElem_mem hj)
  rcases h2 with h2 | h2
  · exact h2
  · omega

theorem coalesceLoop_shape :
    ∀ (rest : List FreeRegion) (cur : FreeRegion),
      ∃ s t, MemoryBlock.coalesceLoop cur rest = FreeRegion.mk cur.offset s :: t ∧
        cur.size ≤ s := by
  intro rest
  induction rest with
  | nil => intro cur; exact ⟨cur.size, [], rfl, le_rfl⟩
  | cons next rest ih =>
    intro cur
    simp only [MemoryBlock.coalesceLoop]
    split
    · obtain ⟨s, t, heq, hle⟩ := ih ⟨cur.offset, cur.size + next.size⟩
      exact ⟨s, t, heq, by simp at hle; omega⟩
    · exact ⟨cur.size, _, rfl, le_rfl⟩

theorem coalesceLoop_sum :
    ∀ (rest : List FreeRegion) (cur : FreeRegion),
      sumSizes (MemoryBlock.coalesceLoop cur rest) = cur.size + sumSizes rest := by
  intro rest
  induction rest with
  | nil => intro cur; simp [MemoryBlock.coalesceLoop, sumSizes]
  | cons next rest ih =>
    intro cur
    simp only [MemoryBlock.coalesceLoop]
    split
    · rw [ih]
      simp only [sumSizes, List.map_cons, List.sum_cons]
      omega
    · simp only [sumSizes, List.map_cons, List.sum_cons] at ih ⊢
      rw [ih]

theorem coalesceLoop_pos :
    ∀ (rest : List FreeRegion) (cur : FreeRegion), 0 < cur.size →
      (∀ x ∈ rest, 0 < x.size) →
      ∀ y ∈ MemoryBlock.coalesceLoop cur rest, 0 < y.size := by
  intro rest
  induction rest with
  | nil =>
    intro cur hc _ y hy
    simp [MemoryBlock.coalesceLoop] at hy
    subst hy; exact hc
  | cons next rest ih =>
    intro cur hc hrest y hy
    simp only [MemoryBlock.coalesceLoop] at hy
    by_cases hmerge : cur.offset + cur.size = next.offset
    · rw [if_pos hmerge] at hy
      exact ih ⟨cur.offset, cur.size + next.size⟩ (by simp; omega)
        (fun x hx => hrest x (List.mem_cons_of_mem _ hx)) y hy
    · rw [if_neg hmerge] at hy
      rcases List.mem_cons.mp hy with rfl | hy'
      · exact hc
      · exact ih next (hrest next (List.mem_cons_self _ _))
          (fun x hx => hrest x (List.mem_cons_of_mem _ hx)) y hy'

theorem coalesceLoop_bound (N : Nat) :
    ∀ (rest : List FreeRegion) (cur : FreeRegion),
      cur.offset + cur.size ≤ N → (∀ x ∈ rest, x.offset + x.size ≤ N) →
      ∀ y ∈ MemoryBlock.coalesceLoop cur rest, y.offset + y.size ≤ N := by
  intro rest
  induction rest with
  | nil =>
    intro cur hc _ y hy
    simp [MemoryBlock.coalesceLoop] at hy
    subst hy; exact hc
  | cons next rest ih =>
    intro cur hc hrest y hy
    simp only [MemoryBlock.coalesceLoop] at hy
    by_cases hmerge : cur.offset + cur.size = next.offset
    · rw [if_pos hmerge] at hy
      have hnext := hrest next (List.mem_cons_self _ _)
      exact ih ⟨cur.offset, cur.size + next.size⟩ (by simp; omega)
        (fun x hx => hrest x (List.mem_cons_of_mem _ hx)) y hy
    · rw [if_neg hmerge] at hy
      rcases List.mem_cons.mp hy with rfl | hy'
      · exact hc
      · exact ih next (hrest next (List.mem_cons_self _ _))
          (fun x hx => hrest x (List.mem_cons_of_mem _ hx)) y hy'

theorem coalesceLoop_chain :
    ∀ (rest : List FreeRegion) (cur : FreeRegion),
      List.Chain' (fun a b => a.offset + a.size ≤ b.offset) (cur :: rest) →
      List.Chain' (fun a b => a.offset + a.size < b.offset)
        (MemoryBlock.coalesceLoop cur rest) := by
  intro rest
  induction rest with
  | nil => intro cur _; simp [MemoryBlock.coalesceLoop]
  | cons next rest ih =>
    intro cur hch
    rw [List.chain'_cons] at hch
    obtain ⟨hcn, hch⟩ := hch
    simp only [MemoryBlock.coalesceLoop]
    split
    · rename_i hmerge
      apply ih
      match rest with
      | [] => simp
      | z :: rest' =>
        rw [List.chain'_cons] at hch ⊢
        refine ⟨?_, hch.2⟩
        have := hch.1
        simp
        omega
    · rename_i hne
      obtain ⟨s, t, heq, _⟩ := coalesceLoop_shape rest next
      rw [heq]
      rw [List.chain'_cons]
      constructor
      · simp; omega
      · rw [← heq]
        exact ih next hch

theorem coalesceLoop_disj (x : Nat × Nat) (hx : 0 < x.2) :
    ∀ (rest : List FreeRegion) (cur : FreeRegion),
      Disj (cur.offset, cur.size) x →
      (∀ r ∈ rest, Disj (r.offset, r.size) x) →
      ∀ y ∈ MemoryBlock.coalesceLoop cur rest, Disj (y.offset, y.size) x := by
  intro rest
  induction rest with
  | nil =>
    intro cur hc _ y hy
    simp [MemoryBlock.coalesceLoop] at hy
    subst hy; exact hc
  | cons next rest ih =>
    intro cur hc hrest y hy
    simp only [MemoryBlock.coalesceLoop] at hy
    by_cases hmerge : cur.offset + cur.size = next.offset
    · rw [if_pos hmerge] at hy
      have hnext := hrest next (List.mem_cons_self _ _)
      refine ih ⟨cur.offset, cur.size + next.size⟩ ?_
        (fun r hr => hrest r (List.mem_cons_of_mem _ hr)) y hy
      unfold Disj at hc hnext ⊢
      simp at hc hnext ⊢
      omega
    · rw [if_neg hmerge] at hy
      rcases List.mem_cons.mp hy with rfl | hy'
      · exact hc
      · exact ih next (hrest next (List.mem_cons_self _ _))
          (fun r hr => hrest r (List.mem_cons_of_mem _ hr)) y hy'

theorem sumSizes_perm {l1 l2 : List FreeRegion} (h : l1.Perm l2) :
    sumSizes l1 = sumSizes l2 :=
  (h.map FreeRegion.size).sum_eq

theorem sumPairSizes_eraseIdx :
    ∀ (l : List (Nat × Nat)) (i : Nat) (h : i < l.length),
      sumPairSizes (l.eraseIdx i) + (l[i]).2 = sumPairSizes l := by
  intro l
  induction l with
  | nil => intro i h; simp at h
  | cons a rest ih =>
    intro i h
    match i with
    | 0 => simp [sumPairSizes]; omega
    | i + 1 =>
      simp only [List.eraseIdx_cons_succ, List.getElem_cons_succ]
      have := ih i (by simpa using h)
      simp only [sumPairSizes, List.map_cons, List.sum_cons] at this ⊢
      omega

theorem disj_getElem_eraseIdx {l : List (Nat × Nat)}
    (h : List.Pairwise Disj l) {i : Nat} (hi : i < l.length) :
    ∀ x ∈ l.eraseIdx i, Disj l[i] x := by
  intro x hx
  have h2 : List.Pairwise Disj (l.take i ++ l[i] :: l.drop (i + 1)) := by
    rw [List.getElem_cons_drop, List.take_append_drop]
    exact h
  rw [List.eraseIdx_eq_take_drop_succ] at hx
  obtain ⟨hta, hmid, hcross⟩ := List.pairwise_append.mp h2
  rcases List.mem_append.mp hx with hx | hx
  · exact (hcross x hx l[i] (List.mem_cons_self _ _)).symm'
  · exact List.rel_of_pairwise_cons hmid hx

theorem MemoryBlock.Allocate_none {b : MemoryBlock} {size alignment : Nat}
    {b' : MemoryBlock}
    (h : b.Allocate size alignment = (none, b')) : b' = b := by
  unfold MemoryBlock.Allocate at h
  rcases hf : MemoryBlock.findFreeRegionIdx size alignment b.freeRegions with _ | i
  · rw [hf] at h
    exact (Prod.mk.injEq _ _ _ _ ▸ h).2.symm
  · rw [hf] at h
    simp at h

theorem MemoryBlock.Allocate_some {b : MemoryBlock} {size alignment off : Nat}
    {b' : MemoryBlock}
    (h : b.Allocate size alignment = (some off, b')) :
    ∃ (i : Nat) (hi : i < b.freeRegions.length),
      off = AlignUp (b.freeRegions[i]).offset alignment ∧
      size + (off - (b.freeRegions[i]).offset) ≤ (b.freeRegions[i]).size ∧
      b'.freeRegions =
        (let r' : FreeRegion :=
          ⟨off + size, (b.freeRegions[i]).size - (size + (off - (b.freeRegions[i]).offset))⟩
         let regions := b.freeRegions.set i r'
         if r'.size = 0 then regions.filter (fun x => x.size ≠ 0) else regions) ∧
      b'.used = b.used + size + (off - (b.freeRegions[i]).offset) ∧
      b'.size = b.size := by
  unfold MemoryBlock.Allocate at h
  rcases hf : MemoryBlock.findFreeRegionIdx size alignment b.freeRegions with _ | i
  · rw [hf] at h; simp at h
  · rw [hf] at h
    obtain ⟨hi, hfit⟩ := MemoryBlock.findFreeRegionIdx_spec size alignment _ i hf
    simp only at h
    have hgd : b.freeRegions.getD i ⟨0, 0⟩ = b.freeRegions[i] :=
      List.getD_eq_getElem b.freeRegions _ hi
    rw [hgd] at h
    have hoff : off = AlignUp (b.freeRegions[i]).offset alignment := by
      have := congrArg Prod.fst h
      simpa using this.symm
    have hb' := congrArg Prod.snd h
    simp only at hb'
    subst hoff
    refine ⟨i, hi, rfl, hfit, ?_, ?_, ?_⟩
    · rw [← hb']
    · rw [← hb']
    · rw [← hb']

theorem GInv_alloc (s : GpuBlockState) (size alignment off : Nat)
    (b' : MemoryBlock) (hinv : GInv s) (hsize : 0 < size)
    (halign : 0 < alignment)
    (h : s.block.Allocate size alignment = (some off, b')) :
    GInv ⟨b', (off, size) :: s.live⟩ := by
  obtain ⟨i, hi, hoff, hfit, hregions, hused, hbsize⟩ :=
    MemoryBlock.Allocate_some h
  simp only at hregions
  have hle : s.block.freeRegions[i].offset ≤ off := by
    rw [hoff]; exact le_AlignUp _ alignment halign
  have hrmem : s.block.freeRegions[i] ∈ s.block.freeRegions :=
    List.getElem_mem hi
  have hrbound := hinv.inbound _ hrmem
  have hsepIdx := List.pairwise_iff_getElem.mp hinv.sep
  -- the shrunk region
  set r' : FreeRegion :=
    ⟨off + size,
      s.block.freeRegions[i].size - (size + (off - s.block.freeRegions[i].offset))⟩
    with hr'
  have hr'end : r'.offset + r'.size =
      s.block.freeRegions[i].offset + s.block.freeRegions[i].size := by
    simp only [hr']
    omega
  have hr'off : s.block.freeRegions[i].offset ≤ r'.offset := by
    simp only [hr']; omega
  -- separation of the set-updated list
  have hSep0 : RegionsSep (s.block.freeRegions.set i r') := by
    rw [RegionsSep, List.pairwise_iff_getElem]
    intro a b ha hb hab
    rw [List.length_set] at ha hb
    rw [List.getElem_set, List.getElem_set]
    by_cases hia : i = a
    · subst hia
      rw [if_pos rfl, if_neg (by omega)]
      have := hsepIdx i b hi hb hab
      omega
    · rw [if_neg hia]
      by_cases hib : i = b
      · subst hib
        rw [if_pos rfl]
        have := hsepIdx a i ha hi (by omega)
        omega
      · rw [if_neg hib]
        exact hsepIdx a b ha hb hab
  have hmemSet : ∀ y ∈ s.block.freeRegions.set i r',
      y ∈ s.block.freeRegions ∨ y = r' :=
    fun y hy => List.mem_or_eq_of_mem_set hy
  -- positional view of a member of the set-updated list
  have hposSet : ∀ y ∈ s.block.freeRegions.set i r',
      y = r' ∨ ∃ j, ∃ hj : j < s.block.freeRegions.length,
        j ≠ i ∧ y = s.block.freeRegions[j] := by
    intro y hy
    obtain ⟨j, hj, hyj⟩ := List.mem_iff_getElem.mp hy
    rw [List.length_set] at hj
    rw [List.getElem_set] at hyj
    by_cases hij : i = j
    · left; rw [← hyj, if_pos hij]
    · right; exact ⟨j, hj, fun hc => hij hc.symm, by rw [← hyj, if_neg hij]⟩
  have hfinal : ∀ y ∈ b'.freeRegions, y ∈ s.block.freeRegions.set i r' := by
    intro y hy
    rw [hregions] at hy
    split at hy
    · exact List.mem_of_mem_filter hy
    · exact hy
  refine ⟨?_, ?_, ?_, ?_, ?_, ?_, ?_, ?_, ?_⟩
  · -- sep
    show RegionsSep b'.freeRegions
    rw [hregions]
    split
    · exact hSep0.sublist (List.filter_sublist _)
    · exact hSep0
  · -- pos
    intro y hy
    rw [hregions] at hy
    split at hy
    · have := (List.mem_filter.mp hy).2
      simpa using Nat.pos_of_ne_zero (by simpa using this)
    · rename_i hnz
      rcases hmemSet y hy with hmem | rfl
      · exact hinv.pos y hmem
      · exact Nat.pos_of_ne_zero hnz
  · -- inbound
    intro y hy
    have hy' := hfinal y hy
    show y.offset + y.size ≤ b'.size
    rw [hbsize]
    rcases hmemSet y hy' with hmem | rfl
    · exact hinv.inbound y hmem
    · omega
  · -- livePos
    intro p hp
    rcases List.mem_cons.mp hp with rfl | hp'
    · exact hsize
    · exact hinv.livePos p hp'
  · -- liveIn
    intro p hp
    show p.1 + p.2 ≤ b'.size
    rw [hbsize]
    rcases List.mem_cons.mp hp with rfl | hp'
    · simp only
      omega
    · exact hinv.liveIn p hp'
  · -- liveSep
    refine List.Pairwise.cons ?_ hinv.liveSep
    intro p hp
    have := hinv.crossSep _ hrmem p hp
    unfold Disj at this ⊢
    simp only at this ⊢
    omega
  · -- crossSep
    intro y hy p hp
    have hy' := hfinal y hy
    rcases List.mem_cons.mp hp with rfl | hp'
    · -- p is the fresh live allocation (off, size)
      rcases hposSet y hy' with rfl | ⟨j, hj, hji, rfl⟩
      · right
        simp only [hr']
        omega
      · have hsj : Disj (s.block.freeRegions[j].offset, s.block.freeRegions[j].size)
            ((s.block.freeRegions[i]).offset, (s.block.freeRegions[i]).size) := by
          rcases Nat.lt_or_ge j i with hlt | hge
          · left
            have := hsepIdx j i hj hi hlt
            simpa using by omega
          · right
            have hgt : i < j := by omega
            have := hsepIdx i j hi hj hgt
            simpa using by omega
        unfold Disj at hsj ⊢
        simp only at hsj ⊢
        omega
    · -- p is an old live allocation
      rcases hmemSet y hy' with hmem | rfl
      · exact hinv.crossSep y hmem p hp'
      · have := hinv.crossSep _ hrmem p hp'
        unfold Disj at this ⊢
        simp only at this ⊢
        omega
  · -- total
    show sumSizes b'.freeRegions + b'.used = b'.size
    rw [hregions, hused, hbsize]
    have hset := sumSizes_set s.block.freeRegions i r' hi
    have htot := hinv.total
    split
    · rw [sumSizes_filter_nonzero]
      simp only [hr'] at hset ⊢
      omega
    · simp only [hr'] at hset ⊢
      omega
  · -- liveLe
    show sumPairSizes ((off, size) :: s.live) ≤ b'.used
    rw [hused]
    have := hinv.liveLe
    simp only [sumPairSizes, List.map_cons, List.sum_cons] at this ⊢
    omega

theorem GInv_free (s : GpuBlockState) (i : Nat)
    (hinv : GInv s) (hpi : i < s.live.length) :
    GInv ⟨s.block.Deallocate (s.live[i]).1 (s.live[i]).2, s.live.eraseIdx i⟩ := by
  have hpmem : s.live[i] ∈ s.live := List.getElem_mem hpi
  have hppos : 0 < (s.live[i]).2 := hinv.livePos _ hpmem
  have hpin : (s.live[i]).1 + (s.live[i]).2 ≤ s.block.size := hinv.liveIn _ hpmem
  have hpleSum : (s.live[i]).2 ≤ sumPairSizes s.live := by
    have := sumPairSizes_eraseIdx s.live i hpi
    omega
  have hpos0 : ∀ x ∈ s.block.freeRegions ++ [FreeRegion.mk (s.live[i]).1 (s.live[i]).2],
      0 < x.size := by
    intro x hx
    rcases List.mem_append.mp hx with hx | hx
    · exact hinv.pos x hx
    · simp at hx; subst hx; exact hppos
  have hbound0 : ∀ x ∈ s.block.freeRegions ++ [FreeRegion.mk (s.live[i]).1 (s.live[i]).2],
      x.offset + x.size ≤ s.block.size := by
    intro x hx
    rcases List.mem_append.mp hx with hx | hx
    · exact hinv.inbound x hx
    · simp at hx; subst hx; exact hpin
  have hdisj0 : List.Pairwise (fun a b => Disj (a.offset, a.size) (b.offset, b.size))
      (s.block.freeRegions ++ [FreeRegion.mk (s.live[i]).1 (s.live[i]).2]) := by
    rw [List.pairwise_append]
    refine ⟨hinv.sep.imp (fun hab => Or.inl (le_of_lt hab)), by simp, ?_⟩
    intro a ha b hb
    simp at hb
    subst hb
    exact hinv.crossSep a ha _ hpmem
  have hperm := sortRegions_perm
    (s.block.freeRegions ++ [FreeRegion.mk (s.live[i]).1 (s.live[i]).2])
  have hsorted := sortRegions_sorted
    (s.block.freeRegions ++ [FreeRegion.mk (s.live[i]).1 (s.live[i]).2])
  have hdisjS : List.Pairwise (fun a b => Disj (a.offset, a.size) (b.offset, b.size))
      (MemoryBlock.sortRegions
        (s.block.freeRegions ++ [FreeRegion.mk (s.live[i]).1 (s.live[i]).2])) :=
    (hperm.pairwise_iff (fun {_ _} hab => hab.symm')).mpr hdisj0
  have hposS : ∀ x ∈ MemoryBlock.sortRegions
      (s.block.freeRegions ++ [FreeRegion.mk (s.live[i]).1 (s.live[i]).2]), 0 < x.size :=
    fun x hx => hpos0 x (hperm.mem_iff.mp hx)
  have hboundS : ∀ x ∈ MemoryBlock.sortRegions
      (s.block.freeRegions ++ [FreeRegion.mk (s.live[i]).1 (s.live[i]).2]),
      x.offset + x.size ≤ s.block.size :=
    fun x hx => hbound0 x (hperm.mem_iff.mp hx)
  have hadjS := sorted_disj_pairwise_adj _ hsorted hdisjS hposS
  have hne : MemoryBlock.sortRegions
      (s.block.freeRegions ++ [FreeRegion.mk (s.live[i]).1 (s.live[i]).2]) ≠ [] := by
    intro hc
    have := hperm.length_eq
    rw [hc] at this
    simp at this
  obtain ⟨cl, crest, hLS⟩ := List.exists_cons_of_ne_nil hne
  have hD : s.block.Deallocate (s.live[i]).1 (s.live[i]).2 =
      { s.block with
          freeRegions := MemoryBlock.coalesceLoop cl crest
          used := s.block.used - (s.live[i]).2 } := by
    unfold MemoryBlock.Deallocate
    rw [hLS]
    rfl
  rw [hD]
  have hchainAdj : List.Chain' (fun a b => a.offset + a.size ≤ b.offset)
      (cl :: crest) := by
    rw [← hLS]
    exact hadjS.chain'
  have hchainOut := coalesceLoop_chain crest cl hchainAdj
  have hmemls : ∀ x ∈ cl :: crest,
      x ∈ MemoryBlock.sortRegions
        (s.block.freeRegions ++ [FreeRegion.mk (s.live[i]).1 (s.live[i]).2]) := by
    intro x hx; rw [hLS]; exact hx
  haveI : IsTrans FreeRegion (fun a b => a.offset + a.size < b.offset) :=
    ⟨fun a b c h1 h2 => by omega⟩
  refine ⟨?_, ?_, ?_, ?_, ?_, ?_, ?_, ?_, ?_⟩
  · exact List.chain'_iff_pairwise.mp hchainOut
  · exact coalesceLoop_pos crest cl (hposS cl (hmemls cl (List.mem_cons_self _ _)))
      (fun x hx => hposS x (hmemls x (List.mem_cons_of_mem _ hx)))
  · exact coalesceLoop_bound s.block.size crest cl
      (hboundS cl (hmemls cl (List.mem_cons_self _ _)))
      (fun x hx => hboundS x (hmemls x (List.mem_cons_of_mem _ hx)))
  · exact fun p hp => hinv.livePos p ((List.eraseIdx_sublist s.live i).mem hp)
  · exact fun p hp => hinv.liveIn p ((List.eraseIdx_sublist s.live i).mem hp)
  · exact hinv.liveSep.sublist (List.eraseIdx_sublist s.live i)
  · -- crossSep: coalesced regions vs remaining live allocations
    intro y hy x hx
    have hxlive : x ∈ s.live := (List.eraseIdx_sublist s.live i).mem hx
    have hxpos : 0 < x.2 := hinv.livePos x hxlive
    have hdisjLS : ∀ rr ∈ cl :: crest, Disj (rr.offset, rr.size) x := by
      intro rr hrr
      have hrr0 : rr ∈ s.block.freeRegions ++
          [FreeRegion.mk (s.live[i]).1 (s.live[i]).2] :=
        hperm.mem_iff.mp (hmemls rr hrr)
      rcases List.mem_append.mp hrr0 with hrr0 | hrr0
      · exact hinv.crossSep rr hrr0 x hxlive
      · simp at hrr0
        subst hrr0
        exact disj_getElem_eraseIdx hinv.liveSep hpi x hx
    exact coalesceLoop_disj x hxpos crest cl
      (hdisjLS cl (List.mem_cons_self _ _))
      (fun rr hrr => hdisjLS rr (List.mem_cons_of_mem _ hrr)) y hy
  · -- total
    show sumSizes (MemoryBlock.coalesceLoop cl crest) +
      (s.block.used - (s.live[i]).2) = s.block.size
    have hsum : sumSizes (MemoryBlock.coalesceLoop cl crest) =
        sumSizes s.block.freeRegions + (s.live[i]).2 := by
      rw [coalesceLoop_sum]
      have h1 : cl.size + sumSizes crest = sumSizes (cl :: crest) := by
        simp [sumSizes]
      rw [h1, ← hLS, sumSizes_perm hperm, sumSizes_append]
      simp [sumSizes]
    have htot := hinv.total
    have hple : (s.live[i]).2 ≤ s.block.used :=
      le_trans hpleSum hinv.liveLe
    omega
  · -- liveLe
    show sumPairSizes (s.live.eraseIdx i) ≤ s.block.used - (s.live[i]).2
    have := sumPairSizes_eraseIdx s.live i hpi
    have := hinv.liveLe
    omega

theorem GInv_step (s : GpuBlockState) (op : BlockOp) (hinv : GInv s) :
    GInv (blockStep s op) := by
  cases op with
  | alloc size alignment =>
    simp only [blockStep]
    split
    · rename_i hguard
      rcases halloc : s.block.Allocate size alignment with ⟨res, b'⟩
      rcases res with _ | off
      · have hb := MemoryBlock.Allocate_none halloc
        subst hb
        exact hinv
      · exact GInv_alloc s size alignment off b' hinv hguard.1 hguard.2 halloc
    · exact hinv
  | free i =>
    simp only [blockStep]
    rcases hp : s.live[i]? with _ | p
    · exact hinv
    · obtain ⟨hpi, heq⟩ := List.getElem?_eq_some.mp hp
      subst heq
      exact GInv_free s i hinv hpi

theorem GInv_run (s : GpuBlockState) (hinv : GInv s) :
    ∀ ops : List BlockOp, GInv (runBlock s ops) := by
  intro ops
  induction ops generalizing s with
  | nil => exact hinv
  | cons op ops ih => exact ih (blockStep s op) (GInv_step s op hinv)

theorem GInv_init (blockSize typeIndex : Nat) (h : 0 < blockSize) :
    GInv ⟨MemoryBlock.create blockSize typeIndex, []⟩ := by
  refine ⟨?_, ?_, ?_, ?_, ?_, ?_, ?_, ?_, ?_⟩
  · simp [MemoryBlock.create, RegionsSep]
  · intro r hr
    simp [MemoryBlock.create] at hr
    subst hr
    exact h
  · intro r hr
    simp [MemoryBlock.create] at hr
    subst hr
    simp [MemoryBlock.create]
  · simp [MemoryBlock.create]
  · simp [MemoryBlock.create]
  · simp [MemoryBlock.create]
  · simp [MemoryBlock.create]
  · simp [MemoryBlock.create, sumSizes]
  · simp [MemoryBlock.create, sumPairSizes]

/-- C2: for every GPU memory block, after any (legal) sequence of
`Allocate`/`Deallocate` operations the free-region list is strictly
ordered by offset with pairwise non-adjacent regions (no region's
`offset + size` equals the next region's offset), and the sum of the free
regions' sizes plus `used` is ≤ the block's size. -/
theorem C2_gpu_block_free_regions :
    ∀ (blockSize typeIndex : Nat), 0 < blockSize →
    ∀ ops : List BlockOp,
      List.Chain' (fun a b => a.offset + a.size < b.offset)
        (runBlock ⟨MemoryBlock.create blockSize typeIndex, []⟩ ops).block.freeRegions ∧
      sumSizes (runBlock ⟨MemoryBlock.create blockSize typeIndex, []⟩
          ops).block.freeRegions +
        (runBlock ⟨MemoryBlock.create blockSize typeIndex, []⟩ ops).block.used ≤
        (runBlock ⟨MemoryBlock.create blockSize typeIndex, []⟩ ops).block.size := by
  intro bs t h ops
  have hinv := GInv_run ⟨MemoryBlock.create bs t, []⟩ (GInv_init bs t h) ops
  exact ⟨hinv.sep.chain', le_of_eq hinv.total⟩

/-- Witness for C2: a 1000-byte block with two allocations, a deallocation
of the second, and a further allocation. -/
theorem C2_witness :
    List.Chain' (fun a b => a.offset + a.size < b.offset)
      (runBlock ⟨MemoryBlock.create 1000 0, []⟩
        [BlockOp.alloc 100 16, BlockOp.alloc 50 8, BlockOp.free 1,
         BlockOp.alloc 30 4]).block.freeRegions ∧
    sumSizes (runBlock ⟨MemoryBlock.create 1000 0, []⟩
        [BlockOp.alloc 100 16, BlockOp.alloc 50 8, BlockOp.free 1,
         BlockOp.alloc 30 4]).block.freeRegions +
      (runBlock ⟨MemoryBlock.create 1000 0, []⟩
        [BlockOp.alloc 100 16, BlockOp.alloc 50 8, BlockOp.free 1,
         BlockOp.alloc 30 4]).block.used ≤
      (runBlock ⟨MemoryBlock.create 1000 0, []⟩
        [BlockOp.alloc 100 16, BlockOp.alloc 50 8, BlockOp.free 1,
         BlockOp.alloc 30 4]).block.size :=
  C2_gpu_block_free_regions 1000 0 (by decide)
    [BlockOp.alloc 100 16, BlockOp.alloc 50 8, BlockOp.free 1,
     BlockOp.alloc 30 4]

/-! ## GPU memory pools (gpu_allocator.cpp:174-224) and the allocator level -/

inductive MemoryType where
  | DeviceLocal
  | HostVisible
  | HostCached
  deriving Repr, DecidableEq

/-- `GetMemoryProperties` (gpu_allocator.cpp:24-36), with the Vulkan flag
values `DEVICE_LOCAL = 0x1`, `HOST_VISIBLE = 0x2`, `HOST_COHERENT = 0x4`,
`HOST_CACHED = 0x8`. -/
def GetMemoryProperties : MemoryType → Nat
  | .DeviceLocal => 1
  | .HostVisible => 2 ||| 4
  | .HostCached => 2 ||| 8

structure MemoryPool where
  type : MemoryType
  memoryTypeIndex : Nat
  blockSize : Nat
  blocks : List MemoryBlock
  deriving Repr, DecidableEq

namespace MemoryPool

/-- `MemoryPool::GetAllocatedSize` (gpu_allocator.cpp:187-194). -/
def GetAllocatedSize (pool : MemoryPool) : Nat :=
  (pool.blocks.map MemoryBlock.used).sum

/-- `MemoryPool::GetTotalSize` (gpu_allocator.cpp:196-200): note that this
is the *nominal* block size times the block count. -/
def GetTotalSize (pool : MemoryPool) : Nat :=
  pool.blockSize * pool.blocks.length

/-- `GPUAllocator<VulkanAPI>::AllocateBlock` (gpu_allocator.cpp:317-352) on
the success path of `vkAllocateMemory`/`vkMapMemory`; `newMem` is the fresh
(nonzero) `VkDeviceMemory` handle returned by the driver, which we also use
as the opaque base address of the persistent mapping. -/
def AllocateBlock (pool : MemoryPool) (size newMem : Nat) :
    MemoryBlock × MemoryPool :=
  let mapped : Option Nat :=
    if pool.type = MemoryType.HostVisible ∨ pool.type = MemoryType.HostCached
    then some newMem else none
  let block : MemoryBlock :=
    ⟨newMem, size, 0, mapped, pool.memoryTypeIndex, [FreeRegion.mk 0 size]⟩
  (block, { pool with blocks := pool.blocks ++ [block] })

/-- The first-fit scan over the pool's blocks in
`GPUAllocator<VulkanAPI>::Allocate` (gpu_allocator.cpp:372-388): index of
the first block that serves the request, the offset, and the updated block
list. -/
def tryAllocate (size alignment : Nat) :
    List MemoryBlock → Option (Nat × Nat × List MemoryBlock)
  | [] => none
  | b :: rest =>
    match b.Allocate size alignment with
    | (some off, b') => some (0, off, b' :: rest)
    | (none, _) =>
      (tryAllocate size alignment rest).map
        fun x => (x.1 + 1, x.2.1, b :: x.2.2)

end MemoryPool

structure VulkanAllocation where
  memory : Nat
  offset : Nat
  size : Nat
  mappedPtr : Option Nat
  blockIndex : Nat
  memoryTypeIndex : Nat
  deriving Repr, DecidableEq

/-- `VulkanAllocation::IsValid` (gpu_allocator_vulkan.h:77). -/
def VulkanAllocation.IsValid (a : VulkanAllocation) : Bool :=
  decide (a.memory ≠ 0)

/-- The value-initialized handle `allocation = {}` used for failure returns
and for invalidation (gpu_allocator.cpp:394,400,463). -/
def zeroAllocation : VulkanAllocation := ⟨0, 0, 0, none, 0, 0⟩

/-- `GPUAllocator<VulkanAPI>::Allocate` (gpu_allocator.cpp:365-414) at the
level of one pool (i.e. the body under the pool's mutex): first-fit over
existing blocks, then (below `maxBlocks`) a new block of size
`max(pool.blockSize, size + alignment)`.  Failure returns the zeroed
handle.  The driver-side success of block creation is assumed, with
`newMem` the fresh memory handle. -/
def MemoryPool.Allocate (pool : MemoryPool)
    (size alignment maxBlocks newMem : Nat) :
    VulkanAllocation × MemoryPool :=
  match MemoryPool.tryAllocate size alignment pool.blocks with
  | some x =>
    let b := x.2.2.getD x.1 (MemoryBlock.create 0 0)
    (⟨b.memory, x.2.1, size, b.mappedPtr.map (· + x.2.1), x.1, b.memoryTypeIndex⟩,
     { pool with blocks := x.2.2 })
  | none =>
    if pool.blocks.length ≥ maxBlocks then
      (zeroAllocation, pool)
    else
      let blockSize := max pool.blockSize (size + alignment)
      let bp := pool.AllocateBlock blockSize newMem
      match (bp.1).Allocate size alignment with
      | (some off, nb') =>
        (⟨nb'.memory, off, size, nb'.mappedPtr.map (· + off),
          bp.2.blocks.length - 1, nb'.memoryTypeIndex⟩,
         { bp.2 with blocks := bp.2.blocks.set (bp.2.blocks.length - 1) nb' })
      | (none, _) => (zeroAllocation, bp.2)

theorem sum_map_const_size :
    ∀ (blocks : List MemoryBlock) (c : Nat), (∀ b ∈ blocks, b.size = c) →
      (blocks.map MemoryBlock.size).sum = c * blocks.length := by
  intro blocks
  induction blocks with
  | nil => intro c _; simp
  | cons b rest ih =>
    intro c hc
    simp only [List.map_cons, List.sum_cons, List.length_cons]
    rw [hc b (List.mem_cons_self _ _), ih c (fun x hx => hc x (List.mem_cons_of_mem _ hx))]
    ring

/-- C5 counterexample: a pool with nominal block size 100 serving a single
200-byte request (alignment 4) creates one oversized block of 204 bytes,
after which `GetTotalSize` reports 100 — not the actual Σ `block.size`
= 204 claimed. -/
theorem C5_counterexample :
    MemoryPool.GetTotalSize
        ((MemoryPool.mk MemoryType.DeviceLocal 0 100 []).Allocate 200 4 64 77).2
      = 100 ∧
    ((((MemoryPool.mk MemoryType.DeviceLocal 0 100 []).Allocate
        200 4 64 77).2).blocks.map MemoryBlock.size).sum = 204 ∧
    MemoryPool.GetTotalSize
        ((MemoryPool.mk MemoryType.DeviceLocal 0 100 []).Allocate 200 4 64 77).2
      ≠ ((((MemoryPool.mk MemoryType.DeviceLocal 0 100 []).Allocate
        200 4 64 77).2).blocks.map MemoryBlock.size).sum := by
  refine ⟨by rfl, by rfl, ?_⟩
  intro h
  simp only [show MemoryPool.GetTotalSize
      ((MemoryPool.mk MemoryType.DeviceLocal 0 100 []).Allocate 200 4 64 77).2
      = 100 from rfl] at h
  rw [show ((((MemoryPool.mk MemoryType.DeviceLocal 0 100 []).Allocate
      200 4 64 77).2).blocks.map MemoryBlock.size).sum = 204 from rfl] at h
  cases h

/-- C5 (amended): per `MemoryPool::GetTotalSize`, `total_bytes` is the
*nominal* `blockSize` times the block count — which equals Σ `block.size`
only when every block has the nominal size (i.e. when no oversized
per-request block was created) — while `allocated_bytes` is Σ `block.used`
as claimed. -/
theorem C5_pool_stats :
    (∀ pool : MemoryPool,
      pool.GetTotalSize = pool.blockSize * pool.blocks.length) ∧
    (∀ pool : MemoryPool,
      pool.GetAllocatedSize = (pool.blocks.map MemoryBlock.used).sum) ∧
    (∀ pool : MemoryPool, (∀ b ∈ pool.blocks, b.size = pool.blockSize) →
      pool.GetTotalSize = (pool.blocks.map MemoryBlock.size).sum) := by
  refine ⟨fun _ => rfl, fun _ => rfl, ?_⟩
  intro pool hall
  rw [MemoryPool.GetTotalSize, sum_map_const_size pool.blocks pool.blockSize hall]

/-- Witness for C5 (amended): a pool whose single block has the nominal
size 100 reports `GetTotalSize = 100 = Σ block.size`. -/
theorem C5_witness :
    MemoryPool.GetTotalSize
        (MemoryPool.mk MemoryType.DeviceLocal 0 100 [MemoryBlock.create 100 0])
      = ((MemoryPool.mk MemoryType.DeviceLocal 0 100
          [MemoryBlock.create 100 0]).blocks.map MemoryBlock.size).sum :=
  C5_pool_stats.2.2 _ (by decide)

/-- The `UINT32_MAX` failure sentinel of `FindMemoryType`. -/
def UINT32MAX : Nat := 4294967295

/-- `GPUAllocator<VulkanAPI>` state: the enumerated memory-type property
flags (from `vkGetPhysicalDeviceMemoryProperties`), the configuration, and
the three lazily created pools. -/
structure GPUAllocatorState where
  memoryTypes : List Nat
  blockSize : Nat
  maxBlocks : Nat
  deviceLocalPool : Option MemoryPool
  hostVisiblePool : Option MemoryPool
  hostCachedPool : Option MemoryPool
  deriving Repr, DecidableEq

namespace GPUAllocatorState

/-- Scan of `GPUAllocator<VulkanAPI>::FindMemoryType`
(gpu_allocator.cpp:264-277). -/
def findMemoryTypeAux (typeFilter properties : Nat) :
    List Nat → Nat → Nat
  | [], _ => UINT32MAX
  | flags :: rest, i =>
    if typeFilter &&& (1 <<< i) ≠ 0 ∧ flags &&& properties = properties then i
    else findMemoryTypeAux typeFilter properties rest (i + 1)

/-- `GPUAllocator<VulkanAPI>::FindMemoryType` (gpu_allocator.cpp:264-277). -/
def FindMemoryType (st : GPUAllocatorState) (typeFilter properties : Nat) : Nat :=
  findMemoryTypeAux typeFilter properties st.memoryTypes 0

/-- `GPUAllocator<VulkanAPI>::GetPool` (gpu_allocator.cpp:279-310): return
the pool of the given class, creating it lazily on first use. -/
def GetPool (st : GPUAllocatorState) (type : MemoryType) :
    MemoryPool × GPUAllocatorState :=
  match type with
  | .DeviceLocal =>
    match st.deviceLocalPool with
    | some p => (p, st)
    | none =>
      let ti := st.FindMemoryType UINT32MAX (GetMemoryProperties .DeviceLocal)
      let p : MemoryPool := ⟨.DeviceLocal, ti, st.blockSize, []⟩
      (p, { st with deviceLocalPool := some p })
  | .HostVisible =>
    match st.hostVisiblePool with
    | some p => (p, st)
    | none =>
      let ti := st.FindMemoryType UINT32MAX (GetMemoryProperties .HostVisible)
      let p : MemoryPool := ⟨.HostVisible, ti, st.blockSize, []⟩
      (p, { st with hostVisiblePool := some p })
  | .HostCached =>
    match st.hostCachedPool with
    | some p => (p, st)
    | none =>
      let ti := st.FindMemoryType UINT32MAX (GetMemoryProperties .HostCached)
      let p : MemoryPool := ⟨.HostCached, ti, st.blockSize, []⟩
      (p, { st with hostCachedPool := some p })

/-- The memory-class resolution at the top of
`GPUAllocator<VulkanAPI>::Deallocate` (gpu_allocator.cpp:445-449). -/
def resolveType (st : GPUAllocatorState) (a : VulkanAllocation) : MemoryType :=
  if st.hostVisiblePool.any (fun p => a.memoryTypeIndex == p.memoryTypeIndex)
  then .HostVisible
  else if st.hostCachedPool.any (fun p => a.memoryTypeIndex == p.memoryTypeIndex)
  then .HostCached
  else .DeviceLocal

/-- Store back the (mutated) pool of the given class. -/
def setPool (st : GPUAllocatorState) (type : MemoryType) (p : MemoryPool) :
    GPUAllocatorState :=
  match type with
  | .DeviceLocal => { st with deviceLocalPool := some p }
  | .HostVisible => { st with hostVisiblePool := some p }
  | .HostCached => { st with hostCachedPool := some p }

/-- `GPUAllocator<VulkanAPI>::Deallocate` (gpu_allocator.cpp:440-464):
early return on an invalid handle; early return (without invalidating the
handle) on an out-of-range block index; otherwise free the sub-allocation
in the owning block and zero the handle. -/
def Deallocate (st : GPUAllocatorState) (allocation : VulkanAllocation) :
    GPUAllocatorState × VulkanAllocation :=
  if ¬ allocation.IsValid then (st, allocation)
  else
    let pp := st.GetPool (st.resolveType allocation)
    if allocation.blockIndex ≥ pp.1.blocks.length then (pp.2, allocation)
    else
      let b := pp.1.blocks.getD allocation.blockIndex (MemoryBlock.create 0 0)
      let b' := b.Deallocate allocation.offset allocation.size
      let pool' := { pp.1 with
        blocks := pp.1.blocks.set allocation.blockIndex b' }
      (pp.2.setPool (st.resolveType allocation) pool', zeroAllocation)

end GPUAllocatorState

/-- C8: GPU double-free is idempotent.  `Deallocate` zeroes a valid
in-range handle; the zeroed handle is invalid; and `Deallocate` of any
invalid handle is a complete no-op (pools, blocks, free regions and used
counters untouched, handle unchanged).  In particular, immediately
repeating a successful `Deallocate` changes nothing. -/
theorem C8_gpu_double_free_idempotent :
    (∀ (st : GPUAllocatorState) (a : VulkanAllocation), a.IsValid = false →
      st.Deallocate a = (st, a)) ∧
    zeroAllocation.IsValid = false ∧
    (∀ (st : GPUAllocatorState) (a : VulkanAllocation), a.IsValid = true →
      a.blockIndex < ((st.GetPool (st.resolveType a)).1).blocks.length →
      (st.Deallocate a).2 = zeroAllocation) ∧
    (∀ (st : GPUAllocatorState) (a : VulkanAllocation), a.IsValid = true →
      a.blockIndex < ((st.GetPool (st.resolveType a)).1).blocks.length →
      (st.Deallocate a).1.Deallocate (st.Deallocate a).2 = st.Deallocate a) := by
  have hnoop : ∀ (st : GPUAllocatorState) (a : VulkanAllocation),
      a.IsValid = false → st.Deallocate a = (st, a) := by
    intro st a ha
    unfold GPUAllocatorState.Deallocate
    rw [if_pos (by simp [ha])]
  have hzero : zeroAllocation.IsValid = false := by decide
  have hzeroes : ∀ (st : GPUAllocatorState) (a : VulkanAllocation),
      a.IsValid = true →
      a.blockIndex < ((st.GetPool (st.resolveType a)).1).blocks.length →
      (st.Deallocate a).2 = zeroAllocation := by
    intro st a ha hrange
    unfold GPUAllocatorState.Deallocate
    rw [if_neg (by simp [ha])]
    simp only
    rw [if_neg (by omega)]
  refine ⟨hnoop, hzero, hzeroes, ?_⟩
  intro st a ha hrange
  have h2 := hzeroes st a ha hrange
  rw [h2, hnoop (st.Deallocate a).1 zeroAllocation hzero, ← h2]

/-- Witness for C8 at a concrete allocator with one host-visible pool
holding one 100-byte block with a live 10-byte sub-allocation at offset 0:
deallocating the handle zeroes it and a second deallocation is a no-op. -/
theorem C8_witness :
    ((GPUAllocatorState.mk [6] 100 64 none
        (some (MemoryPool.mk MemoryType.HostVisible 0 100
          [MemoryBlock.mk 7 100 10 (some 7) 0 [FreeRegion.mk 10 90]]))
        none).Deallocate
      (VulkanAllocation.mk 7 0 10 (some 7) 0 0)).2 = zeroAllocation ∧
    (((GPUAllocatorState.mk [6] 100 64 none
        (some (MemoryPool.mk MemoryType.HostVisible 0 100
          [MemoryBlock.mk 7 100 10 (some 7) 0 [FreeRegion.mk 10 90]]))
        none).Deallocate
      (VulkanAllocation.mk 7 0 10 (some 7) 0 0)).1.Deallocate
        zeroAllocation).2 = zeroAllocation := by
  constructor
  · exact C8_gpu_double_free_idempotent.2.2.1 _ _ (by decide) (by decide)
  · have h := C8_gpu_double_free_idempotent.1
      ((GPUAllocatorState.mk [6] 100 64 none
        (some (MemoryPool.mk MemoryType.HostVisible 0 100
          [MemoryBlock.mk 7 100 10 (some 7) 0 [FreeRegion.mk 10 90]]))
        none).Deallocate
      (VulkanAllocation.mk 7 0 10 (some 7) 0 0)).1 zeroAllocation (by decide)
    rw [h]

/-! ## BuddyAllocator (comb/buddy_allocator.h)

Offsets relative to `memory_block_` replace raw pointers; the per-level
singly linked free lists become lists of offsets in chain order (push =
cons, pop = head, unlink = erase of the first occurrence).  The
`AllocationHeader` written at each allocated block's start is modelled by
the `headers` association list mapping live block offsets to their stored
size; `Deallocate` of a pointer whose header was never written (or was
already freed) reads unspecified memory in C++ and is modelled as an
error.  The iterative `while` loops (`GetLevel`, the free-level scan, and
the coalesce loop) carry an explicit fuel of `MaxLevels`, which their
bounds checks keep from ever being exhausted.  `blockSize <<= 1` and
`MinBlockSize << level` are written as multiplication by powers of two
(`x <<< k = x * 2 ^ k`). -/

def MinBlockSize : Nat := 64

def MaxLevels : Nat := 20

/-- `sizeof(AllocationHeader)` = `sizeof(size_t)` = 8 on the 64-bit
targets of the engine. -/
def headerSize : Nat := 8

structure BuddyAllocator where
  capacity : Nat
  used_memory : Nat
  free_lists : List (List Nat)
  headers : List (Nat × Nat)
  deriving Repr, DecidableEq

/-- `BuddyAllocator::GetBlockSize` (buddy_allocator.h:322-325):
`MinBlockSize << level`. -/
def GetBlockSize (level : Nat) : Nat := MinBlockSize * 2 ^ level

/-- The loop of `BuddyAllocator::GetLevel` (buddy_allocator.h:307-319). -/
def GetLevelAux (size : Nat) : Nat → Nat → Nat → Nat
  | 0, _, level => level
  | fuel + 1, blockSize, level =>
    if blockSize < size ∧ level < MaxLevels then
      GetLevelAux size fuel (2 * blockSize) (level + 1)
    else level

/-- `BuddyAllocator::GetLevel` (buddy_allocator.h:307-319). -/
def GetLevel (size : Nat) : Nat := GetLevelAux size MaxLevels MinBlockSize 0

/-- Push a block offset onto a level's free list (`block->next =
free_lists_[level]; free_lists_[level] = block`). -/
def pushAt (ls : List (List Nat)) (i : Nat) (o : Nat) : List (List Nat) :=
  ls.set i (o :: ls.getD i [])

/-- The free-level scan of `BuddyAllocator::Allocate`
(buddy_allocator.h:209-213). -/
def findNonEmptyLevel (ls : List (List Nat)) : Nat → Nat → Nat
  | 0, currentLevel => currentLevel
  | fuel + 1, currentLevel =>
    if currentLevel < MaxLevels ∧ ls.getD currentLevel [] = [] then
      findNonEmptyLevel ls fuel (currentLevel + 1)
    else currentLevel

/-- The split loop of `BuddyAllocator::Allocate`
(buddy_allocator.h:225-239): while above the target level, halve the block
and push the upper half (the buddy) onto the next-lower level. -/
def splitLoop (blockOff target : Nat) : Nat → List (List Nat) → List (List Nat)
  | 0, ls => ls
  | cl + 1, ls =>
    if target < cl + 1 then
      splitLoop blockOff target cl (pushAt ls cl (blockOff + GetBlockSize cl))
    else ls

/-- `BuddyAllocator::CoalesceAndInsert` (buddy_allocator.h:334-400).  Each
iteration: compute `buddy_offset = offset XOR block_size`; stop if it is
outside the arena or not on this level's free list; otherwise unlink the
buddy, keep the lower offset, and move up one level.  Finally push the
(possibly promoted) block. -/
def CoalesceAndInsert (C : Nat) :
    Nat → List (List Nat) → Nat → Nat → Nat → List (List Nat)
  | 0, ls, offset, _, level => pushAt ls level offset
  | fuel + 1, ls, offset, blockSize, level =>
    if level < MaxLevels - 1 then
      let buddyOffset := offset ^^^ blockSize
      if buddyOffset ≥ C then pushAt ls level offset
      else if buddyOffset ∈ ls.getD level [] then
        CoalesceAndInsert C fuel
          (ls.set level ((ls.getD level []).erase buddyOffset))
          (min offset buddyOffset) (2 * blockSize) (level + 1)
      else pushAt ls level offset
    else pushAt ls level offset

namespace BuddyAllocator

/-- `BuddyAllocator::BuddyAllocator` (buddy_allocator.h:104-125). -/
def create (capacity : Nat) : Except String BuddyAllocator := do
  hiveAssert (decide (capacity > 0)) "Capacity must be > 0"
  let cap := NextPowerOfTwo capacity
  let topLevel := GetLevel cap
  return { capacity := cap
           used_memory := 0
           free_lists := (List.replicate MaxLevels []).set topLevel [0]
           headers := [] }

/-- `BuddyAllocator::Allocate` (buddy_allocator.h:193-250). -/
def Allocate (st : BuddyAllocator) (size alignment : Nat) :
    Except String (Option Nat × BuddyAllocator) := do
  hiveAssert (decide (alignment ≤ 16))
    "BuddyAllocator alignment limited to max_align_t"
  let totalSize := size + headerSize
  let blockSize0 := NextPowerOfTwo totalSize
  let blockSize := if blockSize0 < MinBlockSize then MinBlockSize else blockSize0
  let level := GetLevel blockSize
  let currentLevel := findNonEmptyLevel st.free_lists MaxLevels level
  if currentLevel ≥ MaxLevels then
    return (none, st)
  else
    match st.free_lists.getD currentLevel [] with
    | [] => .error "BUG: scan stopped on an empty free list"
    | blockOff :: restList =>
      let ls1 := st.free_lists.set currentLevel restList
      let ls2 := splitLoop blockOff level currentLevel ls1
      return (some (blockOff + headerSize),
        { st with free_lists := ls2
                  used_memory := st.used_memory + blockSize
                  headers := (blockOff, blockSize) :: st.headers })

/-- Reading the `AllocationHeader` at a block offset: the stored size of
the live allocation starting there, if any. -/
def lookupHeader : List (Nat × Nat) → Nat → Option Nat
  | [], _ => none
  | (o, s) :: rest, off => if o = off then some s else lookupHeader rest off

/-- The header ceases to be live once the block is freed. -/
def removeHeader : List (Nat × Nat) → Nat → List (Nat × Nat)
  | [], _ => []
  | (o, s) :: rest, off =>
    if o = off then rest else (o, s) :: removeHeader rest off

/-- `BuddyAllocator::Deallocate` (buddy_allocator.h:261-279): null is a
no-op; otherwise read the header just before the payload, release the
block's bytes and coalesce-insert it. -/
def Deallocate (st : BuddyAllocator) (ptr : Option Nat) :
    Except String BuddyAllocator :=
  match ptr with
  | none => .ok st
  | some p =>
    let headerOff := p - headerSize
    match lookupHeader st.headers headerOff with
    | none => .error "undefined behavior: pointer without a live header"
    | some blockSize =>
      let level := GetLevel blockSize
      .ok { st with
        used_memory := st.used_memory - blockSize
        headers := removeHeader st.headers headerOff
        free_lists :=
          CoalesceAndInsert st.capacity MaxLevels st.free_lists
            headerOff blockSize level }

/-- `BuddyAllocator::GetUsedMemory` (buddy_allocator.h:284-287). -/
def GetUsedMemory (st : BuddyAllocator) : Nat := st.used_memory

end BuddyAllocator

/-- C10: `Deallocate(nullptr)` is accepted in every state by the Pool, the
Slab and the Buddy allocators: it returns without any assertion firing
(including the Slab's foreign-pointer fatal assert) and leaves the whole
allocator state unchanged. -/
theorem C10_deallocate_null_noop :
    (∀ st : PoolAllocator, st.Deallocate none = .ok st) ∧
    (∀ st : SlabAllocator, st.Deallocate none = .ok st) ∧
    (∀ st : BuddyAllocator, st.Deallocate none = .ok st) :=
  ⟨fun _ => rfl, fun _ => rfl, fun _ => rfl⟩

/-! ### Dyadic arithmetic for the buddy relation `offset XOR block_size` -/

theorem xor_mul_pow (k a b : Nat) : (2 ^ k * a) ^^^ (2 ^ k * b) = 2 ^ k * (a ^^^ b) := by
  apply Nat.eq_of_testBit_eq
  intro i
  rw [Nat.testBit_xor, Nat.testBit_mul_pow_two, Nat.testBit_mul_pow_two,
    Nat.testBit_mul_pow_two, Nat.testBit_xor]
  by_cases h : k ≤ i <;> simp [h]

theorem xor_one (m : Nat) : m ^^^ 1 = if m % 2 = 0 then m + 1 else m - 1 := by
  apply Nat.eq_of_testBit_eq
  intro i
  rw [Nat.testBit_xor]
  match i with
  | 0 =>
    rw [Nat.testBit_zero, Nat.testBit_zero, Nat.testBit_zero]
    rcases Nat.mod_two_eq_zero_or_one m with h | h
    · rw [if_pos h]
      have h1 : (m + 1) % 2 = 1 := by omega
      simp [h, h1]
    · rw [if_neg (by omega)]
      have h1 : (m - 1) % 2 = 0 := by omega
      simp [h, h1]
  | i + 1 =>
    rw [Nat.testBit_add_one, Nat.testBit_add_one, Nat.testBit_add_one]
    have h2 : (1 : Nat) / 2 = 0 := by norm_num
    rw [h2]
    rcases Nat.mod_two_eq_zero_or_one m with h | h
    · rw [if_pos h]
      have h3 : (m + 1) / 2 = m / 2 := by omega
      simp [h3]
    · rw [if_neg (by omega)]
      have h3 : (m - 1) / 2 = m / 2 := by omega
      simp [h3]

/-- The buddy relation: for a `2^k`-aligned offset, `o XOR 2^k` is `o + 2^k`
when the `2^k` bit of `o` is clear and `o - 2^k` when it is set. -/
theorem buddy_cases (k o : Nat) (h : 2 ^ k ∣ o) :
    (o / 2 ^ k % 2 = 0 ∧ o ^^^ 2 ^ k = o + 2 ^ k) ∨
    (o / 2 ^ k % 2 = 1 ∧ o ^^^ 2 ^ k = o - 2 ^ k ∧ 2 ^ k ≤ o) := by
  obtain ⟨m, hm⟩ := h
  subst hm
  have hpow : 0 < 2 ^ k := Nat.pos_pow_of_pos k (by norm_num)
  have hx : (2 ^ k * m) ^^^ 2 ^ k = 2 ^ k * (m ^^^ 1) := by
    have := xor_mul_pow k m 1
    simpa using this
  have hdiv : 2 ^ k * m / 2 ^ k = m := by
    rw [Nat.mul_div_cancel_left m hpow]
  rw [hx, hdiv, xor_one]
  rcases Nat.mod_two_eq_zero_or_one m with hpar | hpar
  · left
    rw [if_pos hpar]
    constructor
    · exact hpar
    · ring
  · right
    rw [if_neg (by omega)]
    have h1 : 1 ≤ m := by omega
    obtain ⟨t, rfl⟩ : ∃ t, m = t + 1 := ⟨m - 1, by omega⟩
    refine ⟨hpar, ?_, ?_⟩
    · rw [Nat.add_sub_cancel, Nat.mul_add, Nat.mul_one, Nat.add_sub_cancel]
    · rw [Nat.mul_add, Nat.mul_one]
      omega

theorem GetBlockSize_eq_pow (level : Nat) : GetBlockSize level = 2 ^ (level + 6) := by
  rw [GetBlockSize, MinBlockSize, Nat.pow_add]
  ring

theorem GetBlockSize_pos (level : Nat) : 0 < GetBlockSize level := by
  rw [GetBlockSize_eq_pow]
  exact Nat.pos_pow_of_pos _ (by norm_num)

theorem GetBlockSize_lt_iff {a b : Nat} : GetBlockSize a < GetBlockSize b ↔ a < b := by
  rw [GetBlockSize_eq_pow, GetBlockSize_eq_pow]
  rw [Nat.pow_lt_pow_iff_right (by norm_num : 1 < 2)]
  omega

theorem GetBlockSize_le_iff {a b : Nat} : GetBlockSize a ≤ GetBlockSize b ↔ a ≤ b := by
  rw [GetBlockSize_eq_pow, GetBlockSize_eq_pow]
  rw [Nat.pow_le_pow_iff_right (by norm_num : 1 < 2)]
  omega

theorem GetBlockSize_inj {a b : Nat} (h : GetBlockSize a = GetBlockSize b) : a = b := by
  have h1 := GetBlockSize_le_iff.mp (le_of_eq h)
  have h2 := GetBlockSize_le_iff.mp (le_of_eq h.symm)
  omega

theorem GetBlockSize_dvd {a b : Nat} (h : a ≤ b) : GetBlockSize a ∣ GetBlockSize b := by
  rw [GetBlockSize_eq_pow, GetBlockSize_eq_pow]
  exact Nat.pow_dvd_pow 2 (by omega)

theorem GetBlockSize_succ (level : Nat) :
    GetBlockSize (level + 1) = 2 * GetBlockSize level := by
  rw [GetBlockSize_eq_pow, GetBlockSize_eq_pow]
  rw [show level + 1 + 6 = (level + 6) + 1 from rfl, Nat.pow_succ]
  ring

/-- Specialized buddy relation at a level size: for a `GetBlockSize ℓ`-aligned
offset `o`, the buddy `o ^^^ GetBlockSize ℓ` is the other half of the
enclosing `GetBlockSize (ℓ+1)` block. -/
theorem buddy_cases_level (ℓ o : Nat) (h : GetBlockSize ℓ ∣ o) :
    (o ^^^ GetBlockSize ℓ = o + GetBlockSize ℓ ∧ GetBlockSize (ℓ + 1) ∣ o) ∨
    (o ^^^ GetBlockSize ℓ = o - GetBlockSize ℓ ∧ GetBlockSize ℓ ≤ o ∧
      GetBlockSize (ℓ + 1) ∣ (o - GetBlockSize ℓ)) := by
  rw [GetBlockSize_eq_pow] at h
  rcases buddy_cases (ℓ + 6) o h with ⟨heven, hx⟩ | ⟨hodd, hx, hle⟩
  · left
    rw [GetBlockSize_eq_pow, GetBlockSize_eq_pow]
    refine ⟨hx, ?_⟩
    obtain ⟨m, hm⟩ := h
    subst hm
    have hpos : 0 < 2 ^ (ℓ + 6) := Nat.pos_pow_of_pos _ (by norm_num)
    rw [Nat.mul_div_cancel_left m hpos] at heven
    obtain ⟨t, ht⟩ : ∃ t, m = 2 * t := ⟨m / 2, by omega⟩
    subst ht
    refine ⟨t, ?_⟩
    rw [show ℓ + 1 + 6 = (ℓ + 6) + 1 from rfl, Nat.pow_succ]
    ring
  · right
    rw [GetBlockSize_eq_pow, GetBlockSize_eq_pow]
    refine ⟨hx, hle, ?_⟩
    obtain ⟨m, hm⟩ := h
    subst hm
    have hpos : 0 < 2 ^ (ℓ + 6) := Nat.pos_pow_of_pos _ (by norm_num)
    rw [Nat.mul_div_cancel_left m hpos] at hodd
    obtain ⟨t, ht⟩ : ∃ t, m = 2 * t + 1 := ⟨m / 2, by omega⟩
    subst ht
    refine ⟨t, ?_⟩
    rw [show ℓ + 1 + 6 = (ℓ + 6) + 1 from rfl, Nat.pow_succ]
    rw [Nat.mul_add, Nat.mul_one, Nat.add_sub_cancel]
    ring

theorem buddy_ne (ℓ o : Nat) (h : GetBlockSize ℓ ∣ o) :
    o ^^^ GetBlockSize ℓ ≠ o := by
  have hpos := GetBlockSize_pos ℓ
  rcases buddy_cases_level ℓ o h with ⟨hx, _⟩ | ⟨hx, hle, _⟩ <;> omega

theorem buddy_invol (ℓ o : Nat) : (o ^^^ GetBlockSize ℓ) ^^^ GetBlockSize ℓ = o :=
  Nat.xor_cancel_right _ _

/-- The buddy of a level-ℓ block inside an arena of `2 ^ n` bytes stays a
valid level-ℓ block: it is aligned, and within the arena provided the
original block is. -/
theorem buddy_welldef (ℓ o T : Nat) (hd : GetBlockSize ℓ ∣ o)
    (hin : o + GetBlockSize ℓ ≤ GetBlockSize T) (hlT : ℓ < T) :
    GetBlockSize ℓ ∣ (o ^^^ GetBlockSize ℓ) ∧
    (o ^^^ GetBlockSize ℓ) + GetBlockSize ℓ ≤ GetBlockSize T := by
  have hpos := GetBlockSize_pos ℓ
  rcases buddy_cases_level ℓ o hd with ⟨hx, hdvd2⟩ | ⟨hx, hle, hdvd2⟩
  · constructor
    · rw [hx]
      exact Nat.dvd_add (by assumption) dvd_rfl
    · rw [hx]
      -- o is 2·s aligned, so o + 2·s ≤ C since o + s ≤ C and C, o are 2·s-multiples
      have h2s : GetBlockSize (ℓ + 1) ∣ GetBlockSize T := GetBlockSize_dvd (by omega)
      obtain ⟨q, hq⟩ := hdvd2
      obtain ⟨Q, hQ⟩ := h2s
      have hsucc := GetBlockSize_succ ℓ
      have hqQ : q < Q := by
        by_contra hc
        push_neg at hc
        have : GetBlockSize (ℓ + 1) * Q ≤ GetBlockSize (ℓ + 1) * q :=
          Nat.mul_le_mul_left _ hc
        omega
      have : GetBlockSize (ℓ + 1) * (q + 1) ≤ GetBlockSize (ℓ + 1) * Q :=
        Nat.mul_le_mul_left _ (by omega)
      rw [Nat.mul_add, Nat.mul_one] at this
      omega
  · constructor
    · rw [hx]
      obtain ⟨q, hq⟩ := hdvd2
      have hsucc := GetBlockSize_succ ℓ
      exact ⟨2 * q, by rw [hq, hsucc]; ring⟩
    · rw [hx]
      omega

theorem GetLevelAux_spec (size : Nat) :
    ∀ fuel ℓ, MaxLevels ≤ ℓ + fuel → (0 < ℓ → GetBlockSize (ℓ - 1) < size) →
      ℓ ≤ GetLevelAux size fuel (GetBlockSize ℓ) ℓ ∧
      GetLevelAux size fuel (GetBlockSize ℓ) ℓ ≤ max ℓ MaxLevels ∧
      (GetLevelAux size fuel (GetBlockSize ℓ) ℓ < MaxLevels →
        size ≤ GetBlockSize (GetLevelAux size fuel (GetBlockSize ℓ) ℓ)) ∧
      (0 < GetLevelAux size fuel (GetBlockSize ℓ) ℓ →
        GetBlockSize (GetLevelAux size fuel (GetBlockSize ℓ) ℓ - 1) < size) := by
  intro fuel
  induction fuel with
  | zero =>
    intro ℓ hf hpre
    simp only [GetLevelAux]
    refine ⟨le_rfl, le_max_left _ _, ?_, hpre⟩
    intro hlt
    rw [MaxLevels] at hf hlt
    omega
  | succ fuel ih =>
    intro ℓ hf hpre
    simp only [GetLevelAux]
    split
    · rename_i hcond
      have hrw : 2 * GetBlockSize ℓ = GetBlockSize (ℓ + 1) :=
        (GetBlockSize_succ ℓ).symm
      rw [hrw]
      have := ih (ℓ + 1) (by omega) (by intro _; simpa using hcond.1)
      refine ⟨by omega, ?_, this.2.2.1, this.2.2.2⟩
      have h1 := this.2.1
      have h2 : ℓ + 1 ≤ MaxLevels := hcond.2
      omega
    · rename_i hcond
      rw [Classical.not_and_iff_or_not_not] at hcond
      refine ⟨le_rfl, le_max_left _ _, ?_, hpre⟩
      intro hlt
      rcases hcond with hc | hc
      · omega
      · omega

theorem GetLevel_eq_aux (size : Nat) :
    GetLevel size = GetLevelAux size MaxLevels (GetBlockSize 0) 0 := by
  rw [GetLevel]
  norm_num [GetBlockSize, MinBlockSize]

theorem GetLevel_le_max (size : Nat) : GetLevel size ≤ MaxLevels := by
  have h := GetLevelAux_spec size MaxLevels 0 (by omega) (by omega)
  have h2 := h.2.1
  rw [GetLevel_eq_aux]
  simpa using h2

theorem GetLevel_fits {size : Nat} (h : GetLevel size < MaxLevels) :
    size ≤ GetBlockSize (GetLevel size) := by
  have hs := GetLevelAux_spec size MaxLevels 0 (by omega) (by omega)
  rw [GetLevel_eq_aux] at h ⊢
  exact hs.2.2.1 h

theorem GetLevel_tight {size : Nat} (h : 0 < GetLevel size) :
    GetBlockSize (GetLevel size - 1) < size := by
  have hs := GetLevelAux_spec size MaxLevels 0 (by omega) (by omega)
  rw [GetLevel_eq_aux] at h ⊢
  exact hs.2.2.2 h

theorem GetLevel_blockSize {j : Nat} (hj : j ≤ MaxLevels) :
    GetLevel (GetBlockSize j) = j := by
  rcases Nat.lt_or_ge (GetLevel (GetBlockSize j)) MaxLevels with hlt | hge
  · have h1 := GetLevel_fits hlt
    have h2 : j ≤ GetLevel (GetBlockSize j) := GetBlockSize_le_iff.mp h1
    rcases Nat.eq_zero_or_pos (GetLevel (GetBlockSize j)) with h0 | hpos
    · omega
    · have h3 := GetLevel_tight hpos
      have h4 : GetLevel (GetBlockSize j) - 1 < j := GetBlockSize_lt_iff.mp h3
      omega
  · have hle := GetLevel_le_max (GetBlockSize j)
    have heq : GetLevel (GetBlockSize j) = MaxLevels := by omega
    rw [heq]
    have hpos : 0 < GetLevel (GetBlockSize j) := by rw [heq, MaxLevels]; omega
    have h3 := GetLevel_tight hpos
    rw [heq] at h3
    have h4 : MaxLevels - 1 < j := GetBlockSize_lt_iff.mp h3
    rw [MaxLevels] at h4 hj ⊢
    omega

theorem GetLevel_pow_eq {size : Nat} (hpow : ∃ k, size = 2 ^ k)
    (h64 : MinBlockSize ≤ size) (hlev : GetLevel size < MaxLevels) :
    size = GetBlockSize (GetLevel size) := by
  obtain ⟨k, rfl⟩ := hpow
  have hfit := GetLevel_fits hlev
  have hk6 : 6 ≤ k := by
    rw [MinBlockSize] at h64
    by_contra hc
    push_neg at hc
    have : (2 : Nat) ^ k < 2 ^ 6 := Nat.pow_lt_pow_right (by norm_num) (by omega)
    norm_num at this
    omega
  rcases Nat.eq_zero_or_pos (GetLevel (2 ^ k)) with h0 | hpos
  · rw [h0]
    rw [h0] at hfit
    have : GetBlockSize 0 = 2 ^ 6 := by rw [GetBlockSize_eq_pow]
    rw [this] at hfit ⊢
    have := Nat.pow_le_pow_right (show 1 ≤ 2 by norm_num) hk6
    omega
  · have htight := GetLevel_tight hpos
    rw [GetBlockSize_eq_pow] at hfit htight
    rw [GetBlockSize_eq_pow]
    have hlow : GetLevel (2 ^ k) - 1 + 6 < k :=
      (Nat.pow_lt_pow_iff_right (by norm_num : 1 < 2)).mp htight
    have hhigh : k ≤ GetLevel (2 ^ k) + 6 :=
      (Nat.pow_le_pow_iff_right (by norm_num : 1 < 2)).mp hfit
    congr 1
    omega

/-! ### The multiset of free blocks of the level lists -/

/-- All `(offset, size)` blocks recorded in the level free lists, the first
list being at level `k`. -/
def freeBlocksAux : Nat → List (List Nat) → List (Nat × Nat)
  | _, [] => []
  | k, l :: rest =>
    l.map (fun o => (o, GetBlockSize k)) ++ freeBlocksAux (k + 1) rest

def freeBlocks (ls : List (List Nat)) : List (Nat × Nat) := freeBlocksAux 0 ls

theorem getD_set_self :
    ∀ (ls : List (List Nat)) (i : Nat) (x : List Nat), i < ls.length →
      (ls.set i x).getD i [] = x := by
  intro ls
  induction ls with
  | nil => intro i x h; simp at h
  | cons l rest ih =>
    intro i x h
    match i with
    | 0 => rfl
    | i + 1 => exact ih i x (by simpa using h)

theorem getD_set_other :
    ∀ (ls : List (List Nat)) (i j : Nat) (x : List Nat), i ≠ j →
      (ls.set i x).getD j [] = ls.getD j [] := by
  intro ls
  induction ls with
  | nil => intro i j x _; simp
  | cons l rest ih =>
    intro i j x hij
    match i, j with
    | 0, 0 => omega
    | 0, j + 1 => rfl
    | i + 1, 0 => rfl
    | i + 1, j + 1 => exact ih i j x (by omega)

theorem set_getD_self (ls : List (List Nat)) (i : Nat) (h : i < ls.length) :
    ls.set i (ls.getD i []) = ls := by
  rw [List.getD_eq_getElem ls _ h]
  exact list_set_self ls i h

theorem mem_freeBlocksAux :
    ∀ (ls : List (List Nat)) (k : Nat) (b : Nat × Nat),
      b ∈ freeBlocksAux k ls ↔
        ∃ i, i < ls.length ∧ b.1 ∈ ls.getD i [] ∧ b.2 = GetBlockSize (k + i) := by
  intro ls
  induction ls with
  | nil => intro k b; simp [freeBlocksAux]
  | cons l rest ih =>
    intro k b
    simp only [freeBlocksAux, List.mem_append, List.mem_map]
    constructor
    · rintro (⟨o, ho, rfl⟩ | h)
      · exact ⟨0, by simp, by simpa using ho, by simp⟩
      · obtain ⟨i, hi, hmem, hsz⟩ := (ih (k + 1) b).mp h
        exact ⟨i + 1, by simpa using Nat.succ_lt_succ hi, by simpa using hmem,
          by rw [hsz]; congr 1; omega⟩
    · rintro ⟨i, hi, hmem, hsz⟩
      match i with
      | 0 =>
        left
        refine ⟨b.1, by simpa using hmem, ?_⟩
        simp at hsz
        rw [← hsz]
      | i + 1 =>
        right
        refine (ih (k + 1) b).mpr ⟨i, by simpa using hi, by simpa using hmem, ?_⟩
        rw [hsz]
        congr 1
        omega

theorem freeBlocks_level_perm :
    ∀ (ls : List (List Nat)) (k i : Nat), i < ls.length →
      ∀ (x : Nat) (rest : List Nat), (ls.getD i []).Perm (x :: rest) →
      (freeBlocksAux k ls).Perm
        ((x, GetBlockSize (k + i)) :: freeBlocksAux k (ls.set i rest)) := by
  intro ls
  induction ls with
  | nil => intro k i h; simp at h
  | cons l t ih =>
    intro k i hi x rest hperm
    match i with
    | 0 =>
      simp only [List.getD_cons_zero] at hperm
      simp only [freeBlocksAux, List.set_cons_zero, Nat.add_zero]
      have hm : (l.map (fun o => (o, GetBlockSize k))).Perm
          ((x, GetBlockSize k) :: rest.map (fun o => (o, GetBlockSize k))) := by
        have := hperm.map (fun o => (o, GetBlockSize k))
        simpa using this
      have := hm.append_right (freeBlocksAux (k + 1) t)
      simpa using this
    | i + 1 =>
      simp only [List.getD_cons_succ] at hperm
      simp only [freeBlocksAux, List.set_cons_succ]
      have hrec := ih (k + 1) i (by simpa using hi) x rest hperm
      have h2 := (List.Perm.append_left (l.map (fun o => (o, GetBlockSize k))) hrec)
      refine h2.trans ?_
      have := @List.perm_middle (Nat × Nat) (x, GetBlockSize (k + 1 + i))
        (l.map (fun o => (o, GetBlockSize k)))
        (freeBlocksAux (k + 1) (t.set i rest))
      refine this.trans ?_
      have hk : k + 1 + i = k + (i + 1) := by omega
      rw [hk]

theorem freeBlocks_pushAt (ls : List (List Nat)) (i : Nat) (h : i < ls.length)
    (x : Nat) :
    (freeBlocks (pushAt ls i x)).Perm ((x, GetBlockSize i) :: freeBlocks ls) := by
  have hlen : i < (pushAt ls i x).length := by
    simpa [pushAt] using h
  have hget : (pushAt ls i x).getD i [] = x :: ls.getD i [] :=
    getD_set_self ls i _ h
  have hp := freeBlocks_level_perm (pushAt ls i x) 0 i hlen x (ls.getD i [])
    (by rw [hget])
  have hset : (pushAt ls i x).set i (ls.getD i []) = ls := by
    rw [pushAt, List.set_set]
    exact set_getD_self ls i h
  rw [hset] at hp
  simpa [freeBlocks] using hp

/-- Per-level no-buddy-pair invariant: no level's free list contains both a
block and its buddy. -/
def NoBuddy (ls : List (List Nat)) : Prop :=
  ∀ ℓ, ∀ o ∈ ls.getD ℓ [], (o ^^^ GetBlockSize ℓ) ∉ ls.getD ℓ []

theorem NoBuddy_shrink {ls : List (List Nat)} (hnb : NoBuddy ls) (i : Nat)
    (newl : List Nat) (hsub : ∀ o ∈ newl, o ∈ ls.getD i []) :
    NoBuddy (ls.set i newl) := by
  intro ℓ o ho hbud
  by_cases hij : i = ℓ
  · subst hij
    rcases Nat.lt_or_ge i ls.length with hlen | hlen
    · rw [getD_set_self ls i newl hlen] at ho hbud
      exact hnb i o (hsub o ho) (hsub _ hbud)
    · rw [List.set_eq_of_length_le hlen] at ho hbud
      exact hnb i o ho hbud
  · rw [getD_set_other ls i ℓ newl hij] at ho hbud
    exact hnb ℓ o ho hbud

theorem xor_self_ne {x s : Nat} (hs : 0 < s) : x ^^^ s ≠ x := by
  intro h
  have : s = x ^^^ x := by
    calc s = x ^^^ (x ^^^ s) := by
          rw [← Nat.xor_assoc, Nat.xor_self, Nat.zero_xor]
      _ = x ^^^ x := by rw [h]
  rw [Nat.xor_self] at this
  omega

theorem NoBuddy_push {ls : List (List Nat)} {i : Nat} (h : i < ls.length)
    (hnb : NoBuddy ls) (x : Nat)
    (hx : (x ^^^ GetBlockSize i) ∉ ls.getD i []) :
    NoBuddy (pushAt ls i x) := by
  intro ℓ o ho hbud
  by_cases hij : i = ℓ
  · subst hij
    rw [pushAt, getD_set_self ls i _ h] at ho hbud
    rcases List.mem_cons.mp ho with rfl | ho'
    · rcases List.mem_cons.mp hbud with hb | hb'
      · exact xor_self_ne (GetBlockSize_pos i) hb
      · exact hx hb'
    · rcases List.mem_cons.mp hbud with hb | hb'
      · apply hx
        rw [← hb, buddy_invol]
        exact ho'
      · exact hnb i o ho' hb'
  · rw [pushAt, getD_set_other ls i ℓ _ hij] at ho hbud
    exact hnb ℓ o ho hbud

/-- The blocks pushed by the split loop when splitting a level-`cl` block
at `blockOff` down to `level`: the upper halves at levels `cl-1, …, level`. -/
def splitList (blockOff level : Nat) : Nat → List (Nat × Nat)
  | 0 => []
  | cl + 1 =>
    if level < cl + 1 then
      (blockOff + GetBlockSize cl, GetBlockSize cl) :: splitList blockOff level cl
    else []

theorem mem_splitList (blockOff level : Nat) :
    ∀ (cl : Nat) (x : Nat × Nat),
      x ∈ splitList blockOff level cl ↔
        ∃ k, level ≤ k ∧ k < cl ∧ x = (blockOff + GetBlockSize k, GetBlockSize k) := by
  intro cl
  induction cl with
  | zero => intro x; simp [splitList]
  | succ c ih =>
    intro x
    simp only [splitList]
    split
    · rename_i hlt
      rw [List.mem_cons, ih]
      constructor
      · rintro (rfl | ⟨k, h1, h2, rfl⟩)
        · exact ⟨c, by omega, by omega, rfl⟩
        · exact ⟨k, h1, by omega, rfl⟩
      · rintro ⟨k, h1, h2, rfl⟩
        rcases Nat.lt_or_ge k c with hk | hk
        · exact Or.inr ⟨k, h1, hk, rfl⟩
        · left
          have : k = c := by omega
          rw [this]
    · rename_i hge
      simp only [List.not_mem_nil, false_iff]
      rintro ⟨k, h1, h2, _⟩
      omega

theorem splitList_sum (blockOff : Nat) :
    ∀ (cl level : Nat), level ≤ cl →
      GetBlockSize level + sumPairSizes (splitList blockOff level cl) =
        GetBlockSize cl := by
  intro cl
  induction cl with
  | zero =>
    intro level h
    have : level = 0 := by omega
    subst this
    simp [splitList, sumPairSizes]
  | succ c ih =>
    intro level h
    simp only [splitList]
    split
    · rename_i hlt
      have := ih level (by omega)
      simp only [sumPairSizes, List.map_cons, List.sum_cons] at this ⊢
      rw [GetBlockSize_succ]
      omega
    · rename_i hge
      have : level = c + 1 := by omega
      subst this
      simp [sumPairSizes]

theorem splitLoop_props :
    ∀ (cl : Nat) (ls : List (List Nat)), ls.length = MaxLevels →
      cl ≤ MaxLevels →
      ∀ level blockOff, level ≤ cl → GetBlockSize cl ∣ blockOff →
      (∀ k, k < cl → blockOff ∉ ls.getD k []) →
      NoBuddy ls →
      (splitLoop blockOff level cl ls).length = MaxLevels ∧
      (freeBlocks (splitLoop blockOff level cl ls)).Perm
        (splitList blockOff level cl ++ freeBlocks ls) ∧
      NoBuddy (splitLoop blockOff level cl ls) := by
  intro cl
  induction cl with
  | zero =>
    intro ls hlen _ level blockOff _ _ _ hnb
    exact ⟨hlen, by simp [splitLoop, splitList], hnb⟩
  | succ c ih =>
    intro ls hlen hcl level blockOff hlev hdvd hnotin hnb
    simp only [splitLoop, splitList]
    split
    · rename_i hlt
      have hc_len : c < ls.length := by rw [hlen]; omega
      have hdvd_c : GetBlockSize c ∣ blockOff :=
        dvd_trans (GetBlockSize_dvd (by omega)) hdvd
      -- the pushed buddy's own buddy is blockOff
      have hbud_eq : (blockOff + GetBlockSize c) ^^^ GetBlockSize c = blockOff := by
        have hdvd_x : GetBlockSize c ∣ (blockOff + GetBlockSize c) :=
          Nat.dvd_add hdvd_c dvd_rfl
        rcases buddy_cases_level c (blockOff + GetBlockSize c) hdvd_x with
          ⟨_, hdvd2⟩ | ⟨hx, _, _⟩
        · exfalso
          have hdd : GetBlockSize (c + 1) ∣ GetBlockSize c := by
            have := Nat.dvd_sub' hdvd2 hdvd
            simpa using this
          have hle := Nat.le_of_dvd (GetBlockSize_pos c) hdd
          have hlt : GetBlockSize c < GetBlockSize (c + 1) :=
            GetBlockSize_lt_iff.mpr (by omega)
          omega
        · rw [hx]
          omega
      have hnotin_c : (blockOff + GetBlockSize c) ^^^ GetBlockSize c ∉
          ls.getD c [] := by
        rw [hbud_eq]
        exact hnotin c (by omega)
      have hnb1 : NoBuddy (pushAt ls c (blockOff + GetBlockSize c)) :=
        NoBuddy_push hc_len hnb _ hnotin_c
      have hnotin1 : ∀ k, k < c →
          blockOff ∉ (pushAt ls c (blockOff + GetBlockSize c)).getD k [] := by
        intro k hk
        rw [pushAt, getD_set_other ls c k _ (by omega)]
        exact hnotin k (by omega)
      have hlen1 : (pushAt ls c (blockOff + GetBlockSize c)).length = MaxLevels := by
        simpa [pushAt] using hlen
      obtain ⟨hl, hp, hn⟩ := ih (pushAt ls c (blockOff + GetBlockSize c)) hlen1
        (by omega) level blockOff (by omega) hdvd_c hnotin1 hnb1
      refine ⟨hl, ?_, hn⟩
      have hpush := freeBlocks_pushAt ls c hc_len (blockOff + GetBlockSize c)
      refine hp.trans ?_
      have h2 := hpush.append_left (splitList blockOff level c)
      refine h2.trans ?_
      exact List.perm_middle
    · exact ⟨hlen, by simp, hnb⟩

theorem sumPairSizes_cons (x : Nat × Nat) (l : List (Nat × Nat)) :
    sumPairSizes (x :: l) = x.2 + sumPairSizes l := by
  simp [sumPairSizes]

theorem splitList_pairwise (blockOff level : Nat) :
    ∀ cl, List.Pairwise Disj (splitList blockOff level cl) := by
  intro cl
  induction cl with
  | zero => simp [splitList]
  | succ c ih =>
    simp only [splitList]
    split
    · refine List.Pairwise.cons ?_ ih
      intro x hx
      obtain ⟨k, hk1, hk2, rfl⟩ := (mem_splitList blockOff level c x).mp hx
      right
      show blockOff + GetBlockSize k + GetBlockSize k ≤ blockOff + GetBlockSize c
      have h1 : GetBlockSize k + GetBlockSize k = GetBlockSize (k + 1) := by
        rw [GetBlockSize_succ]; ring
      have h2 : GetBlockSize (k + 1) ≤ GetBlockSize c :=
        GetBlockSize_le_iff.mpr (by omega)
      omega
    · exact List.Pairwise.nil

/-- Characterization of a successful `BuddyAllocator::Allocate`: the frames
popped, split and recorded, in terms of the source quantities. -/
theorem BuddyAllocator.Allocate_ok_some {st st' : BuddyAllocator}
    {size alignment p : Nat}
    (h : st.Allocate size alignment = .ok (some p, st')) :
    ∃ bs lv cl blockOff restList,
      bs = (if NextPowerOfTwo (size + headerSize) < MinBlockSize then MinBlockSize
            else NextPowerOfTwo (size + headerSize)) ∧
      lv = GetLevel bs ∧
      cl = findNonEmptyLevel st.free_lists MaxLevels lv ∧
      cl < MaxLevels ∧
      st.free_lists.getD cl [] = blockOff :: restList ∧
      p = blockOff + headerSize ∧
      st' = ⟨st.capacity, st.used_memory + bs,
             splitLoop blockOff lv cl (st.free_lists.set cl restList),
             (blockOff, bs) :: st.headers⟩ := by
  unfold BuddyAllocator.Allocate at h
  rcases hal : decide (alignment ≤ 16) with _ | _
  · rw [hiveAssert_false hal] at h
    simp at h
  · rw [hiveAssert_true hal, ok_bind] at h
    simp only [pure_eq_ok] at h
    set bs := (if NextPowerOfTwo (size + headerSize) < MinBlockSize then MinBlockSize
               else NextPowerOfTwo (size + headerSize)) with hbs
    set lv := GetLevel bs with hlv
    set cl := findNonEmptyLevel st.free_lists MaxLevels lv with hcl
    split at h
    · simp at h
    · rename_i hcllt
      split at h
      · simp at h
      · rename_i blockOff restList hget
        simp only [Except.ok.injEq, Prod.mk.injEq, Option.some.injEq] at h
        exact ⟨bs, lv, cl, blockOff, restList, hbs, hlv, hcl, by omega, hget,
          h.1.symm, h.2.symm⟩

/-- A `none` result from `BuddyAllocator::Allocate` leaves the state
untouched. -/
theorem BuddyAllocator.Allocate_ok_none {st st' : BuddyAllocator}
    {size alignment : Nat}
    (h : st.Allocate size alignment = .ok (none, st')) : st' = st := by
  unfold BuddyAllocator.Allocate at h
  rcases hal : decide (alignment ≤ 16) with _ | _
  · rw [hiveAssert_false hal] at h
    simp at h
  · rw [hiveAssert_true hal, ok_bind] at h
    simp only [pure_eq_ok] at h
    set bs := (if NextPowerOfTwo (size + headerSize) < MinBlockSize then MinBlockSize
               else NextPowerOfTwo (size + headerSize)) with hbs
    split at h
    · simp only [Except.ok.injEq, Prod.mk.injEq] at h
      exact h.2.symm
    · split at h
      · simp at h
      · simp at h

theorem findNonEmptyLevel_ge (ls : List (List Nat)) :
    ∀ fuel start, start ≤ findNonEmptyLevel ls fuel start := by
  intro fuel
  induction fuel with
  | zero => intro start; simp [findNonEmptyLevel]
  | succ f ih =>
    intro start
    simp only [findNonEmptyLevel]
    split
    · exact le_trans (by omega) (ih (start + 1))
    · exact le_rfl

theorem findNonEmptyLevel_spec (ls : List (List Nat)) :
    ∀ fuel start, MaxLevels ≤ start + fuel →
      MaxLevels ≤ findNonEmptyLevel ls fuel start ∨
      ls.getD (findNonEmptyLevel ls fuel start) [] ≠ [] := by
  intro fuel
  induction fuel with
  | zero =>
    intro start h
    left
    simpa [findNonEmptyLevel] using by omega
  | succ f ih =>
    intro start h
    simp only [findNonEmptyLevel]
    split
    · exact ih (start + 1) (by omega)
    · rename_i hcond
      rw [Classical.not_and_iff_or_not_not] at hcond
      rcases hcond with hc | hc
      · left; omega
      · right; exact hc

theorem sumPairSizes_perm {l1 l2 : List (Nat × Nat)} (h : l1.Perm l2) :
    sumPairSizes l1 = sumPairSizes l2 :=
  (h.map Prod.snd).sum_eq

theorem sumPairSizes_append (l1 l2 : List (Nat × Nat)) :
    sumPairSizes (l1 ++ l2) = sumPairSizes l1 + sumPairSizes l2 := by
  simp [sumPairSizes]

theorem pairwise_disj_mem {L : List (Nat × Nat)} (h : List.Pairwise Disj L)
    {a b : Nat × Nat} (ha : a ∈ L) (hb : b ∈ L) (hab : a ≠ b) : Disj a b :=
  List.Pairwise.forall (fun {_ _} hd => hd.symm') h ha hb hab

/-- Replacing the head block of a pairwise-disjoint list by any
pairwise-disjoint family of sub-blocks of its interval keeps the whole
list pairwise disjoint. -/
theorem pairwise_disj_replace {B : Nat × Nat} {N rest : List (Nat × Nat)}
    (hd : List.Pairwise Disj (B :: rest))
    (hN : ∀ n ∈ N, B.1 ≤ n.1 ∧ n.1 + n.2 ≤ B.1 + B.2)
    (hNN : List.Pairwise Disj N) :
    List.Pairwise Disj (N ++ rest) := by
  rw [List.pairwise_append]
  rcases hd with _ | ⟨hB, hrest⟩
  refine ⟨hNN, hrest, ?_⟩
  intro n hn r hr
  obtain ⟨h1, h2⟩ := hN n hn
  have hBr := hB r hr
  unfold Disj at hBr ⊢
  omega

/-- All blocks of a buddy allocator: the free ones (per level) plus the
live (allocated) ones recorded by their headers. -/
def buddyBlocks (st : BuddyAllocator) : List (Nat × Nat) :=
  freeBlocks st.free_lists ++ st.headers

/-- Invariant of the buddy allocator under legal operation sequences:
the level lists and headers together tile the (power-of-two) arena with
aligned power-of-two blocks, no level holds a free buddy pair, and
`used_memory` accounts exactly for the live headers. -/
structure BInv (st : BuddyAllocator) : Prop where
  len : st.free_lists.length = MaxLevels
  cap : ∃ T, T < MaxLevels ∧ st.capacity = GetBlockSize T
  pow : ∀ b ∈ buddyBlocks st, ∃ j, b.2 = GetBlockSize j
  align : ∀ b ∈ buddyBlocks st, b.2 ∣ b.1
  inbound : ∀ b ∈ buddyBlocks st, b.1 + b.2 ≤ st.capacity
  disj : List.Pairwise Disj (buddyBlocks st)
  cover : sumPairSizes (buddyBlocks st) = st.capacity
  nobuddy : NoBuddy st.free_lists
  usedInv : st.used_memory = sumPairSizes st.headers

theorem freeBlocksAux_replicate (k n : Nat) :
    freeBlocksAux k (List.replicate n []) = [] := by
  induction n generalizing k with
  | zero => rfl
  | succ n ih => simp [List.replicate, freeBlocksAux, ih]

theorem NoBuddy_replicate (n : Nat) : NoBuddy (List.replicate n ([] : List Nat)) := by
  intro ℓ o ho
  rcases Nat.lt_or_ge ℓ n with h | h
  · rw [List.getD_eq_getElem _ _ (by simpa using h)] at ho
    simp at ho
  · rw [List.getD_eq_default _ _ (by simpa using h)] at ho
    simp at ho

theorem BInv_allocate {st st' : BuddyAllocator} {size alignment p : Nat}
    (hinv : BInv st)
    (h : st.Allocate size alignment = .ok (some p, st')) : BInv st' := by
  obtain ⟨bs, lv, cl, blockOff, restList, hbs, hlv, hcl, hcllt, hget, hp, hst'⟩ :=
    BuddyAllocator.Allocate_ok_some h
  subst hst'
  have hlv_le : lv ≤ cl := by rw [hcl]; exact findNonEmptyLevel_ge _ _ _
  have hlv_lt : lv < MaxLevels := by omega
  have hbs_pow : ∃ k, bs = 2 ^ k := by
    rw [hbs]
    split
    · exact ⟨6, rfl⟩
    · exact NextPowerOfTwo_pow _
  have hbs_64 : MinBlockSize ≤ bs := by
    rw [hbs]
    split
    · exact le_rfl
    · omega
  have hbs_eq : bs = GetBlockSize lv := by
    rw [hlv]
    exact GetLevel_pow_eq hbs_pow hbs_64 (hlv ▸ hlv_lt)
  have hBfree : ((blockOff, GetBlockSize cl) : Nat × Nat) ∈ freeBlocks st.free_lists := by
    refine (mem_freeBlocksAux st.free_lists 0 _).mpr ⟨cl, ?_, ?_, ?_⟩
    · rw [hinv.len]; exact hcllt
    · rw [hget]; exact List.mem_cons_self _ _
    · simp
  have hBmem : ((blockOff, GetBlockSize cl) : Nat × Nat) ∈ buddyBlocks st :=
    List.mem_append_left _ hBfree
  have halign : GetBlockSize cl ∣ blockOff := hinv.align _ hBmem
  have hinb : blockOff + GetBlockSize cl ≤ st.capacity := hinv.inbound _ hBmem
  have hnotin : ∀ k, k < cl →
      blockOff ∉ (st.free_lists.set cl restList).getD k [] := by
    intro k hk hmem
    rw [getD_set_other st.free_lists cl k restList (by omega)] at hmem
    have hBk : ((blockOff, GetBlockSize k) : Nat × Nat) ∈ buddyBlocks st :=
      List.mem_append_left _ ((mem_freeBlocksAux st.free_lists 0 _).mpr
        ⟨k, by rw [hinv.len]; omega, hmem, by simp⟩)
    have hne : ((blockOff, GetBlockSize k) : Nat × Nat) ≠ (blockOff, GetBlockSize cl) := by
      intro he
      have h2 := congrArg Prod.snd he
      simp only at h2
      exact absurd (GetBlockSize_inj h2) (by omega)
    have hd := pairwise_disj_mem hinv.disj hBk hBmem hne
    have hd' : blockOff + GetBlockSize k ≤ blockOff ∨
        blockOff + GetBlockSize cl ≤ blockOff := hd
    have p1 := GetBlockSize_pos k
    have p2 := GetBlockSize_pos cl
    omega
  have hnb1 : NoBuddy (st.free_lists.set cl restList) :=
    NoBuddy_shrink hinv.nobuddy cl restList
      (fun o ho => by rw [hget]; exact List.mem_cons_of_mem _ ho)
  have hlen1 : (st.free_lists.set cl restList).length = MaxLevels := by
    simpa using hinv.len
  obtain ⟨hlen2, hperm2, hnb2⟩ :=
    splitLoop_props cl (st.free_lists.set cl restList) hlen1 (le_of_lt hcllt)
      lv blockOff hlv_le halign hnotin hnb1
  have h_old : (freeBlocks st.free_lists).Perm
      ((blockOff, GetBlockSize cl) ::
        freeBlocks (st.free_lists.set cl restList)) := by
    have := freeBlocks_level_perm st.free_lists 0 cl
      (by rw [hinv.len]; exact hcllt) blockOff restList
      (by rw [hget])
    simpa [freeBlocks] using this
  have h_old2 : (buddyBlocks st).Perm
      ((blockOff, GetBlockSize cl) ::
        (freeBlocks (st.free_lists.set cl restList) ++ st.headers)) :=
    h_old.append_right st.headers
  have htot : (freeBlocks (splitLoop blockOff lv cl (st.free_lists.set cl restList)) ++
      ((blockOff, bs) :: st.headers)).Perm
      (((blockOff, bs) :: splitList blockOff lv cl) ++
        (freeBlocks (st.free_lists.set cl restList) ++ st.headers)) := by
    refine (hperm2.append_right _).trans ?_
    refine (List.perm_middle).trans ?_
    rw [List.append_assoc]
    exact List.Perm.refl _
  have hmemR : ∀ b ∈ freeBlocks (st.free_lists.set cl restList) ++ st.headers,
      b ∈ buddyBlocks st :=
    fun b hb => h_old2.symm.subset (List.mem_cons_of_mem _ hb)
  have hNmem : ∀ n ∈ (blockOff, bs) :: splitList blockOff lv cl,
      ∃ j, lv ≤ j ∧ j ≤ cl ∧ n.2 = GetBlockSize j ∧
        GetBlockSize j ∣ n.1 ∧ blockOff ≤ n.1 ∧
        n.1 + n.2 ≤ blockOff + GetBlockSize cl := by
    intro n hn
    rcases List.mem_cons.mp hn with rfl | hn'
    · refine ⟨lv, le_rfl, hlv_le, hbs_eq, ?_, le_rfl, ?_⟩
      · show GetBlockSize lv ∣ blockOff
        exact dvd_trans (GetBlockSize_dvd hlv_le) halign
      · show blockOff + bs ≤ blockOff + GetBlockSize cl
        rw [hbs_eq]
        have := GetBlockSize_le_iff.mpr hlv_le
        omega
    · obtain ⟨k, hk1, hk2, rfl⟩ := (mem_splitList blockOff lv cl n).mp hn'
      refine ⟨k, hk1, by omega, rfl, ?_, by omega, ?_⟩
      · show GetBlockSize k ∣ blockOff + GetBlockSize k
        exact Nat.dvd_add (dvd_trans (GetBlockSize_dvd (by omega)) halign) dvd_rfl
      · show blockOff + GetBlockSize k + GetBlockSize k ≤ blockOff + GetBlockSize cl
        have h1 : GetBlockSize k + GetBlockSize k = GetBlockSize (k + 1) := by
          rw [GetBlockSize_succ]; ring
        have h2 : GetBlockSize (k + 1) ≤ GetBlockSize cl :=
          GetBlockSize_le_iff.mpr (by omega)
        omega
  refine ⟨hlen2, hinv.cap, ?_, ?_, ?_, ?_, ?_, hnb2, ?_⟩
  · intro b hb
    have hb' := htot.subset hb
    rcases List.mem_append.mp hb' with hN | hR
    · obtain ⟨j, _, _, hj, _⟩ := hNmem b hN
      exact ⟨j, hj⟩
    · exact hinv.pow b (hmemR b hR)
  · intro b hb
    have hb' := htot.subset hb
    rcases List.mem_append.mp hb' with hN | hR
    · obtain ⟨j, _, _, hj, hdvd, _⟩ := hNmem b hN
      rw [hj]
      exact hdvd
    · exact hinv.align b (hmemR b hR)
  · intro b hb
    have hb' := htot.subset hb
    rcases List.mem_append.mp hb' with hN | hR
    · obtain ⟨j, _, _, _, _, _, hhi⟩ := hNmem b hN
      show b.1 + b.2 ≤ st.capacity
      omega
    · exact hinv.inbound b (hmemR b hR)
  · show List.Pairwise Disj _
    refine (htot.pairwise_iff (fun {_ _} hd => hd.symm')).mpr ?_
    refine pairwise_disj_replace (B := (blockOff, GetBlockSize cl))
      ((h_old2.pairwise_iff (fun {_ _} hd => hd.symm')).mp hinv.disj) ?_ ?_
    · intro n hn
      obtain ⟨j, _, _, _, _, hlo, hhi⟩ := hNmem n hn
      exact ⟨hlo, hhi⟩
    · refine List.Pairwise.cons ?_ (splitList_pairwise blockOff lv cl)
      intro n hn
      obtain ⟨k, hk1, hk2, rfl⟩ := (mem_splitList blockOff lv cl n).mp hn
      left
      show blockOff + bs ≤ blockOff + GetBlockSize k
      rw [hbs_eq]
      have := GetBlockSize_le_iff.mpr hk1
      omega
  · show sumPairSizes _ = _
    have h1 := sumPairSizes_perm htot
    have h3 : sumPairSizes ((blockOff, bs) :: splitList blockOff lv cl) =
        GetBlockSize cl := by
      rw [sumPairSizes_cons]
      show bs + _ = _
      rw [hbs_eq]
      exact splitList_sum blockOff cl lv hlv_le
    have hcv := sumPairSizes_perm h_old2
    rw [hinv.cover] at hcv
    rw [sumPairSizes_cons] at hcv
    show sumPairSizes (freeBlocks (splitLoop blockOff lv cl
        (st.free_lists.set cl restList)) ++ ((blockOff, bs) :: st.headers)) =
      st.capacity
    rw [h1, sumPairSizes_append, h3]
    exact hcv.symm
  · show st.used_memory + bs = sumPairSizes ((blockOff, bs) :: st.headers)
    rw [sumPairSizes_cons, ← hinv.usedInv]
    show st.used_memory + bs = bs + st.used_memory
    omega

theorem CoalesceAndInsert_stop (C fuel : Nat) (ls : List (List Nat))
    (offset blockSize level : Nat) (h1 : ¬ level < MaxLevels - 1) :
    CoalesceAndInsert C (fuel + 1) ls offset blockSize level =
      pushAt ls level offset := by
  simp [CoalesceAndInsert, h1]

theorem CoalesceAndInsert_out (C fuel : Nat) (ls : List (List Nat))
    (offset blockSize level : Nat) (h1 : level < MaxLevels - 1)
    (h2 : offset ^^^ blockSize ≥ C) :
    CoalesceAndInsert C (fuel + 1) ls offset blockSize level =
      pushAt ls level offset := by
  simp [CoalesceAndInsert, h1, h2]

theorem CoalesceAndInsert_nofree (C fuel : Nat) (ls : List (List Nat))
    (offset blockSize level : Nat) (h1 : level < MaxLevels - 1)
    (h2 : ¬ offset ^^^ blockSize ≥ C)
    (h3 : (offset ^^^ blockSize) ∉ ls.getD level []) :
    CoalesceAndInsert C (fuel + 1) ls offset blockSize level =
      pushAt ls level offset := by
  have h3' : (offset ^^^ blockSize) ∉ ls[level]?.getD [] := by simpa using h3
  simp [CoalesceAndInsert, h1, h2, h3']

/-- The merging iteration of `CoalesceAndInsert` (buddy_allocator.h:347-379):
whenever `level` can still be promoted, the buddy offset `offset XOR
block_size` is inside the arena, and that buddy is on this level's free
list, the buddy is unlinked and the merged (lower-offset, doubled-size)
block is processed one level up. -/
theorem CoalesceAndInsert_merge (C fuel : Nat) (ls : List (List Nat))
    (offset blockSize level : Nat) (h1 : level < MaxLevels - 1)
    (h2 : ¬ offset ^^^ blockSize ≥ C)
    (h3 : (offset ^^^ blockSize) ∈ ls.getD level []) :
    CoalesceAndInsert C (fuel + 1) ls offset blockSize level =
      CoalesceAndInsert C fuel
        (ls.set level ((ls.getD level []).erase (offset ^^^ blockSize)))
        (min offset (offset ^^^ blockSize)) (2 * blockSize) (level + 1) := by
  have h3' : (offset ^^^ blockSize) ∈ ls[level]?.getD [] := by simpa using h3
  simp [CoalesceAndInsert, h1, h2, h3']

theorem coalesce_push_case (C : Nat) (ls : List (List Nat))
    (offset level : Nat) (H : List (Nat × Nat))
    (hlen : ls.length = MaxLevels) (hlev : level < MaxLevels)
    (hdvd : GetBlockSize level ∣ offset)
    (hinb : offset + GetBlockSize level ≤ C)
    (hnb : NoBuddy ls)
    (hpw : List.Pairwise Disj ((offset, GetBlockSize level) :: (freeBlocks ls ++ H)))
    (hbud : (offset ^^^ GetBlockSize level) ∉ ls.getD level []) :
    ∃ off2 lv2 keep,
      level ≤ lv2 ∧ lv2 < MaxLevels ∧
      GetBlockSize lv2 ∣ off2 ∧ off2 + GetBlockSize lv2 ≤ C ∧
      (∀ b ∈ keep, b ∈ freeBlocks ls) ∧
      List.Pairwise Disj ((off2, GetBlockSize lv2) :: (keep ++ H)) ∧
      GetBlockSize lv2 + sumPairSizes keep =
        GetBlockSize level + sumPairSizes (freeBlocks ls) ∧
      (freeBlocks (pushAt ls level offset)).Perm
        ((off2, GetBlockSize lv2) :: keep) ∧
      (pushAt ls level offset).length = MaxLevels ∧
      NoBuddy (pushAt ls level offset) := by
  have hlevlen : level < ls.length := by rw [hlen]; exact hlev
  refine ⟨offset, level, freeBlocks ls, le_rfl, hlev, hdvd, hinb,
    fun b hb => hb, hpw, rfl, ?_, ?_, ?_⟩
  · exact freeBlocks_pushAt ls level hlevlen offset
  · simp [pushAt, hlen]
  · exact NoBuddy_push hlevlen hnb offset hbud

theorem coalesce_props (C T : Nat) (hC : C = GetBlockSize T) (hT : T < MaxLevels) :
    ∀ (fuel : Nat) (ls : List (List Nat)) (offset level : Nat)
      (H : List (Nat × Nat)),
      ls.length = MaxLevels →
      level < MaxLevels →
      MaxLevels ≤ level + fuel →
      GetBlockSize level ∣ offset →
      offset + GetBlockSize level ≤ C →
      NoBuddy ls →
      List.Pairwise Disj ((offset, GetBlockSize level) :: (freeBlocks ls ++ H)) →
      (∀ b ∈ freeBlocks ls ++ H, b.1 + b.2 ≤ C) →
      (∀ b ∈ freeBlocks ls ++ H, 0 < b.2) →
      ∃ off2 lv2 keep,
        level ≤ lv2 ∧ lv2 < MaxLevels ∧
        GetBlockSize lv2 ∣ off2 ∧ off2 + GetBlockSize lv2 ≤ C ∧
        (∀ b ∈ keep, b ∈ freeBlocks ls) ∧
        List.Pairwise Disj ((off2, GetBlockSize lv2) :: (keep ++ H)) ∧
        GetBlockSize lv2 + sumPairSizes keep =
          GetBlockSize level + sumPairSizes (freeBlocks ls) ∧
        (freeBlocks (CoalesceAndInsert C fuel ls offset (GetBlockSize level) level)).Perm
          ((off2, GetBlockSize lv2) :: keep) ∧
        (CoalesceAndInsert C fuel ls offset (GetBlockSize level) level).length =
          MaxLevels ∧
        NoBuddy (CoalesceAndInsert C fuel ls offset (GetBlockSize level) level) := by
  intro fuel
  induction fuel with
  | zero =>
    intro ls offset level H hlen hlev hfuel hdvd hinb hnb hpw hbound hpos
    omega
  | succ f ih =>
    intro ls offset level H hlen hlev hfuel hdvd hinb hnb hpw hbound hpos
    have hlevlen : level < ls.length := by rw [hlen]; exact hlev
    have hspos := GetBlockSize_pos level
    by_cases h1 : level < MaxLevels - 1
    · by_cases h2 : offset ^^^ GetBlockSize level ≥ C
      · rw [CoalesceAndInsert_out C f ls offset (GetBlockSize level) level h1 h2]
        refine coalesce_push_case C ls offset level H hlen hlev hdvd hinb hnb hpw ?_
        intro hmem
        have hQ : ((offset ^^^ GetBlockSize level, GetBlockSize level) : Nat × Nat) ∈
            freeBlocks ls :=
          (mem_freeBlocksAux ls 0 _).mpr ⟨level, hlevlen, hmem, by simp⟩
        have := hbound _ (List.mem_append_left _ hQ)
        simp only at this
        omega
      · by_cases h3 : (offset ^^^ GetBlockSize level) ∈ ls.getD level []
        · -- the merging case
          rw [CoalesceAndInsert_merge C f ls offset (GetBlockSize level) level h1 h2 h3]
          rw [← GetBlockSize_succ level]
          have hQfree : ((offset ^^^ GetBlockSize level, GetBlockSize level) : Nat × Nat)
              ∈ freeBlocks ls :=
            (mem_freeBlocksAux ls 0 _).mpr ⟨level, hlevlen, h3, by simp⟩
          have hQbound : (offset ^^^ GetBlockSize level) + GetBlockSize level ≤ C :=
            hbound _ (List.mem_append_left _ hQfree)
          have hrel : (offset ^^^ GetBlockSize level) = offset + GetBlockSize level ∨
              offset = (offset ^^^ GetBlockSize level) + GetBlockSize level := by
            rcases buddy_cases_level level offset hdvd with ⟨hx, _⟩ | ⟨hx, hle, _⟩
            · exact Or.inl hx
            · right; omega
          have hdvdm : GetBlockSize (level + 1) ∣
              min offset (offset ^^^ GetBlockSize level) := by
            rcases buddy_cases_level level offset hdvd with ⟨hx, hdvd2⟩ | ⟨hx, hle, hdvd2⟩
            · rw [hx, Nat.min_eq_left (by omega)]
              exact hdvd2
            · rw [hx, Nat.min_eq_right (by omega)]
              exact hdvd2
          have hsucc := GetBlockSize_succ level
          have hminb : min offset (offset ^^^ GetBlockSize level) +
              GetBlockSize (level + 1) ≤ C := by omega
          have hQperm : (freeBlocks ls).Perm
              ((offset ^^^ GetBlockSize level, GetBlockSize level) ::
                freeBlocks (ls.set level
                  ((ls.getD level []).erase (offset ^^^ GetBlockSize level)))) := by
            have := freeBlocks_level_perm ls 0 level hlevlen
              (offset ^^^ GetBlockSize level)
              ((ls.getD level []).erase (offset ^^^ GetBlockSize level))
              (List.perm_cons_erase h3)
            simpa [freeBlocks] using this
          have hsub : ∀ b ∈ freeBlocks (ls.set level
              ((ls.getD level []).erase (offset ^^^ GetBlockSize level))) ++ H,
              b ∈ freeBlocks ls ++ H := by
            intro b hb
            rcases List.mem_append.mp hb with hb' | hb'
            · exact List.mem_append_left _
                (hQperm.symm.subset (List.mem_cons_of_mem _ hb'))
            · exact List.mem_append_right _ hb'
          have hpw1 : List.Pairwise Disj ((offset, GetBlockSize level) ::
              ((offset ^^^ GetBlockSize level, GetBlockSize level) ::
                (freeBlocks (ls.set level
                  ((ls.getD level []).erase (offset ^^^ GetBlockSize level))) ++ H))) := by
            refine (List.Perm.pairwise_iff (fun {_ _} hd => hd.symm')
              ((hQperm.append_right H).cons _)).mp hpw
          rcases hpw1 with _ | ⟨hdP, hpw2⟩
          rcases hpw2 with _ | ⟨hdQ, htail⟩
          have hpw' : List.Pairwise Disj
              ((min offset (offset ^^^ GetBlockSize level), GetBlockSize (level + 1)) ::
                (freeBlocks (ls.set level
                  ((ls.getD level []).erase (offset ^^^ GetBlockSize level))) ++ H)) := by
            refine List.Pairwise.cons ?_ htail
            intro r hr
            have d1 : offset + GetBlockSize level ≤ r.1 ∨ r.1 + r.2 ≤ offset :=
              hdP r (List.mem_cons_of_mem _ hr)
            have d2 : (offset ^^^ GetBlockSize level) + GetBlockSize level ≤ r.1 ∨
                r.1 + r.2 ≤ (offset ^^^ GetBlockSize level) := hdQ r hr
            have hrpos : 0 < r.2 := hpos r (hsub r hr)
            show min offset (offset ^^^ GetBlockSize level) + GetBlockSize (level + 1) ≤
                r.1 ∨ r.1 + r.2 ≤ min offset (offset ^^^ GetBlockSize level)
            omega
          obtain ⟨off2, lv2, keep, hlv2a, hlv2b, hdvd2', hinb2, hkeep, hpwf, hsum2,
              hperm2, hlen2, hnb2⟩ :=
            ih (ls.set level ((ls.getD level []).erase (offset ^^^ GetBlockSize level)))
              (min offset (offset ^^^ GetBlockSize level)) (level + 1) H
              (by simpa using hlen)
              (by omega)
              (by omega)
              hdvdm hminb
              (NoBuddy_shrink hnb level _ (fun o ho => List.mem_of_mem_erase ho))
              hpw'
              (fun b hb => hbound b (hsub b hb))
              (fun b hb => hpos b (hsub b hb))
          have hsumQ : sumPairSizes (freeBlocks ls) =
              GetBlockSize level + sumPairSizes (freeBlocks (ls.set level
                ((ls.getD level []).erase (offset ^^^ GetBlockSize level)))) := by
            have h := sumPairSizes_perm hQperm
            simpa [sumPairSizes_cons] using h
          refine ⟨off2, lv2, keep, by omega, hlv2b, hdvd2', hinb2, ?_, hpwf, ?_,
            hperm2, hlen2, hnb2⟩
          · intro b hb
            exact hQperm.symm.subset (List.mem_cons_of_mem _ (hkeep b hb))
          · omega
        · rw [CoalesceAndInsert_nofree C f ls offset (GetBlockSize level) level h1 h2 h3]
          exact coalesce_push_case C ls offset level H hlen hlev hdvd hinb hnb hpw h3
    · rw [CoalesceAndInsert_stop C f ls offset (GetBlockSize level) level h1]
      refine coalesce_push_case C ls offset level H hlen hlev hdvd hinb hnb hpw ?_
      intro hmem
      have hl19 : level = MaxLevels - 1 := by omega
      have hTle : T ≤ level := by
        by_contra hc
        push_neg at hc
        have := GetBlockSize_lt_iff.mpr hc
        omega
      have hCle : C ≤ GetBlockSize level := by
        rw [hC]
        exact GetBlockSize_le_iff.mpr hTle
      have hoff0 : offset = 0 := by omega
      have hQ : ((offset ^^^ GetBlockSize level, GetBlockSize level) : Nat × Nat) ∈
          freeBlocks ls :=
        (mem_freeBlocksAux ls 0 _).mpr ⟨level, hlevlen, hmem, by simp⟩
      have hQb := hbound _ (List.mem_append_left _ hQ)
      simp only at hQb
      rw [hoff0, Nat.zero_xor] at hQb
      omega

theorem lookupHeader_perm :
    ∀ (hs : List (Nat × Nat)) (off s : Nat),
      BuddyAllocator.lookupHeader hs off = some s →
      hs.Perm ((off, s) :: BuddyAllocator.removeHeader hs off) := by
  intro hs
  induction hs with
  | nil =>
    intro off s h
    simp [BuddyAllocator.lookupHeader] at h
  | cons x rest ih =>
    intro off s h
    obtain ⟨o, s'⟩ := x
    simp only [BuddyAllocator.lookupHeader] at h
    by_cases ho : o = off
    · rw [if_pos ho] at h
      injection h with h'
      subst h'
      subst ho
      have hrm : BuddyAllocator.removeHeader ((o, s') :: rest) o = rest := by
        simp [BuddyAllocator.removeHeader]
      rw [hrm]
    · rw [if_neg ho] at h
      have hrec := ih off s h
      have hrm : BuddyAllocator.removeHeader ((o, s') :: rest) off =
          (o, s') :: BuddyAllocator.removeHeader rest off := by
        simp [BuddyAllocator.removeHeader, ho]
      rw [hrm]
      exact (hrec.cons (o, s')).trans (List.Perm.swap _ _ _)

theorem BInv_dealloc {st st' : BuddyAllocator} {p : Nat} (hinv : BInv st)
    (h : st.Deallocate (some p) = .ok st') : BInv st' := by
  simp only [BuddyAllocator.Deallocate] at h
  rcases hlk : BuddyAllocator.lookupHeader st.headers (p - headerSize) with _ | bs
  · rw [hlk] at h
    simp at h
  · rw [hlk] at h
    simp only [Except.ok.injEq] at h
    subst h
    obtain ⟨T, hT, hcap⟩ := hinv.cap
    have hhperm := lookupHeader_perm st.headers (p - headerSize) bs hlk
    have hmem : ((p - headerSize, bs) : Nat × Nat) ∈ st.headers :=
      hhperm.symm.subset (List.mem_cons_self _ _)
    have hbb : ((p - headerSize, bs) : Nat × Nat) ∈ buddyBlocks st :=
      List.mem_append_right _ hmem
    obtain ⟨j, hj⟩ := hinv.pow _ hbb
    simp only at hj
    subst hj
    have hinbj : (p - headerSize) + GetBlockSize j ≤ st.capacity := hinv.inbound _ hbb
    have hjT : j ≤ T := by
      rw [hcap] at hinbj
      have h1 : GetBlockSize j ≤ GetBlockSize T := by omega
      exact GetBlockSize_le_iff.mp h1
    have hjmax : j < MaxLevels := by omega
    have hlev : GetLevel (GetBlockSize j) = j := GetLevel_blockSize (by omega)
    rw [hlev]
    have halignj : GetBlockSize j ∣ (p - headerSize) := hinv.align _ hbb
    have hbbperm : (buddyBlocks st).Perm
        ((p - headerSize, GetBlockSize j) ::
          (freeBlocks st.free_lists ++
            BuddyAllocator.removeHeader st.headers (p - headerSize))) :=
      (hhperm.append_left (freeBlocks st.free_lists)).trans List.perm_middle
    have hpw : List.Pairwise Disj
        ((p - headerSize, GetBlockSize j) ::
          (freeBlocks st.free_lists ++
            BuddyAllocator.removeHeader st.headers (p - headerSize))) :=
      (List.Perm.pairwise_iff (fun {_ _} hd => hd.symm') hbbperm).mp hinv.disj
    have hsubBB : ∀ b ∈ freeBlocks st.free_lists ++
        BuddyAllocator.removeHeader st.headers (p - headerSize),
        b ∈ buddyBlocks st :=
      fun b hb => hbbperm.symm.subset (List.mem_cons_of_mem _ hb)
    obtain ⟨off2, lv2, keep, hlv2a, hlv2b, hdvd2, hinb2, hkeep, hpwf, hsum2,
        hperm2, hlen2, hnb2⟩ :=
      coalesce_props st.capacity T hcap hT MaxLevels st.free_lists
        (p - headerSize) j
        (BuddyAllocator.removeHeader st.headers (p - headerSize))
        hinv.len hjmax (by omega) halignj hinbj hinv.nobuddy hpw
        (fun b hb => hinv.inbound b (hsubBB b hb))
        (fun b hb => by
          obtain ⟨m, hm⟩ := hinv.pow b (hsubBB b hb)
          rw [hm]
          exact GetBlockSize_pos m)
    have hmem2 : ∀ b ∈ freeBlocks (CoalesceAndInsert st.capacity MaxLevels
        st.free_lists (p - headerSize) (GetBlockSize j) j) ++
        BuddyAllocator.removeHeader st.headers (p - headerSize),
        b = (off2, GetBlockSize lv2) ∨ b ∈ buddyBlocks st := by
      intro b hb
      rcases List.mem_append.mp hb with hb' | hb'
      · rcases List.mem_cons.mp (hperm2.subset hb') with rfl | hk
        · exact Or.inl rfl
        · exact Or.inr (List.mem_append_left _ (hkeep b hk))
      · exact Or.inr (List.mem_append_right _
          (hhperm.symm.subset (List.mem_cons_of_mem _ hb')))
    have hsumh : sumPairSizes st.headers = GetBlockSize j +
        sumPairSizes (BuddyAllocator.removeHeader st.headers (p - headerSize)) := by
      have h1 := sumPairSizes_perm hhperm
      simpa [sumPairSizes_cons] using h1
    refine ⟨hlen2, ⟨T, hT, hcap⟩, ?_, ?_, ?_, ?_, ?_, hnb2, ?_⟩
    · intro b hb
      rcases hmem2 b hb with rfl | hb'
      · exact ⟨lv2, rfl⟩
      · exact hinv.pow b hb'
    · intro b hb
      rcases hmem2 b hb with rfl | hb'
      · exact hdvd2
      · exact hinv.align b hb'
    · intro b hb
      rcases hmem2 b hb with rfl | hb'
      · exact hinb2
      · exact hinv.inbound b hb'
    · show List.Pairwise Disj _
      exact (List.Perm.pairwise_iff (fun {_ _} hd => hd.symm')
        (hperm2.append_right _)).mpr hpwf
    · show sumPairSizes (freeBlocks (CoalesceAndInsert st.capacity MaxLevels
          st.free_lists (p - headerSize) (GetBlockSize j) j) ++
          BuddyAllocator.removeHeader st.headers (p - headerSize)) = st.capacity
      rw [sumPairSizes_append]
      have h1 := sumPairSizes_perm hperm2
      rw [sumPairSizes_cons] at h1
      have hcov := hinv.cover
      unfold buddyBlocks at hcov
      rw [sumPairSizes_append] at hcov
      simp only at h1 hsum2
      omega
    · show st.used_memory - GetBlockSize j =
        sumPairSizes (BuddyAllocator.removeHeader st.headers (p - headerSize))
      have h1 := hinv.usedInv
      omega

/-- A client-visible operation on the buddy allocator. -/
inductive BuddyOp where
  | alloc : Nat → Nat → BuddyOp
  | free : Option Nat → BuddyOp
  deriving Repr, DecidableEq

/-- One operation against the allocator (the returned pointer of an
allocation is dropped; the state transition is what matters here). -/
def buddyStep (st : BuddyAllocator) : BuddyOp → Except String BuddyAllocator
  | .alloc size alignment => do
    let r ← st.Allocate size alignment
    pure r.2
  | .free p => st.Deallocate p

/-- Run a sequence of operations from a state. -/
def runBuddy : BuddyAllocator → List BuddyOp → Except String BuddyAllocator
  | st, [] => .ok st
  | st, op :: ops => do
    let st1 ← buddyStep st op
    runBuddy st1 ops

theorem Allocate_capacity {st st' : BuddyAllocator} {r : Option Nat}
    {size alignment : Nat}
    (h : st.Allocate size alignment = .ok (r, st')) :
    st'.capacity = st.capacity := by
  rcases r with _ | p
  · rw [BuddyAllocator.Allocate_ok_none h]
  · obtain ⟨bs, lv, cl, bo, rl, _, _, _, _, _, _, hst'⟩ :=
      BuddyAllocator.Allocate_ok_some h
    rw [hst']

theorem Deallocate_capacity {st st' : BuddyAllocator} {ptr : Option Nat}
    (h : st.Deallocate ptr = .ok st') : st'.capacity = st.capacity := by
  rcases ptr with _ | p
  · simp only [BuddyAllocator.Deallocate, Except.ok.injEq] at h
    rw [← h]
  · simp only [BuddyAllocator.Deallocate] at h
    rcases hlk : BuddyAllocator.lookupHeader st.headers (p - headerSize) with _ | bs
    · rw [hlk] at h
      simp at h
    · rw [hlk] at h
      simp only [Except.ok.injEq] at h
      rw [← h]

theorem buddyStep_capacity {st st' : BuddyAllocator} {op : BuddyOp}
    (h : buddyStep st op = .ok st') : st'.capacity = st.capacity := by
  cases op with
  | alloc size alignment =>
    simp only [buddyStep] at h
    rcases ha : st.Allocate size alignment with e | ⟨r, st2⟩
    · rw [ha] at h
      simp at h
    · rw [ha] at h
      simp only [ok_bind, pure_eq_ok, Except.ok.injEq] at h
      subst h
      exact Allocate_capacity ha
  | free p => exact Deallocate_capacity h

theorem runBuddy_capacity : ∀ (ops : List BuddyOp) (st st' : BuddyAllocator),
    runBuddy st ops = .ok st' → st'.capacity = st.capacity := by
  intro ops
  induction ops with
  | nil =>
    intro st st' h
    simp only [runBuddy, Except.ok.injEq] at h
    rw [← h]
  | cons op ops ih =>
    intro st st' h
    simp only [runBuddy] at h
    rcases hs : buddyStep st op with e | st1
    · rw [hs] at h
      simp at h
    · rw [hs, ok_bind] at h
      rw [ih st1 st' h, buddyStep_capacity hs]

theorem dvd_lt_add_le {d a b : Nat} (ha : d ∣ a) (hb : d ∣ b) (h : a < b) :
    a + d ≤ b := by
  have h1 : d ∣ b - a := Nat.dvd_sub' hb ha
  have h2 : d ≤ b - a := Nat.le_of_dvd (by omega) h1
  omega

/-- The set of addresses covered by a list of (offset, size) blocks. -/
def unionIco : List (Nat × Nat) → Finset Nat
  | [] => ∅
  | b :: rest => Finset.Ico b.1 (b.1 + b.2) ∪ unionIco rest

theorem mem_unionIco :
    ∀ (L : List (Nat × Nat)) (x : Nat),
      x ∈ unionIco L ↔ ∃ b ∈ L, b.1 ≤ x ∧ x < b.1 + b.2 := by
  intro L
  induction L with
  | nil => intro x; simp [unionIco]
  | cons b rest ih =>
    intro x
    simp [unionIco, Finset.mem_union, Finset.mem_Ico, ih]

theorem unionIco_card :
    ∀ (L : List (Nat × Nat)), List.Pairwise Disj L →
      (unionIco L).card = sumPairSizes L := by
  intro L
  induction L with
  | nil => intro _; simp [unionIco, sumPairSizes]
  | cons b rest ih =>
    intro hpw
    rcases hpw with _ | ⟨hd, htl⟩
    have hdisj : Disjoint (Finset.Ico b.1 (b.1 + b.2)) (unionIco rest) := by
      rw [Finset.disjoint_left]
      intro x hx hx2
      obtain ⟨c, hc, h1, h2⟩ := (mem_unionIco rest x).mp hx2
      have h3 : b.1 + b.2 ≤ c.1 ∨ c.1 + c.2 ≤ b.1 := hd c hc
      rw [Finset.mem_Ico] at hx
      omega
    rw [unionIco, Finset.card_union_of_disjoint hdisj, Nat.card_Ico,
      ih htl, sumPairSizes_cons]
    omega

theorem unionIco_subset {L : List (Nat × Nat)} {C : Nat}
    (h : ∀ b ∈ L, b.1 + b.2 ≤ C) : unionIco L ⊆ Finset.Ico 0 C := by
  intro x hx
  obtain ⟨b, hb, h1, h2⟩ := (mem_unionIco L x).mp hx
  have := h b hb
  rw [Finset.mem_Ico]
  omega

/-- A pairwise-disjoint in-bounds family whose sizes sum to the full
capacity covers every address below the capacity. -/
theorem cover_point {L : List (Nat × Nat)} {C : Nat}
    (hpw : List.Pairwise Disj L) (hin : ∀ b ∈ L, b.1 + b.2 ≤ C)
    (hsum : sumPairSizes L = C) (x : Nat) (hx : x < C) :
    ∃ b ∈ L, b.1 ≤ x ∧ x < b.1 + b.2 := by
  have h1 : unionIco L = Finset.Ico 0 C := by
    apply Finset.eq_of_subset_of_card_le (unionIco_subset hin)
    rw [unionIco_card L hpw, hsum, Nat.card_Ico]
    omega
  have h2 : x ∈ unionIco L := by
    rw [h1, Finset.mem_Ico]
    omega
  exact (mem_unionIco L x).mp h2

/-- Once every allocation has been freed, the invariant forces the free
lists back to the initial configuration: a single block at offset 0 on the
top level, every other level empty.  The heart is a dyadic-partition
argument: a minimal-level block whose level is below the top would have
its buddy region covered either by an equal-size block (contradicting the
per-level no-buddy-pair invariant) or by a strictly larger aligned block
that would also overlap the block itself (contradicting disjointness). -/
theorem BInv_final {st : BuddyAllocator} {T : Nat} (hinv : BInv st)
    (hhd : st.headers = []) (hT : T < MaxLevels)
    (hcap : st.capacity = GetBlockSize T) :
    st.free_lists = (List.replicate MaxLevels []).set T [0] := by
  classical
  have hbbL : buddyBlocks st = freeBlocks st.free_lists := by
    unfold buddyBlocks
    rw [hhd, List.append_nil]
  have hpowL : ∀ b ∈ freeBlocks st.free_lists, ∃ j, b.2 = GetBlockSize j :=
    fun b hb => hinv.pow b (by rw [hbbL]; exact hb)
  have halL : ∀ b ∈ freeBlocks st.free_lists, b.2 ∣ b.1 :=
    fun b hb => hinv.align b (by rw [hbbL]; exact hb)
  have hinL : ∀ b ∈ freeBlocks st.free_lists, b.1 + b.2 ≤ GetBlockSize T := by
    intro b hb
    have := hinv.inbound b (by rw [hbbL]; exact hb)
    rw [hcap] at this
    exact this
  have hdisjL : List.Pairwise Disj (freeBlocks st.free_lists) := by
    have := hinv.disj
    rw [hbbL] at this
    exact this
  have hsumL : sumPairSizes (freeBlocks st.free_lists) = GetBlockSize T := by
    have := hinv.cover
    rw [hbbL] at this
    rw [this, hcap]
  have hTpos := GetBlockSize_pos T
  have hne : freeBlocks st.free_lists ≠ [] := by
    intro h0
    rw [h0] at hsumL
    simp [sumPairSizes] at hsumL
    omega
  obtain ⟨b0, hb0L⟩ := List.exists_mem_of_ne_nil _ hne
  have hPex : ∃ k, ∃ b ∈ freeBlocks st.free_lists, b.2 = GetBlockSize k := by
    obtain ⟨j, hj⟩ := hpowL b0 hb0L
    exact ⟨j, b0, hb0L, hj⟩
  obtain ⟨bm, hbmL, hbm2⟩ := Nat.find_spec hPex
  have hmin : ∀ k, k < Nat.find hPex →
      ¬ ∃ b ∈ freeBlocks st.free_lists, b.2 = GetBlockSize k :=
    fun k hk => Nat.find_min hPex hk
  have hk0T : Nat.find hPex ≤ T := by
    have h1 := hinL bm hbmL
    rw [hbm2] at h1
    exact GetBlockSize_le_iff.mp (by omega)
  have hk0eq : Nat.find hPex = T := by
    by_contra hne'
    have hk0lt : Nat.find hPex < T := by omega
    have halbm : GetBlockSize (Nat.find hPex) ∣ bm.1 := by
      have := halL bm hbmL
      rw [hbm2] at this
      exact this
    have hinbm : bm.1 + GetBlockSize (Nat.find hPex) ≤ GetBlockSize T := by
      have := hinL bm hbmL
      rw [hbm2] at this
      exact this
    obtain ⟨halb', hinb'⟩ := buddy_welldef (Nat.find hPex) bm.1 T halbm hinbm hk0lt
    have hspos := GetBlockSize_pos (Nat.find hPex)
    have hb'lt : bm.1 ^^^ GetBlockSize (Nat.find hPex) < GetBlockSize T := by omega
    obtain ⟨c, hcL, hc1, hc2⟩ := cover_point hdisjL hinL hsumL _ hb'lt
    obtain ⟨m, hm⟩ := hpowL c hcL
    have hmge : Nat.find hPex ≤ m := by
      by_contra hc'
      push_neg at hc'
      exact hmin m hc' ⟨c, hcL, hm⟩
    have hcal : GetBlockSize m ∣ c.1 := by
      have := halL c hcL
      rw [hm] at this
      exact this
    rcases Nat.eq_or_lt_of_le hmge with hmeq | hmlt
    · -- the covering block has the same level: it is exactly the buddy,
      -- contradicting the per-level no-buddy-pair invariant
      rw [← hmeq] at hm hcal
      rw [hm] at hc2
      have hceq : c.1 = bm.1 ^^^ GetBlockSize (Nat.find hPex) := by
        by_contra hne2
        have hlt2 : c.1 < bm.1 ^^^ GetBlockSize (Nat.find hPex) := by omega
        have := dvd_lt_add_le hcal halb' hlt2
        omega
      obtain ⟨i1, hi1len, hi1mem, hi1sz⟩ :=
        (mem_freeBlocksAux st.free_lists 0 bm).mp hbmL
      obtain ⟨i2, hi2len, hi2mem, hi2sz⟩ :=
        (mem_freeBlocksAux st.free_lists 0 c).mp hcL
      rw [hbm2] at hi1sz
      rw [hm] at hi2sz
      have hi1eq : i1 = Nat.find hPex := by
        have := GetBlockSize_inj hi1sz
        omega
      have hi2eq : i2 = Nat.find hPex := by
        have := GetBlockSize_inj hi2sz
        omega
      rw [hi1eq] at hi1mem
      rw [hi2eq, hceq] at hi2mem
      exact hinv.nobuddy (Nat.find hPex) bm.1 hi1mem hi2mem
    · -- the covering block is strictly larger: it contains the whole
      -- parent interval, hence also `bm`, contradicting disjointness
      have hsucc := GetBlockSize_succ (Nat.find hPex)
      have hs2dvd : GetBlockSize (Nat.find hPex + 1) ∣ GetBlockSize m :=
        GetBlockSize_dvd (by omega)
      have hkey : ∃ m0, GetBlockSize (Nat.find hPex + 1) ∣ m0 ∧
          m0 ≤ (bm.1 ^^^ GetBlockSize (Nat.find hPex)) ∧
          (bm.1 ^^^ GetBlockSize (Nat.find hPex)) <
            m0 + GetBlockSize (Nat.find hPex + 1) ∧
          m0 ≤ bm.1 ∧ bm.1 < m0 + GetBlockSize (Nat.find hPex + 1) := by
        rcases buddy_cases_level (Nat.find hPex) bm.1 halbm with
          ⟨hx, hdvd2⟩ | ⟨hx, hle2, hdvd2⟩
        · exact ⟨bm.1, hdvd2, by omega, by omega, le_rfl, by omega⟩
        · exact ⟨bm.1 - GetBlockSize (Nat.find hPex), hdvd2, by omega, by omega,
            by omega, by omega⟩
      obtain ⟨m0, hm0dvd, h1', h2', h3', h4'⟩ := hkey
      have hcdvd2 : GetBlockSize (Nat.find hPex + 1) ∣ c.1 :=
        dvd_trans hs2dvd hcal
      have hoc_le : c.1 ≤ m0 := by
        by_contra hcc
        push_neg at hcc
        have := dvd_lt_add_le hm0dvd hcdvd2 hcc
        omega
      have hend : m0 + GetBlockSize (Nat.find hPex + 1) ≤ c.1 + c.2 := by
        have hdvdsum : GetBlockSize (Nat.find hPex + 1) ∣ (c.1 + c.2) := by
          rw [hm]
          exact Nat.dvd_add hcdvd2 hs2dvd
        have hlt : m0 < c.1 + c.2 := by omega
        have := dvd_lt_add_le hm0dvd hdvdsum hlt
        omega
      have hcne : c ≠ bm := by
        intro he
        rw [he, hbm2] at hm
        have := GetBlockSize_inj hm
        omega
      have hd := pairwise_disj_mem hdisjL hcL hbmL hcne
      have hd' : c.1 + c.2 ≤ bm.1 ∨ bm.1 + bm.2 ≤ c.1 := hd
      rw [hbm2] at hd'
      omega
  -- every block is the full arena block
  have hallsz : ∀ b ∈ freeBlocks st.free_lists, b.2 = GetBlockSize T := by
    intro b hb
    obtain ⟨j, hj⟩ := hpowL b hb
    have hjge : Nat.find hPex ≤ j := by
      by_contra hc'
      push_neg at hc'
      exact hmin j hc' ⟨b, hb, hj⟩
    have hjle : j ≤ T := by
      have := hinL b hb
      rw [hj] at this
      exact GetBlockSize_le_iff.mp (by omega)
    have : j = T := by omega
    rw [hj, this]
  have halloff : ∀ b ∈ freeBlocks st.free_lists, b.1 = 0 := by
    intro b hb
    have h1 := hinL b hb
    rw [hallsz b hb] at h1
    omega
  obtain ⟨b1, rest, hLc⟩ := List.exists_cons_of_ne_nil hne
  have hb1 : b1 = (0, GetBlockSize T) := by
    have h1 := hallsz b1 (by rw [hLc]; exact List.mem_cons_self _ _)
    have h2 := halloff b1 (by rw [hLc]; exact List.mem_cons_self _ _)
    rw [Prod.ext_iff]
    exact ⟨h2, h1⟩
  have hrest : rest = [] := by
    rcases rest with _ | ⟨c2, rest2⟩
    · rfl
    · exfalso
      have hsz1 := hallsz b1 (by rw [hLc]; exact List.mem_cons_self _ _)
      have hsz2 := hallsz c2
        (by rw [hLc]; exact List.mem_cons_of_mem _ (List.mem_cons_self _ _))
      have h1 : sumPairSizes (freeBlocks st.free_lists) =
          b1.2 + (c2.2 + sumPairSizes rest2) := by
        rw [hLc, sumPairSizes_cons, sumPairSizes_cons]
      rw [hsumL, hsz1, hsz2] at h1
      omega
  have hLeq : freeBlocks st.free_lists = [(0, GetBlockSize T)] := by
    rw [hLc, hb1, hrest]
  have hTlen : T < st.free_lists.length := by
    rw [hinv.len]
    exact hT
  -- level T's list is literally [0]
  have h0mem : (0 : Nat) ∈ st.free_lists.getD T [] := by
    have hmem : ((0, GetBlockSize T) : Nat × Nat) ∈ freeBlocks st.free_lists := by
      rw [hLeq]
      exact List.mem_cons_self _ _
    obtain ⟨i, hilen, himem, hisz⟩ := (mem_freeBlocksAux st.free_lists 0 _).mp hmem
    have : i = T := by
      have := GetBlockSize_inj (show GetBlockSize T = GetBlockSize (0 + i) from hisz)
      omega
    rw [← this]
    exact himem
  have hTne : st.free_lists.getD T [] ≠ [] := by
    intro h0
    rw [h0] at h0mem
    simp at h0mem
  obtain ⟨o, r, hTr⟩ := List.exists_cons_of_ne_nil hTne
  have hTperm := freeBlocks_level_perm st.free_lists 0 T hTlen o r (by rw [hTr])
  have hLeq2 : freeBlocksAux 0 st.free_lists = [(0, GetBlockSize T)] := hLeq
  rw [hLeq2] at hTperm
  have hTeq : ((o, GetBlockSize (0 + T)) ::
      freeBlocksAux 0 (st.free_lists.set T r)) = [(0, GetBlockSize T)] :=
    (List.singleton_perm.mp hTperm).symm
  rw [List.cons.injEq] at hTeq
  obtain ⟨hoeq, hfbset⟩ := hTeq
  have ho0 : o = 0 := by
    have := congrArg Prod.fst hoeq
    simpa using this
  have hrnil : r = [] := by
    rcases r with _ | ⟨o2, r2⟩
    · rfl
    · exfalso
      have ho2mem : o2 ∈ (st.free_lists.set T (o2 :: r2)).getD T [] := by
        rw [getD_set_self _ _ _ hTlen]
        exact List.mem_cons_self _ _
      have hbl : ((o2, GetBlockSize (0 + T)) : Nat × Nat) ∈
          freeBlocksAux 0 (st.free_lists.set T (o2 :: r2)) :=
        (mem_freeBlocksAux _ 0 _).mpr ⟨T, by simpa using hTlen, ho2mem, rfl⟩
      rw [hfbset] at hbl
      simp at hbl
  have hTlist : st.free_lists.getD T [] = [0] := by
    rw [hTr, ho0, hrnil]
  -- all other levels are empty
  have hother : ∀ i, i ≠ T → st.free_lists.getD i [] = [] := by
    intro i hiT
    rw [List.eq_nil_iff_forall_not_mem]
    intro o' ho'
    rcases Nat.lt_or_ge i st.free_lists.length with hilen | hilen
    · have hbl : ((o', GetBlockSize (0 + i)) : Nat × Nat) ∈
          freeBlocks st.free_lists :=
        (mem_freeBlocksAux _ 0 _).mpr ⟨i, hilen, ho', rfl⟩
      rw [hLeq] at hbl
      simp only [List.mem_singleton, Prod.mk.injEq] at hbl
      exact hiT (GetBlockSize_inj (show GetBlockSize i = GetBlockSize T by
        rw [← hbl.2]; congr 1; omega))
    · rw [List.getD_eq_default _ _ hilen] at ho'
      simp at ho'
  -- assemble the list equality
  apply List.ext_getElem
  · rw [hinv.len]
    simp
  · intro i h1 h2
    rw [List.getElem_set]
    by_cases hiT : T = i
    · rw [if_pos hiT]
      rw [← List.getD_eq_getElem st.free_lists [] h1, ← hiT, hTlist]
    · rw [if_neg hiT]
      rw [← List.getD_eq_getElem st.free_lists [] h1,
        hother i (fun h => hiT h.symm)]
      rw [List.getElem_replicate]

theorem BInv_create {capacity : Nat} {T : Nat} (hT : T < MaxLevels)
    (hcap : NextPowerOfTwo capacity = GetBlockSize T) {st0 : BuddyAllocator}
    (h : BuddyAllocator.create capacity = .ok st0) : BInv st0 := by
  unfold BuddyAllocator.create at h
  rcases hc : decide (capacity > 0) with _ | _
  · rw [hiveAssert_false hc] at h
    simp at h
  · rw [hiveAssert_true hc, ok_bind] at h
    simp only [pure_eq_ok, Except.ok.injEq] at h
    subst h
    have hT20 : T ≤ MaxLevels := by omega
    have hGL : GetLevel (NextPowerOfTwo capacity) = T := by
      rw [hcap]; exact GetLevel_blockSize hT20
    have hg0 : (List.replicate MaxLevels ([] : List Nat)).getD T [] = [] := by
      rw [List.getD_eq_getElem _ _ (by simpa using hT)]
      simp
    have hlsets : (List.replicate MaxLevels ([] : List Nat)).set
        (GetLevel (NextPowerOfTwo capacity)) [0] =
        pushAt (List.replicate MaxLevels []) T 0 := by
      rw [hGL, pushAt, hg0]
    have hTlen : T < (List.replicate MaxLevels ([] : List Nat)).length := by
      simpa using hT
    have hperm : (freeBlocks ((List.replicate MaxLevels ([] : List Nat)).set
        (GetLevel (NextPowerOfTwo capacity)) [0])).Perm
        [(0, GetBlockSize T)] := by
      rw [hlsets]
      have := freeBlocks_pushAt (List.replicate MaxLevels []) T hTlen 0
      simp only [freeBlocks, freeBlocksAux_replicate] at this
      simpa [freeBlocks] using this
    have hmemBB : ∀ b, b ∈ buddyBlocks
        ⟨NextPowerOfTwo capacity, 0,
          (List.replicate MaxLevels []).set (GetLevel (NextPowerOfTwo capacity)) [0],
          []⟩ → b = (0, GetBlockSize T) := by
      intro b hb
      simp only [buddyBlocks, List.append_nil] at hb
      have := hperm.mem_iff.mp hb
      simpa using this
    refine ⟨?_, ⟨T, hT, hcap⟩, ?_, ?_, ?_, ?_, ?_, ?_, rfl⟩
    · simp
    · intro b hb
      rw [hmemBB b hb]
      exact ⟨T, rfl⟩
    · intro b hb
      rw [hmemBB b hb]
      simp
    · intro b hb
      rw [hmemBB b hb]
      simpa using le_of_eq hcap.symm
    · show List.Pairwise Disj (buddyBlocks _)
      have heq : buddyBlocks ⟨NextPowerOfTwo capacity, 0,
          (List.replicate MaxLevels []).set (GetLevel (NextPowerOfTwo capacity)) [0],
          []⟩ = freeBlocks ((List.replicate MaxLevels []).set
            (GetLevel (NextPowerOfTwo capacity)) [0]) := by
        simp [buddyBlocks]
      rw [heq]
      exact (hperm.pairwise_iff (fun {_ _} hd => hd.symm')).mpr (by simp)
    · show sumPairSizes (buddyBlocks _) = _
      have h1 : sumPairSizes (buddyBlocks ⟨NextPowerOfTwo capacity, 0,
          (List.replicate MaxLevels []).set (GetLevel (NextPowerOfTwo capacity)) [0],
          []⟩) = sumPairSizes [(0, GetBlockSize T)] := by
        apply sumPairSizes_perm
        simpa [buddyBlocks] using hperm
      rw [h1, hcap]
      simp [sumPairSizes]
    · show NoBuddy _
      rw [hlsets]
      refine NoBuddy_push hTlen (NoBuddy_replicate _) 0 ?_
      rw [List.getD_eq_getElem _ _ hTlen]
      simp

theorem create_ok {capacity : Nat} {st0 : BuddyAllocator}
    (h : BuddyAllocator.create capacity = .ok st0) :
    st0 = ⟨NextPowerOfTwo capacity, 0,
      (List.replicate MaxLevels []).set (GetLevel (NextPowerOfTwo capacity)) [0],
      []⟩ := by
  unfold BuddyAllocator.create at h
  rcases hc : decide (capacity > 0) with _ | _
  · rw [hiveAssert_false hc] at h
    simp at h
  · rw [hiveAssert_true hc, ok_bind] at h
    simp only [pure_eq_ok, Except.ok.injEq] at h
    exact h.symm

theorem BInv_step {st st' : BuddyAllocator} {op : BuddyOp} (hinv : BInv st)
    (h : buddyStep st op = .ok st') : BInv st' := by
  cases op with
  | alloc size alignment =>
    simp only [buddyStep] at h
    rcases ha : st.Allocate size alignment with e | ⟨r, st2⟩
    · rw [ha] at h
      simp at h
    · rw [ha] at h
      simp only [ok_bind, pure_eq_ok, Except.ok.injEq] at h
      subst h
      rcases r with _ | p
      · show BInv st2
        rw [BuddyAllocator.Allocate_ok_none ha]
        exact hinv
      · exact BInv_allocate hinv ha
  | free p =>
    rcases p with _ | q
    · simp only [buddyStep, BuddyAllocator.Deallocate, Except.ok.injEq] at h
      rw [← h]
      exact hinv
    · exact BInv_dealloc hinv h

theorem BInv_run : ∀ (ops : List BuddyOp) (st st' : BuddyAllocator),
    BInv st → runBuddy st ops = .ok st' → BInv st' := by
  intro ops
  induction ops with
  | nil =>
    intro st st' hinv h
    simp only [runBuddy, Except.ok.injEq] at h
    rw [← h]
    exact hinv
  | cons op ops ih =>
    intro st st' hinv h
    simp only [runBuddy] at h
    rcases hs : buddyStep st op with e | st1
    · rw [hs] at h
      simp at h
    · rw [hs, ok_bind] at h
      exact ih st1 st' (BInv_step hinv hs) h

/-- C1: for the Buddy allocator, after any sequence of operations that
completes without error and ends with every allocation deallocated (no
live header remains), the free-list state equals the initial state
produced by the constructor: exactly one free block covering `[0, C)` at
the top level, and `GetUsedMemory() = 0`.  In particular, the
deallocation path iteratively merges a block with its buddy at offset
`offset XOR block_size` whenever that buddy is on the same level's free
list and the buddy offset is `< C`. -/
theorem C1_buddy_full_cycle_restores {capacity T : Nat}
    {st0 st' : BuddyAllocator} {ops : List BuddyOp}
    (hT : T < MaxLevels)
    (hcap : NextPowerOfTwo capacity = GetBlockSize T)
    (h0 : BuddyAllocator.create capacity = .ok st0)
    (hrun : runBuddy st0 ops = .ok st')
    (hall : st'.headers = []) :
    (st'.free_lists = st0.free_lists ∧
     st'.free_lists = (List.replicate MaxLevels []).set T [0] ∧
     st'.GetUsedMemory = 0) ∧
    (∀ (C fuel : Nat) (ls : List (List Nat)) (offset blockSize level : Nat),
      level < MaxLevels - 1 →
      offset ^^^ blockSize < C →
      (offset ^^^ blockSize) ∈ ls.getD level [] →
      CoalesceAndInsert C (fuel + 1) ls offset blockSize level =
        CoalesceAndInsert C fuel
          (ls.set level ((ls.getD level []).erase (offset ^^^ blockSize)))
          (min offset (offset ^^^ blockSize)) (2 * blockSize) (level + 1)) := by
  have hinv0 := BInv_create hT hcap h0
  have hinv' := BInv_run ops st0 st' hinv0 hrun
  have hcappres : st'.capacity = st0.capacity := runBuddy_capacity ops st0 st' hrun
  have hst0 := create_ok h0
  have hGL : GetLevel (NextPowerOfTwo capacity) = T := by
    rw [hcap]
    exact GetLevel_blockSize (by omega)
  have hcap' : st'.capacity = GetBlockSize T := by
    rw [hcappres, hst0]
    show NextPowerOfTwo capacity = GetBlockSize T
    exact hcap
  have hfinal := BInv_final hinv' hall hT hcap'
  refine ⟨⟨?_, hfinal, ?_⟩, ?_⟩
  · rw [hfinal, hst0]
    show (List.replicate MaxLevels []).set T [0] =
      (List.replicate MaxLevels []).set (GetLevel (NextPowerOfTwo capacity)) [0]
    rw [hGL]
  · show st'.used_memory = 0
    rw [hinv'.usedInv, hall]
    rfl
  · intro C fuel ls offset blockSize level h1 h2 h3
    exact CoalesceAndInsert_merge C fuel ls offset blockSize level h1 (by omega) h3

theorem C1_witness :
    ((14 < MaxLevels) ∧
     NextPowerOfTwo 1048576 = GetBlockSize 14 ∧
     BuddyAllocator.create 1048576 =
       .ok ⟨1048576, 0, (List.replicate MaxLevels []).set 14 [0], []⟩ ∧
     runBuddy ⟨1048576, 0, (List.replicate MaxLevels []).set 14 [0], []⟩
       [BuddyOp.alloc 100 8, BuddyOp.alloc 100 8,
        BuddyOp.free (some 8), BuddyOp.free (some 136)] =
       .ok ⟨1048576, 0, (List.replicate MaxLevels []).set 14 [0], []⟩ ∧
     (⟨1048576, 0, (List.replicate MaxLevels []).set 14 [0], []⟩ :
       BuddyAllocator).headers = []) ∧
    ((⟨1048576, 0, (List.replicate MaxLevels []).set 14 [0], []⟩ :
       BuddyAllocator).free_lists =
       (⟨1048576, 0, (List.replicate MaxLevels []).set 14 [0], []⟩ :
         BuddyAllocator).free_lists ∧
     (⟨1048576, 0, (List.replicate MaxLevels []).set 14 [0], []⟩ :
       BuddyAllocator).free_lists =
       (List.replicate MaxLevels []).set 14 [0] ∧
     (⟨1048576, 0, (List.replicate MaxLevels []).set 14 [0], []⟩ :
       BuddyAllocator).GetUsedMemory = 0) :=
  ⟨⟨by decide, rfl, rfl, rfl, rfl⟩,
   (@C1_buddy_full_cycle_restores 1048576 14
     ⟨1048576, 0, (List.replicate MaxLevels []).set 14 [0], []⟩
     ⟨1048576, 0, (List.replicate MaxLevels []).set 14 [0], []⟩
     [BuddyOp.alloc 100 8, BuddyOp.alloc 100 8,
      BuddyOp.free (some 8), BuddyOp.free (some 136)]
     (by decide) rfl rfl rfl rfl).1⟩

end Comb
